import Mathlib

/-!
# ytrss-cli: the terminal UI state machine, its polling loop and its presentation helpers

A shallow embedding of `ui/ui.go` and `ui/utils.go` (with the data types of `api/api.go`).

* `Model`, `Msg`, `Cmd` and `Update` follow `ui/ui.go`.  A `tea.Cmd` is represented by the task
  it names, and the result of `tea.Batch` by the list of its non-nil commands.
* The bubbles widgets (`textinput`, `list`, `table`, `spinner`), the keyring and the host clock
  are outside the repository.  Their state is kept to the fields the program reads, and their
  behaviour is supplied through the record `Lib`, over which the theorems quantify.
* A Go run-time panic (nil dereference) is the result `none` of `Update`.
-/

namespace YtRss

/-! ## api/api.go : data types -/

/-- The `api.Podcast` record. -/
structure Podcast where
  ID : String
  Title : String
deriving DecidableEq, Repr

/-- The `api.Item` record. -/
structure Item where
  Status : String
  Title : String
  Error : String
  Created : String
deriving DecidableEq, Repr

/-- The `api.UsageResponse` record. -/
structure UsageResponse where
  Usage : Int
  Limit : Int
deriving DecidableEq, Repr

/-! ## ui/ui.go : view states, messages, commands -/

/-- The `ViewState` enumeration. -/
inductive ViewState
  | ViewSetAPIKey
  | ViewMainMenu
  | ViewSelectPodcast
  | ViewEnterURL
  | ViewItemsTable
  | ViewFatalError
deriving DecidableEq, Repr

/-- The messages `Update` receives.  `KeyMsg` carries the value of `msg.String()`;
an `error` is `none` for nil and `some text` otherwise; `OtherMsg` stands for every
message type the program does not name (spinner ticks, cursor blinks, ...). -/
inductive Msg
  | FatalErrorMsg (err : Option String)
  | WindowSizeMsg (width height : Int)
  | ApiKeyCheckedMsg (hasKey : Bool)
  | UsageLoadedMsg (usage : Option UsageResponse) (err : Option String)
  | PodcastsLoadedMsg (podcasts : List Podcast) (err : Option String)
  | UrlAddedMsg (item : Item) (err : Option String)
  | ItemsLoadedMsg (items : List Item) (err : Option String)
  | TickMsg (t : Nat)
  | KeyMsg (key : String)
  | OtherMsg (tag : Nat)
deriving DecidableEq, Repr

/-- The commands `Update` hands back to the runtime.  `Tick d` is `tea.Tick` with a delay of
`d` seconds whose firing delivers a `TickMsg`; `Widget` is a command returned by a bubbles
widget. -/
inductive Cmd
  | Quit
  | CheckAPIKey
  | LoadPodcasts
  | AddURL (podcastID url : String)
  | LoadItems (podcastID : String)
  | LoadUsage
  | Tick (seconds : Nat)
  | Widget (tag : Nat)
deriving DecidableEq, Repr

/-! ## Widget state (bubbles), reduced to what the program reads -/

/-- State of a `textinput.Model`: its text and whether it has focus. -/
structure TextInput where
  value : String
  focus : Bool
  CharLimit : Nat
deriving DecidableEq, Repr

/-- The method `textinput.Model.Value`. -/
def TextInput.Value (t : TextInput) : String := t.value

/-- The method `textinput.Model.Focus` (its returned blink command is dropped by every caller). -/
def TextInput.Focus (t : TextInput) : TextInput := { t with focus := true }

/-- The method `textinput.Model.Blur`. -/
def TextInput.Blur (t : TextInput) : TextInput := { t with focus := false }

/-- The method `textinput.Model.SetValue`: the text is cut to the character limit
(a limit of zero means no limit). -/
def TextInput.SetValue (t : TextInput) (s : String) : TextInput :=
  { t with value := if t.CharLimit = 0 then s else String.mk (s.toList.take t.CharLimit) }

/-- State of the main menu `list.Model`: its entries and the selected index. -/
structure ListModel where
  items : List String
  index : Nat
deriving DecidableEq, Repr

/-- The method `list.Model.SelectedItem`: the entry under the cursor, nil when out of range. -/
def ListModel.SelectedItem (l : ListModel) : Option String := l.items.get? l.index

/-- State of a `table.Model`: its rows, its cursor (a Go `int`, which the widget can make
negative), its height and whether it has focus. -/
structure Table where
  rows : List (List String)
  cursor : Int
  height : Nat
  focus : Bool
deriving DecidableEq, Repr

/-- The method `table.Model.Cursor`. -/
def Table.Cursor (t : Table) : Int := t.cursor

/-- State of the `spinner.Model`: the current frame. -/
structure Spinner where
  frame : Nat
deriving DecidableEq, Repr

/-- An instant as `time.Time` compares it: nanoseconds since January 1, year 1, 00:00:00 UTC.
The zero value of `time.Time` is the instant 0. -/
abbrev Time := Int

/-- The method `time.Time.IsZero`. -/
def Time.IsZero (t : Time) : Bool := t == 0

/-- The method `time.Time.After`. -/
def Time.After (t u : Time) : Bool := decide (u < t)

/-- Behaviour supplied by code outside the repository: the bubbles widgets, the system keyring,
the host time zone and the standard sort.  A widget command is named by a tag. -/
structure Lib where
  textinputUpdate : TextInput → Msg → TextInput × Option Nat
  listUpdate : ListModel → Msg → ListModel × Option Nat
  tableUpdate : Table → Msg → Table × Option Nat
  spinnerUpdate : Spinner → Msg → Spinner × Option Nat
  spinnerView : Spinner → String
  SetApiKey : String → Option String
  ClearApiKey : Option String
  formatLocal : Time → String
  sortSlice : (Item → Item → Bool) → List Item → List Item

/-- The `Model` record of the program. -/
structure Model where
  State : ViewState
  HasAPIKey : Bool
  ApiKeyInput : TextInput
  UrlInput : TextInput
  MainMenu : ListModel
  PodcastTable : Table
  ItemsTable : Table
  Podcasts : List Podcast
  SelectedPodcast : Option Podcast
  Items : List Item
  Spinner : Spinner
  Usage : Option UsageResponse
  Error : String
  Message : String
  Width : Int
  Height : Int
  Polling : Bool
deriving DecidableEq, Repr

/-- The function `InitialModel`. -/
def InitialModel : Model :=
  { State := .ViewSetAPIKey
    HasAPIKey := false
    ApiKeyInput := { value := "", focus := true, CharLimit := 256 }
    UrlInput := { value := "", focus := false, CharLimit := 500 }
    MainMenu := { items := ["Add YouTube URL", "Set API Key"], index := 0 }
    PodcastTable := { rows := [], cursor := 0, height := 0, focus := false }
    ItemsTable := { rows := [], cursor := 0, height := 0, focus := false }
    Podcasts := []
    SelectedPodcast := none
    Items := []
    Spinner := { frame := 0 }
    Usage := none
    Error := ""
    Message := ""
    Width := 0
    Height := 0
    Polling := false }

/-! ## Go's `time.Parse`, for the layouts `parseCreatedTime` tries

`time.Parse` belongs to the Go standard library.  The layouts are given as the element lists
into which `time.Parse` cuts the layout strings; the value is read as a list of characters
(every character that lets a parse succeed is ASCII, so bytes and characters agree). -/

/-- One element of a layout: literal text or a reference-time field. -/
inductive Chunk
  | lit (text : List Char)
  | stdLongYear
  | stdZeroMonth
  | stdZeroDay
  | stdHour
  | stdZeroMinute
  | stdZeroSecond
  | stdFracSecond9
  | stdISO8601ColonTZ
deriving DecidableEq, Repr

/-- The fields `time.Parse` collects. `zoneOffset` is in seconds east of UTC. -/
structure Fields where
  year : Nat
  month : Nat
  day : Nat
  hour : Nat
  min : Nat
  sec : Nat
  nsec : Nat
  zoneOffset : Int
deriving DecidableEq, Repr

/-- The test `isDigit` of the time package. -/
def isDigit (c : Char) : Bool := decide ('0'.toNat ≤ c.toNat) && decide (c.toNat ≤ '9'.toNat)

/-- The value of a decimal digit. -/
def digitVal (c : Char) : Nat := c.toNat - '0'.toNat

/-- The test `commaOrPeriod` of the time package. -/
def commaOrPeriod (c : Char) : Bool := c == '.' || c == ','

/-- The helper `getnum`: one or two leading digits, exactly two when `fixed`. -/
def getnum (s : List Char) (fixed : Bool) : Option (Nat × List Char) :=
  match s with
  | [] => none
  | c0 :: rest =>
    if !isDigit c0 then none
    else match rest with
      | [] => if fixed then none else some (digitVal c0, [])
      | c1 :: rest1 =>
        if isDigit c1 then some (digitVal c0 * 10 + digitVal c1, rest1)
        else if fixed then none else some (digitVal c0, rest)

/-- The helper `cutspace`: drop leading spaces. -/
def cutspace : List Char → List Char
  | [] => []
  | c :: s => if c = ' ' then cutspace s else c :: s

/-- The loop of `skip`; `cut` records that the run of spaces of the literal text that is being
read has already been matched (the effect of `cutspace` on the literal text). -/
def skipAux : Bool → List Char → List Char → Option (List Char)
  | _, value, [] => some value
  | cut, value, p :: ps =>
    if p = ' ' then
      if cut then skipAux true value ps
      else match value with
        | [] => skipAux true [] ps
        | c :: v => if c ≠ ' ' then none else skipAux true (cutspace (c :: v)) ps
    else match value with
      | [] => none
      | c :: v => if c = p then skipAux false v ps else none

/-- The helper `skip`: remove the literal text from the front of the value, a run of spaces
matching a run of spaces. -/
def skip (value text : List Char) : Option (List Char) := skipAux false value text

/-- The leading run of digits of a value and what follows it. -/
def spanDigits : List Char → List Char × List Char
  | [] => ([], [])
  | c :: s => if isDigit c then ((spanDigits s).1.cons c, (spanDigits s).2) else ([], c :: s)

/-- The decimal value of a list of digits. -/
def digitsVal (ds : List Char) : Nat := ds.foldl (fun acc c => acc * 10 + digitVal c) 0

/-- The helper `parseNanoseconds`, applied to the digits after the comma or period: at most
nine digits count, scaled to nanoseconds. -/
def parseNanoseconds (ds : List Char) : Nat :=
  digitsVal (ds.take 9) * 10 ^ (9 - (ds.take 9).length)

/-- A fractional second at the front of the value, when there is one: separator, then at
least one digit.  Returns the nanoseconds and the rest of the value. -/
def takeFraction (value : List Char) : Option (Nat × List Char) :=
  match value with
  | sep :: c :: s =>
    if commaOrPeriod sep && isDigit c then
      some (parseNanoseconds (spanDigits (c :: s)).1, (spanDigits (c :: s)).2)
    else none
  | _ => none

/-- The next field of the remaining layout, literal text skipped (`nextStdChunk`). -/
def nextStd : List Chunk → Option Chunk
  | [] => none
  | .lit _ :: rest => nextStd rest
  | c :: _ => some c

/-- The zone of layout element `Z07:00`: `Z`, or sign, two digits, colon, two digits. -/
def parseZone (value : List Char) : Option (Int × List Char) :=
  match value with
  | 'Z' :: v => some (0, v)
  | sign :: h1 :: h2 :: colon :: m1 :: m2 :: v =>
    if colon ≠ ':' then none
    else match getnum [h1, h2] true, getnum [m1, m2] true with
      | some (hr, _), some (mm, _) =>
        if 24 < hr || 60 < mm then none
        else if sign = '+' then some (((hr * 60 + mm) * 60 : Nat), v)
        else if sign = '-' then some (-(((hr * 60 + mm) * 60 : Nat) : Int), v)
        else none
      | _, _ => none
  | _ => none

/-- The interpretation loop of `time.Parse`: read the value element by element; any failure
(bad syntax, a field out of range, text left over) is `none`. -/
def parseChunks : List Chunk → List Char → Fields → Option Fields
  | [], value, f => if value.isEmpty then some f else none
  | .lit text :: rest, value, f =>
    match skip value text with
    | none => none
    | some v => parseChunks rest v f
  | .stdLongYear :: rest, value, f =>
    match value with
    | a :: b :: c :: d :: v =>
      if isDigit a && isDigit b && isDigit c && isDigit d then
        parseChunks rest v { f with year := digitsVal [a, b, c, d] }
      else none
    | _ => none
  | .stdZeroMonth :: rest, value, f =>
    match getnum value true with
    | none => none
    | some (n, v) => if n = 0 ∨ 12 < n then none else parseChunks rest v { f with month := n }
  | .stdZeroDay :: rest, value, f =>
    match getnum value true with
    | none => none
    | some (n, v) => parseChunks rest v { f with day := n }
  | .stdHour :: rest, value, f =>
    match getnum value false with
    | none => none
    | some (n, v) => if 24 ≤ n then none else parseChunks rest v { f with hour := n }
  | .stdZeroMinute :: rest, value, f =>
    match getnum value true with
    | none => none
    | some (n, v) => if 60 ≤ n then none else parseChunks rest v { f with min := n }
  | .stdZeroSecond :: rest, value, f =>
    match getnum value true with
    | none => none
    | some (n, v) =>
      if 60 ≤ n then none
      else if nextStd rest = some .stdFracSecond9 then parseChunks rest v { f with sec := n }
      else match takeFraction v with
        | none => parseChunks rest v { f with sec := n }
        | some (ns, v1) => parseChunks rest v1 { f with sec := n, nsec := ns }
  | .stdFracSecond9 :: rest, value, f =>
    match takeFraction value with
    | none => parseChunks rest value f
    | some (ns, v) => parseChunks rest v { f with nsec := ns }
  | .stdISO8601ColonTZ :: rest, value, f =>
    match parseZone value with
    | none => none
    | some (off, v) => parseChunks rest v { f with zoneOffset := off }

/-- The predicate `isLeap` of the time package. -/
def isLeap (year : Nat) : Bool := year % 4 == 0 && (year % 100 != 0 || year % 400 == 0)

/-- The function `daysIn` of the time package. -/
def daysIn (month year : Nat) : Nat :=
  if month = 2 then (if isLeap year then 29 else 28)
  else if month = 4 ∨ month = 6 ∨ month = 9 ∨ month = 11 then 30 else 31

/-- Days of a common year before the first of the month. -/
def daysBefore (month : Nat) : Nat :=
  [0, 31, 59, 90, 120, 151, 181, 212, 243, 273, 304, 334].getD (month - 1) 0

/-- Days from January 1 of year 0 to the given date of the proleptic Gregorian calendar. -/
def daysFromYearZero (year month day : Nat) : Nat :=
  365 * year + (if year = 0 then 0 else (year - 1) / 4 - (year - 1) / 100 + (year - 1) / 400 + 1)
    + daysBefore month + (if isLeap year && decide (2 < month) then 1 else 0) + (day - 1)

/-- The instant of the collected fields (`time.Date` in UTC, moved by the zone offset),
after the validation of the day of the month. -/
def Fields.toTime (f : Fields) : Option Time :=
  if f.day < 1 ∨ daysIn f.month f.year < f.day then none
  else
    some ((((daysFromYearZero f.year f.month f.day : Int) - 366) * 86400
        + (f.hour * 3600 + f.min * 60 + f.sec : Nat) - f.zoneOffset) * 1000000000 + f.nsec)

/-- The function `time.Parse` on a layout given by its elements; the zone defaults to UTC. -/
def timeParse (layout : List Chunk) (value : String) : Option Time :=
  match parseChunks layout value.toList
      { year := 0, month := 0, day := 0, hour := 0, min := 0, sec := 0, nsec := 0,
        zoneOffset := 0 } with
  | none => none
  | some f => f.toTime

/-- The common front of all five layouts: `2006-01-02`, a separator, `15:04:05`. -/
def dateTimeChunks (sep : Char) : List Chunk :=
  [.stdLongYear, .lit ['-'], .stdZeroMonth, .lit ['-'], .stdZeroDay, .lit [sep],
   .stdHour, .lit [':'], .stdZeroMinute, .lit [':'], .stdZeroSecond]

/-- The list `layouts` of `parseCreatedTime`, in its order: `time.RFC3339Nano`, `time.RFC3339`,
`"2006-01-02 15:04:05.999Z"`, `"2006-01-02 15:04:05Z"`, `"2006-01-02 15:04:05.999Z07:00"`. -/
def layouts : List (List Chunk) :=
  [ dateTimeChunks 'T' ++ [.stdFracSecond9, .stdISO8601ColonTZ],
    dateTimeChunks 'T' ++ [.stdISO8601ColonTZ],
    dateTimeChunks ' ' ++ [.stdFracSecond9, .lit ['Z']],
    dateTimeChunks ' ' ++ [.lit ['Z']],
    dateTimeChunks ' ' ++ [.stdFracSecond9, .stdISO8601ColonTZ] ]

/-- The loop of `parseCreatedTime` over the layouts: the first successful parse wins. -/
def firstParse : List (List Chunk) → String → Time
  | [], _ => 0
  | layout :: rest, created =>
    match timeParse layout created with
    | some t => t
    | none => firstParse rest created

/-- The function `parseCreatedTime`. -/
def parseCreatedTime (created : String) : Time :=
  if created = "" then 0 else firstParse layouts created

/-! ## ui/utils.go : formatBytes

`formatBytes` goes through `float64`.  The three floating-point steps are modelled exactly:
the conversion of an integer rounds to 53 significant bits, ties to even; the division by a
power of two is exact; `%.2f` prints the decimal with two fraction digits nearest to the exact
value of its argument, ties to even. -/

/-- Bits of `n` beyond the 53 a `float64` significand holds. -/
def excessBits : Nat → Nat → Nat
  | 0, _ => 0
  | fuel + 1, n => if n < 2 ^ 53 then 0 else excessBits fuel (n / 2) + 1

/-- The nearest integer to `num / den`, ties to even. -/
def roundHalfEven (num den : Nat) : Nat :=
  if den < 2 * (num % den) ∨ (2 * (num % den) = den ∧ (num / den) % 2 = 1) then num / den + 1
  else num / den

/-- The conversion `float64(n)` of a non-negative integer, as the (integral) value of the
result. -/
def float64OfNat (n : Nat) : Nat :=
  roundHalfEven n (2 ^ excessBits n n) * 2 ^ excessBits n n

/-- The text of `h` hundredths with two fraction digits. -/
def fixed2 (h : Nat) : String :=
  toString (h / 100) ++ "." ++ toString (h % 100 / 10) ++ toString (h % 10)

/-- The call `fmt.Sprintf("%.2f", x)` for the `float64` value `x = num / den`. -/
def sprintf2f (num den : Nat) : String := fixed2 (roundHalfEven (num * 100) den)

/-- The constant `KB` of `formatBytes`. -/
def KB : Nat := 1024

/-- The constant `MB` of `formatBytes`. -/
def MB : Nat := 1024 * KB

/-- The constant `GB` of `formatBytes`. -/
def GB : Nat := 1024 * MB

/-- The function `formatBytes`. -/
def formatBytes (bytes : Int) : String :=
  if (GB : Int) ≤ bytes then sprintf2f (float64OfNat bytes.toNat) GB ++ " GB"
  else if (MB : Int) ≤ bytes then sprintf2f (float64OfNat bytes.toNat) MB ++ " MB"
  else if (KB : Int) ≤ bytes then sprintf2f (float64OfNat bytes.toNat) KB ++ " KB"
  else toString bytes ++ " B"

/-! ## ui/utils.go : buildItemsTable, buildPodcastTable, tick -/

/-- The function `tick`: a one-shot timer of three seconds that delivers a `TickMsg`. -/
def tick : Cmd := .Tick 3

/-- The comparator handed to `sort.Slice` in `buildItemsTable`, on the two elements the
indices name. -/
def itemLess (a b : Item) : Bool :=
  if Time.IsZero (parseCreatedTime a.Created) && Time.IsZero (parseCreatedTime b.Created) then
    false
  else if Time.IsZero (parseCreatedTime a.Created) then false
  else if Time.IsZero (parseCreatedTime b.Created) then true
  else Time.After (parseCreatedTime a.Created) (parseCreatedTime b.Created)

/-- The status cell of a row. -/
def statusCell (L : Lib) (sp : Spinner) (item : Item) : String :=
  if item.Status = "CREATED" then L.spinnerView sp ++ " PROCESSING"
  else if item.Status = "ERROR" then "❌ ERROR"
  else if item.Status = "SUCCESS" then "✓ SUCCESS"
  else item.Status

/-- The title cell of a row. -/
def titleCell (item : Item) : String :=
  if item.Title = "" then
    if item.Status = "CREATED" then "Processing..." else "(No title)"
  else item.Title

/-- The created cell of a row. -/
def createdCell (L : Lib) (item : Item) : String :=
  if item.Created ≠ "" then
    if !Time.IsZero (parseCreatedTime item.Created) then
      L.formatLocal (parseCreatedTime item.Created)
    else item.Created
  else "-"

/-- One `table.Row` of the items table: title, status, created. -/
def itemRow (L : Lib) (sp : Spinner) (item : Item) : List String :=
  [titleCell item, statusCell L sp item, createdCell L item]

/-- The slice `sortedItems` of `buildItemsTable`: a copy of the items, sorted by `sort.Slice`. -/
def sortedItems (L : Lib) (items : List Item) : List Item := L.sortSlice itemLess items

/-- The method `buildItemsTable`. -/
def buildItemsTable (L : Lib) (m : Model) : Model :=
  { m with
    ItemsTable :=
      { rows := (sortedItems L m.Items).map (itemRow L m.Spinner)
        cursor := 0
        height := min ((sortedItems L m.Items).length + 2) 20
        focus := true } }

/-- The method `buildPodcastTable`. -/
def buildPodcastTable (m : Model) : Model :=
  { m with
    PodcastTable :=
      { rows := m.Podcasts.map (fun p => [p.Title]), cursor := 0, height := 10, focus := true } }

/-! ## ui/ui.go : Update -/

/-- A command returned by a widget, as an entry of `cmds` (`tea.Batch` drops nil). -/
def widgetCmd (o : Option Nat) : List Cmd :=
  match o with
  | none => []
  | some tag => [.Widget tag]

/-- The `switch m.State` at the end of `Update`: the message goes to the widget of the
current view. -/
def forwardToView (L : Lib) (m : Model) (msg : Msg) (cmds : List Cmd) : Model × List Cmd :=
  match m.State with
  | .ViewSetAPIKey =>
    ({ m with ApiKeyInput := (L.textinputUpdate m.ApiKeyInput msg).1 },
      cmds ++ widgetCmd (L.textinputUpdate m.ApiKeyInput msg).2)
  | .ViewMainMenu =>
    ({ m with MainMenu := (L.listUpdate m.MainMenu msg).1 },
      cmds ++ widgetCmd (L.listUpdate m.MainMenu msg).2)
  | .ViewSelectPodcast =>
    ({ m with PodcastTable := (L.tableUpdate m.PodcastTable msg).1 },
      cmds ++ widgetCmd (L.tableUpdate m.PodcastTable msg).2)
  | .ViewEnterURL =>
    ({ m with UrlInput := (L.textinputUpdate m.UrlInput msg).1 },
      cmds ++ widgetCmd (L.textinputUpdate m.UrlInput msg).2)
  | .ViewItemsTable =>
    ({ m with ItemsTable := (L.tableUpdate m.ItemsTable msg).1 },
      cmds ++ widgetCmd (L.tableUpdate m.ItemsTable msg).2)
  | .ViewFatalError => (m, cmds)

/-- The end of `Update`, reached by every branch that does not return early: the widget of the
current view and the spinner see the message, the items table is rebuilt when it is shown, and
the collected commands are batched. -/
def updateTail (L : Lib) (m : Model) (msg : Msg) (cmds : List Cmd) : Model × List Cmd :=
  let m1 := (forwardToView L m msg cmds).1
  let cmds1 := (forwardToView L m msg cmds).2
  let m2 : Model := { m1 with Spinner := (L.spinnerUpdate m1.Spinner msg).1 }
  let cmds2 := cmds1 ++ widgetCmd (L.spinnerUpdate m1.Spinner msg).2
  (if m2.State = .ViewItemsTable ∧ 0 < m2.Items.length then buildItemsTable L m2 else m2, cmds2)

/-- The loop of the `ItemsLoadedMsg` branch over the items, started with
`(hasCreated, allSuccess) = (false, true)`; it stops at the first `CREATED` item. -/
def scanStatuses : List Item → Bool × Bool → Bool × Bool
  | [], acc => acc
  | item :: rest, acc =>
    if item.Status = "CREATED" then (true, false)
    else if item.Status ≠ "SUCCESS" then scanStatuses rest (acc.1, false)
    else scanStatuses rest acc

/-- The `tea.KeyMsg` branch of `Update`. -/
def updateKey (L : Lib) (m : Model) (key : String) : Option (Model × List Cmd) :=
  match m.State with
  | .ViewSetAPIKey =>
    if key = "ctrl+c" ∨ key = "esc" then
      if m.HasAPIKey then some ({ m with State := .ViewMainMenu }, [])
      else some (m, [.Quit])
    else if key = "ctrl+d" then
      match L.ClearApiKey with
      | some e => some ({ m with Error := e }, [])
      | none =>
        some ({ m with HasAPIKey := false, Message := "API key cleared successfully!",
                       Error := "" }, [])
    else if key = "enter" then
      if m.ApiKeyInput.Value ≠ "" then
        match L.SetApiKey m.ApiKeyInput.Value with
        | some e => some ({ m with Error := e }, [])
        | none =>
          some ({ m with HasAPIKey := true, Message := "API key saved successfully!",
                         ApiKeyInput := m.ApiKeyInput.SetValue "",
                         State := .ViewMainMenu }, [.LoadUsage])
      else some (m, [])
    else some (updateTail L m (.KeyMsg key) [])
  | .ViewMainMenu =>
    if key = "ctrl+c" ∨ key = "q" then some (m, [.Quit])
    else if key = "enter" then
      match m.MainMenu.SelectedItem with
      | none => some (updateTail L m (.KeyMsg key) [])
      | some selected =>
        if selected = "Set API Key" then
          some (updateTail L
            { m with State := .ViewSetAPIKey, ApiKeyInput := m.ApiKeyInput.Focus,
                     Error := "", Message := "" } (.KeyMsg key) [])
        else if selected = "Add YouTube URL" then
          some ({ m with State := .ViewSelectPodcast, Error := "", Message := "" },
            [.LoadPodcasts])
        else some (updateTail L m (.KeyMsg key) [])
    else some (updateTail L m (.KeyMsg key) [])
  | .ViewSelectPodcast =>
    if key = "ctrl+c" ∨ key = "q" then some (m, [.Quit])
    else if key = "esc" then some ({ m with State := .ViewMainMenu }, [])
    else if key = "enter" then
      if m.PodcastTable.Cursor < (m.Podcasts.length : Int) then
        if m.PodcastTable.Cursor < 0 then none
        else
          match m.Podcasts.get? m.PodcastTable.Cursor.toNat with
          | some p =>
            some ({ m with SelectedPodcast := some p, State := .ViewEnterURL,
                           UrlInput := (m.UrlInput.Focus).SetValue "" }, [])
          | none => none
      else some (updateTail L m (.KeyMsg key) [])
    else some (updateTail L m (.KeyMsg key) [])
  | .ViewEnterURL =>
    if key = "ctrl+c" ∨ key = "q" then some (m, [.Quit])
    else if key = "esc" then
      some ({ m with State := .ViewSelectPodcast, UrlInput := m.UrlInput.Blur }, [])
    else if key = "enter" then
      match m.SelectedPodcast with
      | some p =>
        if m.UrlInput.Value ≠ "" then
          some ({ m with UrlInput := m.UrlInput.SetValue "" }, [.AddURL p.ID m.UrlInput.Value])
        else some (updateTail L m (.KeyMsg key) [])
      | none => some (updateTail L m (.KeyMsg key) [])
    else some (updateTail L m (.KeyMsg key) [])
  | .ViewItemsTable =>
    if key = "ctrl+c" ∨ key = "q" then some ({ m with Polling := false }, [.Quit])
    else if key = "a" then
      some ({ m with State := .ViewEnterURL, UrlInput := (m.UrlInput.Focus).SetValue "",
                     Polling := false }, [])
    else if key = "m" then
      some ({ m with State := .ViewMainMenu, Polling := false, SelectedPodcast := none },
        [.LoadUsage])
    else some (updateTail L m (.KeyMsg key) [])
  | .ViewFatalError => some (updateTail L m (.KeyMsg key) [])

/-- The `ItemsLoadedMsg` branch of `Update` without error: the items replace the old ones, the
table is rebuilt, and the statuses decide between the next tick and the end of polling. -/
def updateItemsLoaded (L : Lib) (m : Model) (items : List Item) : Model × List Cmd :=
  if (scanStatuses items (false, true)).1 && m.Polling then
    updateTail L (buildItemsTable L { m with Items := items }) (.ItemsLoadedMsg items none) [tick]
  else
    updateTail L { buildItemsTable L { m with Items := items } with Polling := false }
      (.ItemsLoadedMsg items none)
      (if (scanStatuses items (false, true)).2 && decide (0 < items.length) then [.LoadUsage]
       else [])

/-- The method `Update`.  The result is `none` where the Go code panics: a `FatalErrorMsg`
whose error is nil, a successful `UrlAddedMsg` while `SelectedPodcast` is nil, and the enter key
in `ViewSelectPodcast` while the cursor of the podcast table is negative (`m.Podcasts[cursor]`
is then out of range). -/
def Update (L : Lib) (m : Model) (msg : Msg) : Option (Model × List Cmd) :=
  match msg with
  | .FatalErrorMsg none => none
  | .FatalErrorMsg (some e) => some ({ m with Error := e, State := .ViewFatalError }, [.Quit])
  | .WindowSizeMsg w h => some (updateTail L { m with Width := w, Height := h } msg [])
  | .ApiKeyCheckedMsg hasKey =>
    if hasKey then some ({ m with HasAPIKey := hasKey, State := .ViewMainMenu }, [.LoadUsage])
    else
      some (updateTail L
        { m with HasAPIKey := hasKey, State := .ViewSetAPIKey,
                 ApiKeyInput := m.ApiKeyInput.Focus } msg [])
  | .UsageLoadedMsg usage err =>
    match err with
    | some e => some (updateTail L { m with Error := e } msg [])
    | none => some (updateTail L { m with Usage := usage } msg [])
  | .PodcastsLoadedMsg podcasts err =>
    match err with
    | some e => some (updateTail L { m with Error := e, State := .ViewMainMenu } msg [])
    | none =>
      some (updateTail L
        { buildPodcastTable { m with Podcasts := podcasts, Error := "" } with
          State := .ViewSelectPodcast } msg [])
  | .UrlAddedMsg _ err =>
    match err with
    | some e => some (updateTail L { m with Error := e } msg [])
    | none =>
      match m.SelectedPodcast with
      | none => none
      | some p =>
        some (updateTail L { m with Error := "", State := .ViewItemsTable, Polling := true } msg
          [.LoadItems p.ID])
  | .ItemsLoadedMsg items err =>
    match err with
    | some e => some (updateTail L { m with Error := e, Polling := false } msg [])
    | none => some (updateItemsLoaded L m items)
  | .TickMsg _ =>
    match m.SelectedPodcast with
    | some p => some (updateTail L m msg (if m.Polling then [.LoadItems p.ID] else []))
    | none => some (updateTail L m msg [])
  | .KeyMsg key => updateKey L m key
  | .OtherMsg _ => some (updateTail L m msg [])

/-- The method `Init`: the key check and the first spinner tick. -/
def Init : List Cmd := [.CheckAPIKey, .Widget 0]

/-! ## The event loop -/

/-- An event: a message together with the behaviour of the outside world while it is handled. -/
abbrev Event := Lib × Msg

/-- The models the event loop can be in: `InitialModel`, and the result of `Update` on any
message in a model it can be in. -/
inductive Reachable : Model → Prop
  | init : Reachable InitialModel
  | step {m m1 : Model} {cmds : List Cmd} (L : Lib) (msg : Msg) :
      Reachable m → Update L m msg = some (m1, cmds) → Reachable m1

/-- Run `Update` over a list of events, keeping the model (`none` after a panic). -/
def runEvents : Model → List Event → Option Model
  | m, [] => some m
  | m, (L, msg) :: rest =>
    match Update L m msg with
    | none => none
    | some (m1, _) => runEvents m1 rest

/-- Number of timers among the commands. -/
def countTicks (cmds : List Cmd) : Nat :=
  (cmds.filter (fun c => match c with | .Tick _ => true | _ => false)).length

/-- Number of usage refreshes among the commands. -/
def countUsage (cmds : List Cmd) : Nat :=
  (cmds.filter (fun c => match c with | .LoadUsage => true | _ => false)).length

/-- Number of items fetches among the commands. -/
def countFetches (cmds : List Cmd) : Nat :=
  (cmds.filter (fun c => match c with | .LoadItems _ => true | _ => false)).length

/-- Number of add-url tasks among the commands. -/
def countAdds (cmds : List Cmd) : Nat :=
  (cmds.filter (fun c => match c with | .AddURL _ _ => true | _ => false)).length

/-- Whether some item has status `CREATED`. -/
def hasCreated (items : List Item) : Bool := items.any (fun i => i.Status == "CREATED")

/-- Whether every item has status `SUCCESS`. -/
def allSuccess (items : List Item) : Bool := items.all (fun i => i.Status == "SUCCESS")

/-- Whether a command comes from a widget. -/
def Cmd.isWidget : Cmd → Bool
  | .Widget _ => true
  | _ => false

/-! ## Go's `sort.Slice`

`sort.Slice` belongs to the Go standard library; its documentation promises a sorted
permutation and no stability.  What follows is the algorithm it runs since Go 1.19
(`pdqsort_func` of `sort/zsortfunc.go`), on a list with index access: `Less(i, j)` compares the
elements at `i` and `j`, `Swap(i, j)` exchanges them.  Loops carry a fuel argument that bounds
their iterations. -/

section GoSort

variable {α : Type}

/-- The call `data.Less(i, j)`. -/
def lessAt (less : α → α → Bool) (data : List α) (i j : Nat) : Bool :=
  match data.get? i, data.get? j with
  | some x, some y => less x y
  | _, _ => false

/-- The call `data.Swap(i, j)`. -/
def swapAt (data : List α) (i j : Nat) : List α :=
  match data.get? i, data.get? j with
  | some x, some y => (data.set i y).set j x
  | _, _ => data

/-- The inner loop of `insertionSort_func`: `for j := i; j > a && Less(j, j-1); j--`. -/
def insertionInner (less : α → α → Bool) (a : Nat) : Nat → List α → List α
  | 0, data => data
  | j + 1, data =>
    if a < j + 1 ∧ lessAt less data (j + 1) j = true then
      insertionInner less a j (swapAt data (j + 1) j)
    else data

/-- The outer loop of `insertionSort_func`: `for i := a + 1; i < b; i++`. -/
def insertionOuter (less : α → α → Bool) (a b : Nat) : Nat → Nat → List α → List α
  | 0, _, data => data
  | fuel + 1, i, data =>
    if i < b then insertionOuter less a b fuel (i + 1) (insertionInner less a i data) else data

/-- The function `insertionSort_func`: sort `data[a:b]` by insertion. -/
def insertionSort_func (less : α → α → Bool) (data : List α) (a b : Nat) : List α :=
  insertionOuter less a b (b - a) (a + 1) data

/-- The child `siftDown_func` compares the root with: the greater of the two children. -/
def heapChild (less : α → α → Bool) (data : List α) (first hi root : Nat) : Nat :=
  if 2 * root + 2 < hi ∧
      lessAt less data (first + (2 * root + 1)) (first + (2 * root + 2)) = true then
    2 * root + 2
  else 2 * root + 1

/-- The function `siftDown_func` on the heap `data[first+lo : first+hi]`, from `root = lo`. -/
def siftDown_func (less : α → α → Bool) (first hi : Nat) : Nat → Nat → List α → List α
  | 0, _, data => data
  | fuel + 1, root, data =>
    if hi ≤ 2 * root + 1 then data
    else if lessAt less data (first + root) (first + heapChild less data first hi root) = false
    then data
    else
      siftDown_func less first hi fuel (heapChild less data first hi root)
        (swapAt data (first + root) (first + heapChild less data first hi root))

/-- The first loop of `heapSort_func`: `for i := (hi - 1) / 2; i >= 0; i--`. -/
def heapBuild (less : α → α → Bool) (first hi : Nat) : Nat → List α → List α
  | 0, data => siftDown_func less first hi hi 0 data
  | i + 1, data => heapBuild less first hi i (siftDown_func less first hi hi (i + 1) data)

/-- The second loop of `heapSort_func`: `for i := hi - 1; i >= 0; i--`. -/
def heapPop (less : α → α → Bool) (first : Nat) : Nat → List α → List α
  | 0, data => siftDown_func less first 0 0 0 (swapAt data first first)
  | i + 1, data =>
    heapPop less first i (siftDown_func less first (i + 1) (i + 1) 0 (swapAt data first (first + (i + 1))))

/-- The function `heapSort_func`. -/
def heapSort_func (less : α → α → Bool) (data : List α) (a b : Nat) : List α :=
  if b - a = 0 then data
  else heapPop less a (b - a - 1) (heapBuild less a (b - a) ((b - a - 1) / 2) data)

/-- The type `sortedHint`. -/
inductive SortedHint
  | unknownHint
  | increasingHint
  | decreasingHint
deriving DecidableEq, Repr

/-- The function `order2_func`: the two indices in the order of their elements, and the
swap counter. -/
def order2_func (less : α → α → Bool) (data : List α) (a b swaps : Nat) : Nat × Nat × Nat :=
  if lessAt less data b a = true then (b, a, swaps + 1) else (a, b, swaps)

/-- The function `median_func`: the index of the median of three, and the swap counter. -/
def median_func (less : α → α → Bool) (data : List α) (a b c swaps : Nat) : Nat × Nat :=
  let r1 := order2_func less data a b swaps
  let r2 := order2_func less data r1.2.1 c r1.2.2
  let r3 := order2_func less data r1.1 r2.1 r2.2.2
  (r3.2.1, r3.2.2)

/-- The function `medianAdjacent_func`. -/
def medianAdjacent_func (less : α → α → Bool) (data : List α) (a swaps : Nat) : Nat × Nat :=
  median_func less data (a - 1) a (a + 1) swaps

/-- The `switch swaps` of `choosePivot_func`. -/
def hintOfSwaps (swaps : Nat) : SortedHint :=
  if swaps = 0 then .increasingHint else if swaps = 4 * 3 then .decreasingHint else .unknownHint

/-- The function `choosePivot_func`: a static pivot below 8 elements, the median of three
below 50, Tukey's ninther from 50 on. -/
def choosePivot_func (less : α → α → Bool) (data : List α) (a b : Nat) : Nat × SortedHint :=
  let l := b - a
  let i := a + l / 4 * 1
  let j := a + l / 4 * 2
  let k := a + l / 4 * 3
  if 8 ≤ l then
    if 50 ≤ l then
      let ri := medianAdjacent_func less data i 0
      let rj := medianAdjacent_func less data j ri.2
      let rk := medianAdjacent_func less data k rj.2
      let r := median_func less data ri.1 rj.1 rk.1 rk.2
      (r.1, hintOfSwaps r.2)
    else
      let r := median_func less data i j k 0
      (r.1, hintOfSwaps r.2)
  else (j, hintOfSwaps 0)

/-- The function `reverseRange_func`: `for i, j := a, b-1; i < j; i++, j--`. -/
def reverseLoop : Nat → Nat → Nat → List α → List α
  | 0, _, _, data => data
  | fuel + 1, i, j, data =>
    if i < j then reverseLoop fuel (i + 1) (j - 1) (swapAt data i j) else data

/-- The function `reverseRange_func`. -/
def reverseRange_func (data : List α) (a b : Nat) : List α := reverseLoop (b - a) a (b - 1) data

/-- The scan `for i <= j && Less(i, a) { i++ }` of `partition_func`. -/
def scanUp (less : α → α → Bool) (data : List α) (a j : Nat) : Nat → Nat → Nat
  | 0, i => i
  | fuel + 1, i =>
    if i ≤ j ∧ lessAt less data i a = true then scanUp less data a j fuel (i + 1) else i

/-- The scan `for i <= j && !Less(j, a) { j-- }` of `partition_func`. -/
def scanDown (less : α → α → Bool) (data : List α) (a i : Nat) : Nat → Nat → Nat
  | 0, j => j
  | fuel + 1, j =>
    if i ≤ j ∧ lessAt less data j a = false then scanDown less data a i fuel (j - 1) else j

/-- The main loop of `partition_func`; returns the data and the final `j`. -/
def partitionLoop (less : α → α → Bool) (a : Nat) : Nat → Nat → Nat → List α → List α × Nat
  | 0, _, j, data => (data, j)
  | fuel + 1, i, j, data =>
    let i1 := scanUp less data a j (j + 1 - i) i
    let j1 := scanDown less data a i1 (j + 1 - i1) j
    if j1 < i1 then (data, j1)
    else partitionLoop less a fuel (i1 + 1) (j1 - 1) (swapAt data i1 j1)

/-- The function `partition_func`: the data, the new pivot index and `alreadyPartitioned`. -/
def partition_func (less : α → α → Bool) (data : List α) (a b pivot : Nat) :
    List α × Nat × Bool :=
  let d0 := swapAt data a pivot
  let i := scanUp less d0 a (b - 1) (b - 1 - a) (a + 1)
  let j := scanDown less d0 a i (b - i) (b - 1)
  if j < i then (swapAt d0 j a, j, true)
  else
    let r := partitionLoop less a (b - a) (i + 1) (j - 1) (swapAt d0 i j)
    (swapAt r.1 r.2 a, r.2, false)

/-- The scan `for i <= j && !Less(a, i) { i++ }` of `partitionEqual_func`. -/
def scanUpEq (less : α → α → Bool) (data : List α) (a j : Nat) : Nat → Nat → Nat
  | 0, i => i
  | fuel + 1, i =>
    if i ≤ j ∧ lessAt less data a i = false then scanUpEq less data a j fuel (i + 1) else i

/-- The scan `for i <= j && Less(a, j) { j-- }` of `partitionEqual_func`. -/
def scanDownEq (less : α → α → Bool) (data : List α) (a i : Nat) : Nat → Nat → Nat
  | 0, j => j
  | fuel + 1, j =>
    if i ≤ j ∧ lessAt less data a j = true then scanDownEq less data a i fuel (j - 1) else j

/-- The loop of `partitionEqual_func`; returns the data and the final `i`. -/
def partitionEqualLoop (less : α → α → Bool) (a : Nat) : Nat → Nat → Nat → List α → List α × Nat
  | 0, i, _, data => (data, i)
  | fuel + 1, i, j, data =>
    let i1 := scanUpEq less data a j (j + 1 - i) i
    let j1 := scanDownEq less data a i1 (j + 1 - i1) j
    if j1 < i1 then (data, i1)
    else partitionEqualLoop less a fuel (i1 + 1) (j1 - 1) (swapAt data i1 j1)

/-- The function `partitionEqual_func`: elements equal to the pivot first, then the greater
ones; returns the data and the index where the greater ones start. -/
def partitionEqual_func (less : α → α → Bool) (data : List α) (a b pivot : Nat) : List α × Nat :=
  partitionEqualLoop less a (b - a + 1) (a + 1) (b - 1) (swapAt data a pivot)

/-- The scan `for i < b && !Less(i, i-1) { i++ }` of `partialInsertionSort_func`. -/
def scanSorted (less : α → α → Bool) (data : List α) (b : Nat) : Nat → Nat → Nat
  | 0, i => i
  | fuel + 1, i =>
    if i < b ∧ lessAt less data i (i - 1) = false then scanSorted less data b fuel (i + 1) else i

/-- The loop `for j := i - 1; j >= 1; j--` of `partialInsertionSort_func`, which moves the
smaller element to the left. -/
def shiftLeft (less : α → α → Bool) : Nat → List α → List α
  | 0, data => data
  | j + 1, data =>
    if lessAt less data (j + 1) j = false then data
    else shiftLeft less j (swapAt data (j + 1) j)

/-- The loop `for j := i + 1; j < b; j++` of `partialInsertionSort_func`, which moves the
greater element to the right. -/
def shiftRight (less : α → α → Bool) (b : Nat) : Nat → Nat → List α → List α
  | 0, _, data => data
  | fuel + 1, j, data =>
    if j < b then
      if lessAt less data j (j - 1) = false then data
      else shiftRight less b fuel (j + 1) (swapAt data j (j - 1))
    else data

/-- The loop `for j := 0; j < maxSteps; j++` of `partialInsertionSort_func`. -/
def partialInsertionLoop (less : α → α → Bool) (a b : Nat) :
    Nat → Nat → List α → List α × Bool
  | 0, _, data => (data, false)
  | steps + 1, i, data =>
    let i1 := scanSorted less data b (b - i) i
    if i1 = b then (data, true)
    else if b - a < 50 then (data, false)
    else
      let d1 := swapAt data i1 (i1 - 1)
      let d2 := if 2 ≤ i1 - a then shiftLeft less (i1 - 1) d1 else d1
      let d3 := if 2 ≤ b - i1 then shiftRight less b (b - i1) (i1 + 1) d2 else d2
      partialInsertionLoop less a b steps i1 d3

/-- The function `partialInsertionSort_func`: the data and whether `data[a:b]` is sorted. -/
def partialInsertionSort_func (less : α → α → Bool) (data : List α) (a b : Nat) :
    List α × Bool :=
  partialInsertionLoop less a b 5 (a + 1) data

/-- The function `bits.Len`: the number of bits of `n`. -/
def bitsLenAux : Nat → Nat → Nat
  | 0, _ => 0
  | fuel + 1, n => if n = 0 then 0 else bitsLenAux fuel (n / 2) + 1

/-- The function `bits.Len`. -/
def bitsLen (n : Nat) : Nat := bitsLenAux n n

/-- The method `xorshift.Next` on a 64-bit state. -/
def xorshiftNext (r : Nat) : Nat :=
  let r1 := Nat.xor r (r * 2 ^ 13 % 2 ^ 64)
  let r2 := Nat.xor r1 (r1 / 2 ^ 7)
  Nat.xor r2 (r2 * 2 ^ 17 % 2 ^ 64)

/-- The loop `for i := 0; i < 3; i++` of `breakPatterns_func`: the three elements from `idx`
on are each swapped with an element the generator chooses. -/
def breakLoop (a length idx : Nat) : Nat → Nat → Nat → List α → List α
  | 0, _, _, data => data
  | fuel + 1, i, random, data =>
    let r := xorshiftNext random
    let other := r % 2 ^ bitsLen length
    let other1 := if length ≤ other then other - length else other
    breakLoop a length idx fuel (i + 1) r (swapAt data (idx + i) (a + other1))

/-- The function `breakPatterns_func`. -/
def breakPatterns_func (data : List α) (a b : Nat) : List α :=
  if 8 ≤ b - a then breakLoop a (b - a) (a + (b - a) / 4 * 2 - 1) 3 0 (b - a) data else data

/-- The function `pdqsort_func` on `data[a:b]`.  The arguments `wasBalanced` and
`wasPartitioned` are its local variables, both true on entry. -/
def pdqsort_func (less : α → α → Bool) :
    Nat → List α → Nat → Nat → Nat → Bool → Bool → List α
  | 0, data, _, _, _, _, _ => data
  | fuel + 1, data, a, b, limit, wasBalanced, wasPartitioned =>
    if b - a ≤ 12 then insertionSort_func less data a b
    else if limit = 0 then heapSort_func less data a b
    else
      let data1 := if wasBalanced then data else breakPatterns_func data a b
      let limit1 := if wasBalanced then limit else limit - 1
      let ph := choosePivot_func less data1 a b
      let data2 := if ph.2 = .decreasingHint then reverseRange_func data1 a b else data1
      let pivot := if ph.2 = .decreasingHint then (b - 1) - (ph.1 - a) else ph.1
      let hint := if ph.2 = .decreasingHint then SortedHint.increasingHint else ph.2
      let pis :=
        if wasBalanced && wasPartitioned && decide (hint = .increasingHint) then
          partialInsertionSort_func less data2 a b
        else (data2, false)
      if pis.2 then pis.1
      else if 0 < a ∧ lessAt less pis.1 (a - 1) pivot = false then
        let pe := partitionEqual_func less pis.1 a b pivot
        pdqsort_func less fuel pe.1 pe.2 b limit1 wasBalanced wasPartitioned
      else
        let pt := partition_func less pis.1 a b pivot
        let mid := pt.2.1
        if mid - a < b - mid then
          pdqsort_func less fuel (pdqsort_func less fuel pt.1 a mid limit1 true true)
            (mid + 1) b limit1 (decide ((b - a) / 8 ≤ mid - a)) pt.2.2
        else
          pdqsort_func less fuel (pdqsort_func less fuel pt.1 (mid + 1) b limit1 true true)
            a mid limit1 (decide ((b - a) / 8 ≤ b - mid)) pt.2.2

/-- The function `sort.Slice` (Go 1.19 and later). -/
def sortSlice (less : α → α → Bool) (x : List α) : List α :=
  pdqsort_func less (x.length + 1) x 0 x.length (bitsLen x.length) true true

end GoSort

/-! ## Notions for the correctness of the embedded `sort.Slice` -/

/-- What `sort.Slice` asks of `less`: a strict weak ordering (irreflexive, transitive, with
transitive incomparability). -/
structure StrictWeak {α : Type} (less : α → α → Bool) : Prop where
  irrefl : ∀ a, less a a = false
  trans : ∀ a b c, less a b = true → less b c = true → less a c = true
  incomp : ∀ a b c, less a b = false → less b c = false → less a c = false

section SortNotions

variable {α : Type}

/-- `data1` arises from `data` by exchanges of elements at indices in `[a, b)`. -/
inductive SwapsIn (a b : Nat) : List α → List α → Prop
  | refl (data : List α) : SwapsIn a b data data
  | swap {data d1 : List α} (i j : Nat) : SwapsIn a b data d1 → a ≤ i → i < b → a ≤ j → j < b →
      b ≤ d1.length → SwapsIn a b data (swapAt d1 i j)

/-- The index exchange of `Swap(p, q)`. -/
def swapIdx (p q k : Nat) : Nat := if k = q then p else if k = p then q else k

/-- No element of `data[a:b]` is less than an element before it in `data[a:b]`. -/
def SortedOn (less : α → α → Bool) (data : List α) (a b : Nat) : Prop :=
  ∀ i j, a ≤ i → i < j → j < b → lessAt less data j i = false

/-- No element of `data[a:b]` is less than an element before `a`. -/
def LeftBound (less : α → α → Bool) (data : List α) (a b : Nat) : Prop :=
  ∀ i j, i < a → a ≤ j → j < b → lessAt less data j i = false

/-- Node `r` of the heap `data[first : first+hi]` is not less than its children. -/
def HeapAt (less : α → α → Bool) (d : List α) (first hi r : Nat) : Prop :=
  ∀ c, (c = 2 * r + 1 ∨ c = 2 * r + 2) → c < hi → lessAt less d (first + r) (first + c) = false

end SortNotions

/-! ## The contract of `sort.Slice`, and a concrete outside world -/

/-- What `sort.Slice` promises for such a `less`: the result holds the same elements and no
element is less than one before it.  Stability is not promised. -/
structure SortContract (sort : (Item → Item → Bool) → List Item → List Item) : Prop where
  perm : ∀ less x, StrictWeak less → (sort less x).Perm x
  sorted : ∀ less x, StrictWeak less → (sort less x).Pairwise (fun a b => less b a = false)

/-- An item has a timestamp when `parseCreatedTime` does not return the zero time. -/
def Timestamped (item : Item) : Prop := Time.IsZero (parseCreatedTime item.Created) = false

instance (item : Item) : Decidable (Timestamped item) := by
  unfold Timestamped; infer_instance

/-- The keys a text input inserts as text: one character that is not a control character. -/
def isTextKey (key : String) : Bool := key.length == 1

/-- A concrete outside world for runs of the event loop: a text input that appends typed
characters while focused; a list that moves its cursor on `up` and `down` and answers `esc`
with its quit command (widget command 1); a table that, while focused, moves its cursor on `up`
and `down` and clamps it as `table.Model` does, to `min (max v 0) (len(rows) - 1)`, which is
-1 for a table without rows; a spinner that stands still; a keyring that accepts every
operation; the instant printed as its number of nanoseconds; and the `sort.Slice` of Go 1.19
and later. -/
def demoLib : Lib where
  textinputUpdate := fun t msg =>
    match msg with
    | .KeyMsg key => (if t.focus && isTextKey key then t.SetValue (t.value ++ key) else t, none)
    | _ => (t, none)
  listUpdate := fun l msg =>
    match msg with
    | .KeyMsg key =>
      (if key = "down" then { l with index := min (l.index + 1) (l.items.length - 1) }
       else if key = "up" then { l with index := l.index - 1 } else l,
        if key = "esc" then some 1 else none)
    | _ => (l, none)
  tableUpdate := fun t msg =>
    match msg with
    | .KeyMsg key =>
      (if t.focus && key = "down" then
         { t with cursor := min (max (t.cursor + 1) 0) ((t.rows.length : Int) - 1) }
       else if t.focus && key = "up" then
         { t with cursor := min (max (t.cursor - 1) 0) ((t.rows.length : Int) - 1) }
       else t, none)
    | _ => (t, none)
  spinnerUpdate := fun s _ => (s, none)
  spinnerView := fun _ => "."
  SetApiKey := fun _ => none
  ClearApiKey := none
  formatLocal := fun t => toString t
  sortSlice := sortSlice

/-- The outside world of `demoLib` with a keyring that refuses to store a key. -/
def lockedLib : Lib := { demoLib with SetApiKey := fun _ => some "keyring locked" }

/-- An input for the items table: thirteen items, the second and third without a timestamp. -/
def thirteenItems : List Item :=
  [ ⟨"SUCCESS", "t20", "", "2024-01-20T00:00:00Z"⟩,
    ⟨"SUCCESS", "first", "", ""⟩,
    ⟨"SUCCESS", "second", "", ""⟩,
    ⟨"SUCCESS", "t19", "", "2024-01-19T00:00:00Z"⟩,
    ⟨"SUCCESS", "t18", "", "2024-01-18T00:00:00Z"⟩,
    ⟨"SUCCESS", "t17", "", "2024-01-17T00:00:00Z"⟩,
    ⟨"SUCCESS", "t10", "", "2024-01-10T00:00:00Z"⟩,
    ⟨"SUCCESS", "t09", "", "2024-01-09T00:00:00Z"⟩,
    ⟨"SUCCESS", "t08", "", "2024-01-08T00:00:00Z"⟩,
    ⟨"SUCCESS", "t07", "", "2024-01-07T00:00:00Z"⟩,
    ⟨"SUCCESS", "t06", "", "2024-01-06T00:00:00Z"⟩,
    ⟨"SUCCESS", "t12", "", "2024-01-12T00:00:00Z"⟩,
    ⟨"SUCCESS", "t11", "", "2024-01-11T00:00:00Z"⟩ ]

/-- The items of a list that have no timestamp, in the order of the list. -/
def untimestamped (items : List Item) : List Item :=
  items.filter (fun i => Time.IsZero (parseCreatedTime i.Created))

/-- The title column of a table. -/
def titleColumn (t : Table) : List String := t.rows.map (fun row => row.getD 0 "")

/-- The created column of a table. -/
def createdColumn (t : Table) : List String := t.rows.map (fun row => row.getD 2 "")

/-! ## Restricted runs, the instrumented event loop, and concrete runs -/

/-- The models the event loop can be in when it only handles events that pass `ok` in the
model they arrive in. -/
inductive ReachableVia (ok : Model → Msg → Bool) : Model → Prop
  | init : ReachableVia ok InitialModel
  | step {m m1 : Model} {cmds : List Cmd} (L : Lib) (msg : Msg) :
      ReachableVia ok m → ok m msg = true → Update L m msg = some (m1, cmds) →
      ReachableVia ok m1

/-- Run `Update` over a list of events as long as each passes `ok` in the model it arrives
in (`none` after a panic or an event that does not pass). -/
def runVia (ok : Model → Msg → Bool) : Model → List Event → Option Model
  | m, [] => some m
  | m, (L, msg) :: rest =>
    if ok m msg then
      match Update L m msg with
      | none => none
      | some (m1, _) => runVia ok m1 rest
    else none

/-- The results that move the view whatever it shows: `FatalErrorMsg`, `ApiKeyCheckedMsg` and
`PodcastsLoadedMsg`. -/
def movesView : Msg → Bool
  | .FatalErrorMsg _ => true
  | .ApiKeyCheckedMsg _ => true
  | .PodcastsLoadedMsg _ _ => true
  | _ => false

/-- An event passes unless it is a view-moving result that arrives while polling. -/
def notStrayWhilePolling (m : Model) (msg : Msg) : Bool := !(m.Polling && movesView msg)

/-- The results that enter a view behind the main menu: `PodcastsLoadedMsg` and a successful
`UrlAddedMsg`. -/
def entersView : Msg → Bool
  | .PodcastsLoadedMsg _ _ => true
  | .UrlAddedMsg _ none => true
  | _ => false

/-- An event passes unless it is such a result that arrives while no key is stored. -/
def notStaleWithoutKey (m : Model) (msg : Msg) : Bool := !(!m.HasAPIKey && entersView msg)

/-- Whether a message is a successful `UrlAddedMsg`. -/
def isUrlAdded : Msg → Bool
  | .UrlAddedMsg _ none => true
  | _ => false

/-- The models the event loop can be in after it has handled an `ItemsLoadedMsg` and no
successful `UrlAddedMsg` since. -/
inductive ReachableFetched : Model → Prop
  | load {m m1 : Model} {cmds : List Cmd} (L : Lib) (items : List Item) (err : Option String) :
      Reachable m → Update L m (.ItemsLoadedMsg items err) = some (m1, cmds) →
      ReachableFetched m1
  | step {m m1 : Model} {cmds : List Cmd} (L : Lib) (msg : Msg) :
      ReachableFetched m → isUrlAdded msg = false → Update L m msg = some (m1, cmds) →
      ReachableFetched m1

/-- The event loop with its outstanding work: the timers scheduled and not yet fired, the
items fetches and add-url tasks dispatched and not yet answered, and the number of successful
`UrlAddedMsg` handled so far. -/
structure LoopState where
  model : Model
  timers : Nat
  fetches : Nat
  adds : Nat
  added : Nat
deriving DecidableEq, Repr

/-- The work a message completes: `(timers, fetches, adds)` it takes away. -/
def consumes : Msg → Nat × Nat × Nat
  | .TickMsg _ => (1, 0, 0)
  | .ItemsLoadedMsg _ _ => (0, 1, 0)
  | .UrlAddedMsg _ _ => (0, 0, 1)
  | _ => (0, 0, 0)

/-- One turn of the event loop: a `TickMsg` is the firing of a pending timer, an
`ItemsLoadedMsg` the answer to an outstanding items fetch, a `UrlAddedMsg` the answer to an
outstanding add-url task; the commands `Update` returns become outstanding work. -/
def loopStep (s : LoopState) (ev : Event) : Option LoopState :=
  if s.timers < (consumes ev.2).1 ∨ s.fetches < (consumes ev.2).2.1 ∨
      s.adds < (consumes ev.2).2.2 then none
  else
    match Update ev.1 s.model ev.2 with
    | none => none
    | some (m1, cmds) =>
      some { model := m1
             timers := s.timers - (consumes ev.2).1 + countTicks cmds
             fetches := s.fetches - (consumes ev.2).2.1 + countFetches cmds
             adds := s.adds - (consumes ev.2).2.2 + countAdds cmds
             added := s.added + (if isUrlAdded ev.2 then 1 else 0) }

/-- The event loop at start: `InitialModel`, nothing outstanding. -/
def loopStart : LoopState := { model := InitialModel, timers := 0, fetches := 0, adds := 0, added := 0 }

/-- Run the event loop over a list of events. -/
def runLoop : LoopState → List Event → Option LoopState
  | s, [] => some s
  | s, ev :: rest =>
    match loopStep s ev with
    | none => none
    | some s1 => runLoop s1 rest

/-- The states of the event loop in its runs from `InitialModel`. -/
inductive LoopRun : LoopState → Prop
  | init : LoopRun loopStart
  | step {s s1 : LoopState} (ev : Event) : LoopRun s → loopStep s ev = some s1 → LoopRun s1

/-- A podcast for the concrete runs. -/
def podcastOne : Podcast := { ID := "p1", Title := "Podcast one" }

/-- An item that is still being processed. -/
def createdItem : Item := { Status := "CREATED", Title := "", Error := "", Created := "" }

/-- A run that adds the URL `u` to `podcastOne`: key found, `Add YouTube URL`, the podcasts
arrive, the first is chosen, `u` is typed and submitted, and the add-url task succeeds. -/
def addUrlRun : List Event :=
  [ (demoLib, .ApiKeyCheckedMsg true),
    (demoLib, .KeyMsg "enter"),
    (demoLib, .PodcastsLoadedMsg [podcastOne] none),
    (demoLib, .KeyMsg "enter"),
    (demoLib, .KeyMsg "u"),
    (demoLib, .KeyMsg "enter"),
    (demoLib, .UrlAddedMsg createdItem none) ]

/-- A run in which the podcast list is requested a second time and its answer arrives only
after the URL has been added and the first items have been loaded. -/
def latePodcastsRun : List Event :=
  [ (demoLib, .ApiKeyCheckedMsg true),
    (demoLib, .KeyMsg "enter"),
    (demoLib, .PodcastsLoadedMsg [podcastOne] none),
    (demoLib, .KeyMsg "esc"),
    (demoLib, .KeyMsg "enter"),
    (demoLib, .KeyMsg "enter"),
    (demoLib, .KeyMsg "u"),
    (demoLib, .KeyMsg "enter"),
    (demoLib, .UrlAddedMsg createdItem none),
    (demoLib, .ItemsLoadedMsg [createdItem] none),
    (demoLib, .PodcastsLoadedMsg [podcastOne] none) ]

/-- A run that adds a second URL while the timer of the first is pending: after the first
items arrive (one timer scheduled), `a`, `u`, enter, the add-url task succeeds and the items
arrive again. -/
def secondUrlRun : List Event :=
  addUrlRun ++
  [ (demoLib, .ItemsLoadedMsg [createdItem] none),
    (demoLib, .KeyMsg "a"),
    (demoLib, .KeyMsg "u"),
    (demoLib, .KeyMsg "enter"),
    (demoLib, .UrlAddedMsg createdItem none),
    (demoLib, .ItemsLoadedMsg [createdItem, createdItem] none) ]

/-- A run in which the stored key is cleared while the podcast list is being loaded: `Add
YouTube URL`, back with esc, `Set API Key`, ctrl+d, and then the load fails. -/
def clearedKeyRun : List Event :=
  [ (demoLib, .ApiKeyCheckedMsg true),
    (demoLib, .KeyMsg "enter"),
    (demoLib, .KeyMsg "esc"),
    (demoLib, .KeyMsg "down"),
    (demoLib, .KeyMsg "enter"),
    (demoLib, .KeyMsg "ctrl+d"),
    (demoLib, .PodcastsLoadedMsg [] (some "API key not set. Please set an API key")) ]

/-- A run that submits two URLs before the first add-url task has answered: key found, `Add
YouTube URL`, the podcasts arrive, the first is chosen, `u` is submitted, `v` is submitted,
the first task succeeds (the items table is shown), and `m` leads back to the main menu.  The
second add-url task is still outstanding at the end. -/
def doubleSubmitRun : List Event :=
  [ (demoLib, .ApiKeyCheckedMsg true),
    (demoLib, .KeyMsg "enter"),
    (demoLib, .PodcastsLoadedMsg [podcastOne] none),
    (demoLib, .KeyMsg "enter"),
    (demoLib, .KeyMsg "u"),
    (demoLib, .KeyMsg "enter"),
    (demoLib, .KeyMsg "v"),
    (demoLib, .KeyMsg "enter"),
    (demoLib, .UrlAddedMsg createdItem none),
    (demoLib, .KeyMsg "m") ]

/-! ## formatBytes: the specification side -/

/-- The unit the specification names for `n ≥ 1024`: the largest of 1024, 1024², 1024³ that
does not exceed `n`, with its suffix. -/
def specUnit (n : Int) : Nat × String :=
  if (1024 ^ 3 : Int) ≤ n then (1024 ^ 3, " GB")
  else if (1024 ^ 2 : Int) ≤ n then (1024 ^ 2, " MB")
  else (1024, " KB")

/-- The number `h / 100` is `q` rounded to two decimals: no number with two decimals is
nearer to `q`. -/
def IsRoundedToTwoDecimals (q : ℚ) (h : Nat) : Prop := |(h : ℚ) / 100 - q| ≤ 1 / 200

/-! ## Correctness of the embedded `sort.Slice`: it returns a sorted permutation -/

section SortProofs

variable {α : Type}

theorem le_of_less {less : α → α → Bool} (hw : StrictWeak less) {x y : α}
    (h : less x y = true) : less y x = false := by
  by_contra hc
  have hyx : less y x = true := by simpa using hc
  have := hw.trans x y x h hyx
  rw [hw.irrefl] at this
  exact absurd this (by decide)

theorem lessAt_eq (less : α → α → Bool) (data : List α) (i j : Nat) (x y : α)
    (hi : data[i]? = some x) (hj : data[j]? = some y) : lessAt less data i j = less x y := by
  simp [lessAt, hi, hj]

theorem swapAt_length (data : List α) (i j : Nat) : (swapAt data i j).length = data.length := by
  unfold swapAt
  split <;> simp

theorem swapAt_getElem? (data : List α) (i j k : Nat) (hi : i < data.length)
    (hj : j < data.length) :
    (swapAt data i j)[k]? = if k = j then data[i]? else if k = i then data[j]? else data[k]? := by
  have e1 : data.get? i = some data[i] := by simp [hi]
  have e2 : data.get? j = some data[j] := by simp [hj]
  simp only [swapAt, e1, e2, List.getElem?_set, List.length_set]
  by_cases h1 : k = j
  · subst h1; simp [hj, hi]
  · by_cases h2 : k = i
    · subst h2; simp [hi, hj, h1, Ne.symm h1]
    · simp [h1, h2, Ne.symm h1, Ne.symm h2]

theorem swapAt_perm [DecidableEq α] (data : List α) (i j : Nat) : (swapAt data i j).Perm data := by
  unfold swapAt
  split
  · rename_i x y hx hy
    simp only [List.get?_eq_getElem?] at hx hy
    obtain ⟨hi, rfl⟩ := List.getElem?_eq_some.1 hx
    obtain ⟨hj, rfl⟩ := List.getElem?_eq_some.1 hy
    rw [List.perm_iff_count]
    intro c
    rw [List.count_set _ _ _ _ (by simpa using hj), List.count_set _ _ _ _ hi]
    simp only [List.getElem_set]
    have h1 := List.count_pos_iff.2 (List.getElem_mem hi)
    have h2 := List.count_pos_iff.2 (List.getElem_mem hj)
    by_cases hij : i = j
    · subst hij
      simp only [if_true]
      by_cases hc : data[i] = c
      · subst hc; simp
      · simp [hc]
    · simp only [hij, if_false]
      by_cases hc1 : data[i] = c <;> by_cases hc2 : data[j] = c <;> simp [hc1, hc2]
      all_goals (subst hc1; omega)
  · rfl

theorem SwapsIn.trans {a b : Nat} {d0 d1 d2 : List α} (h1 : SwapsIn a b d0 d1)
    (h2 : SwapsIn a b d1 d2) : SwapsIn a b d0 d2 := by
  induction h2 with
  | refl => exact h1
  | swap i j _ hi1 hi2 hj1 hj2 hb ih => exact SwapsIn.swap i j ih hi1 hi2 hj1 hj2 hb

theorem SwapsIn.length_eq {a b : Nat} {d0 d1 : List α} (h : SwapsIn a b d0 d1) :
    d1.length = d0.length := by
  induction h with
  | refl => rfl
  | swap i j _ _ _ _ _ _ ih => rw [swapAt_length, ih]

theorem SwapsIn.mono {a b a1 b1 : Nat} {d0 d1 : List α} (h : SwapsIn a b d0 d1)
    (ha : a1 ≤ a) (hb : b ≤ b1) (hlen : b1 ≤ d0.length) : SwapsIn a1 b1 d0 d1 := by
  induction h with
  | refl => exact SwapsIn.refl _
  | swap i j h0 hi1 hi2 hj1 hj2 hbl ih =>
    refine SwapsIn.swap i j ih (by omega) (by omega) (by omega) (by omega) ?_
    rw [h0.length_eq]; exact hlen

theorem SwapsIn.perm [DecidableEq α] {a b : Nat} {d0 d1 : List α} (h : SwapsIn a b d0 d1) :
    d1.Perm d0 := by
  induction h with
  | refl => exact List.Perm.refl _
  | swap i j _ _ _ _ _ _ ih => exact (swapAt_perm _ i j).trans ih

theorem SwapsIn.outside {a b : Nat} {d0 d1 : List α} (h : SwapsIn a b d0 d1) (k : Nat)
    (hk : k < a ∨ b ≤ k) : d1[k]? = d0[k]? := by
  induction h with
  | refl => rfl
  | swap i j _ hi1 hi2 hj1 hj2 hbl ih =>
    rw [swapAt_getElem? _ i j k (by omega) (by omega), if_neg (by omega), if_neg (by omega), ih]

theorem SwapsIn.inside {a b : Nat} {d0 d1 : List α} (h : SwapsIn a b d0 d1) (k : Nat)
    (hk1 : a ≤ k) (hk2 : k < b) : ∃ k0, a ≤ k0 ∧ k0 < b ∧ d1[k]? = d0[k0]? := by
  induction h generalizing k with
  | refl => exact ⟨k, hk1, hk2, rfl⟩
  | swap i j _ hi1 hi2 hj1 hj2 hbl ih =>
    rw [swapAt_getElem? _ i j k (by omega) (by omega)]
    by_cases h1 : k = j
    · rw [if_pos h1]; exact ih i hi1 hi2
    · rw [if_neg h1]
      by_cases h2 : k = i
      · rw [if_pos h2]; exact ih j hj1 hj2
      · rw [if_neg h2]; exact ih k hk1 hk2

theorem swapsIn_swapAt {a b : Nat} (data : List α) (i j : Nat) (hi1 : a ≤ i) (hi2 : i < b)
    (hj1 : a ≤ j) (hj2 : j < b) (hb : b ≤ data.length) : SwapsIn a b data (swapAt data i j) :=
  SwapsIn.swap i j (SwapsIn.refl _) hi1 hi2 hj1 hj2 hb

theorem lessAt_swapAt (less : α → α → Bool) (data : List α) (p q i j : Nat)
    (hp : p < data.length) (hq : q < data.length) :
    lessAt less (swapAt data p q) i j = lessAt less data (swapIdx p q i) (swapIdx p q j) := by
  have e : ∀ k, (swapAt data p q)[k]? = data[swapIdx p q k]? := by
    intro k
    rw [swapAt_getElem? data p q k hp hq]
    unfold swapIdx
    split_ifs <;> rfl
  simp only [lessAt, List.get?_eq_getElem?, e]

theorem lessAt_asymm {less : α → α → Bool} (hw : StrictWeak less) (data : List α) (i j : Nat)
    (h : lessAt less data i j = true) : lessAt less data j i = false := by
  unfold lessAt at *
  cases hi : data.get? i <;> cases hj : data.get? j <;> simp_all
  exact le_of_less hw h

theorem lessAt_incomp {less : α → α → Bool} (hw : StrictWeak less) (data : List α) (i j k : Nat)
    (hj : j < data.length) (h1 : lessAt less data i j = false)
    (h2 : lessAt less data j k = false) : lessAt less data i k = false := by
  unfold lessAt at *
  have ej : data.get? j = some data[j] := by simp [hj]
  cases hi : data.get? i <;> cases hk : data.get? k <;> simp_all
  exact hw.incomp _ _ _ h1 h2

theorem lessAt_true_iff (less : α → α → Bool) (data : List α) (i j : Nat) :
    lessAt less data i j = true ↔
      ∃ x y, data[i]? = some x ∧ data[j]? = some y ∧ less x y = true := by
  unfold lessAt
  simp only [List.get?_eq_getElem?]
  cases hi : data[i]? <;> cases hj : data[j]? <;> simp

theorem lessAt_trans {less : α → α → Bool} (hw : StrictWeak less) (data : List α) (i j k : Nat)
    (h1 : lessAt less data i j = true) (h2 : lessAt less data j k = true) :
    lessAt less data i k = true := by
  rw [lessAt_true_iff] at *
  obtain ⟨x, y, hx, hy, hxy⟩ := h1
  obtain ⟨y1, z, hy1, hz, hyz⟩ := h2
  rw [hy] at hy1
  cases hy1
  exact ⟨x, z, hx, hz, hw.trans _ _ _ hxy hyz⟩

theorem lessAt_irrefl {less : α → α → Bool} (hw : StrictWeak less) (data : List α) (i : Nat) :
    lessAt less data i i = false := by
  unfold lessAt
  cases hi : data.get? i <;> simp_all [hw.irrefl]

theorem insertionInner_spec {less : α → α → Bool} (hw : StrictWeak less) (a i : Nat) :
    ∀ (J : Nat) (data : List α), a ≤ J → J ≤ i → i < data.length →
      SortedOn less data a J → SortedOn less data J (i + 1) →
      (∀ p q, a ≤ p → p < J → J < q → q ≤ i → lessAt less data q p = false) →
      SortedOn less (insertionInner less a J data) a (i + 1) ∧
        SwapsIn a (i + 1) data (insertionInner less a J data) := by
  intro J
  induction J with
  | zero =>
    intro data ha _ _ _ h2 _
    have : a = 0 := by omega
    subst this
    exact ⟨h2, SwapsIn.refl _⟩
  | succ j ih =>
    intro data ha hJi hi h1 h2 h3
    rw [insertionInner]
    split_ifs with hc
    · obtain ⟨haj, hlt⟩ := hc
      have hlen : (swapAt data (j + 1) j).length = data.length := swapAt_length _ _ _
      have key := ih (swapAt data (j + 1) j) (by omega) (by omega) (by omega) ?_ ?_ ?_
      · refine ⟨key.1, SwapsIn.trans ?_ key.2⟩
        exact swapsIn_swapAt data (j + 1) j (by omega) (by omega) (by omega) (by omega) (by omega)
      · intro p q hp hpq hq
        rw [lessAt_swapAt less data (j + 1) j q p (by omega) (by omega)]
        have e1 : swapIdx (j + 1) j q = q := by unfold swapIdx; split_ifs <;> omega
        have e2 : swapIdx (j + 1) j p = p := by unfold swapIdx; split_ifs <;> omega
        rw [e1, e2]
        exact h1 p q hp hpq (by omega)
      · intro p q hp hpq hq
        rw [lessAt_swapAt less data (j + 1) j q p (by omega) (by omega)]
        by_cases hpj : p = j
        · subst hpj
          have e2 : swapIdx (p + 1) p p = p + 1 := by unfold swapIdx; simp
          rw [e2]
          by_cases hq1 : q = p + 1
          · subst hq1
            have e1 : swapIdx (p + 1) p (p + 1) = p := by unfold swapIdx; simp
            rw [e1]
            exact lessAt_asymm hw data _ _ hlt
          · have e1 : swapIdx (p + 1) p q = q := by unfold swapIdx; split_ifs <;> omega
            rw [e1]
            exact h2 (p + 1) q (by omega) (by omega) hq
        · by_cases hpj1 : p = j + 1
          · subst hpj1
            have e2 : swapIdx (j + 1) j (j + 1) = j := by unfold swapIdx; simp
            have e1 : swapIdx (j + 1) j q = q := by unfold swapIdx; split_ifs <;> omega
            rw [e1, e2]
            exact h3 j q (by omega) (by omega) (by omega) (by omega)
          · have e2 : swapIdx (j + 1) j p = p := by unfold swapIdx; split_ifs; omega
            have e1 : swapIdx (j + 1) j q = q := by unfold swapIdx; split_ifs <;> omega
            rw [e1, e2]
            exact h2 p q (by omega) hpq hq
      · intro p q hp hpj hjq hqi
        rw [lessAt_swapAt less data (j + 1) j q p (by omega) (by omega)]
        have e2 : swapIdx (j + 1) j p = p := by unfold swapIdx; split_ifs <;> omega
        rw [e2]
        by_cases hq1 : q = j + 1
        · subst hq1
          have e1 : swapIdx (j + 1) j (j + 1) = j := by unfold swapIdx; simp
          rw [e1]
          exact h1 p j hp hpj (by omega)
        · have e1 : swapIdx (j + 1) j q = q := by unfold swapIdx; split_ifs <;> omega
          rw [e1]
          exact h3 p q hp (by omega) (by omega) hqi
    · refine ⟨?_, SwapsIn.refl _⟩
      by_cases haj : a < j + 1
      · have hnl : lessAt less data (j + 1) j = false := by
          simpa [haj] using hc
        intro p q hp hpq hq
        by_cases hq1 : q < j + 1
        · exact h1 p q hp hpq hq1
        · by_cases hp1 : j + 1 ≤ p
          · exact h2 p q hp1 hpq hq
          · by_cases hq2 : q = j + 1
            · subst hq2
              by_cases hp2 : p = j
              · subst hp2; exact hnl
              · exact lessAt_incomp hw data (j + 1) j p (by omega) hnl
                  (h1 p j hp (by omega) (by omega))
            · exact h3 p q hp (by omega) (by omega) (by omega)
      · have : a = j + 1 := by omega
        subst this
        exact h2

theorem insertionOuter_spec {less : α → α → Bool} (hw : StrictWeak less) (a b : Nat) :
    ∀ (fuel i : Nat) (data : List α), a < i → i ≤ b → b ≤ data.length → b - i ≤ fuel →
      SortedOn less data a i →
      SortedOn less (insertionOuter less a b fuel i data) a b ∧
        SwapsIn a b data (insertionOuter less a b fuel i data) := by
  intro fuel
  induction fuel with
  | zero =>
    intro i data _ hib _ hf hs
    have : i = b := by omega
    subst this
    exact ⟨hs, SwapsIn.refl _⟩
  | succ f ih =>
    intro i data hai hib hb hf hs
    rw [insertionOuter]
    split_ifs with hc
    · have key := insertionInner_spec hw a i i data (by omega) (le_refl _) (by omega) hs
        (by intro p q hp hpq hq; omega) (by intro p q _ _ hq1 hq2; omega)
      have hlen := key.2.length_eq
      have key2 := ih (i + 1) (insertionInner less a i data) (by omega) (by omega) (by omega)
        (by omega) key.1
      exact ⟨key2.1, SwapsIn.trans (key.2.mono (le_refl _) (by omega) hb) key2.2⟩
    · have : i = b := by omega
      subst this
      exact ⟨hs, SwapsIn.refl _⟩

theorem insertionSort_spec {less : α → α → Bool} (hw : StrictWeak less) (data : List α)
    (a b : Nat) (hab : a ≤ b) (hb : b ≤ data.length) :
    SortedOn less (insertionSort_func less data a b) a b ∧
      SwapsIn a b data (insertionSort_func less data a b) := by
  unfold insertionSort_func
  by_cases h : a = b
  · subst h
    have e : insertionOuter less a a (a - a) (a + 1) data = data := by
      simp [insertionOuter]
    rw [e]
    exact ⟨by intro p q hp hpq hq; omega, SwapsIn.refl _⟩
  · exact insertionOuter_spec hw a b (b - a) (a + 1) data (by omega) (by omega) hb (by omega)
      (by intro p q hp hpq hq; omega)

theorem reverseLoop_swaps (a b : Nat) :
    ∀ (fuel i j : Nat) (data : List α), a ≤ i → j < b → b ≤ data.length →
      SwapsIn a b data (reverseLoop fuel i j data) := by
  intro fuel
  induction fuel with
  | zero => intro i j data _ _ _; exact SwapsIn.refl _
  | succ f ih =>
    intro i j data hi hj hb
    rw [reverseLoop]
    split_ifs with hc
    · refine SwapsIn.trans (swapsIn_swapAt data i j hi (by omega) (by omega) hj hb) ?_
      exact ih (i + 1) (j - 1) _ (by omega) (by omega) (by rw [swapAt_length]; exact hb)
    · exact SwapsIn.refl _

theorem reverseRange_swaps (data : List α) (a b : Nat) (hab : a < b) (hb : b ≤ data.length) :
    SwapsIn a b data (reverseRange_func data a b) :=
  reverseLoop_swaps a b _ a (b - 1) data (le_refl _) (by omega) hb

theorem bitsLenAux_pow : ∀ (fuel n : Nat), n ≤ fuel → 1 ≤ n → 2 ^ bitsLenAux fuel n ≤ 2 * n := by
  intro fuel
  induction fuel with
  | zero => intro n h1 h2; omega
  | succ f ih =>
    intro n h1 h2
    rw [bitsLenAux, if_neg (by omega)]
    by_cases h : n / 2 = 0
    · have e : bitsLenAux f (n / 2) = 0 := by
        rw [h]; cases f <;> simp [bitsLenAux]
      rw [e]; simp; omega
    · have := ih (n / 2) (by omega) (by omega)
      rw [pow_succ]
      omega

theorem breakLoop_swaps (a b : Nat) (hl : 8 ≤ b - a) :
    ∀ (fuel i random : Nat) (data : List α), i + fuel ≤ 3 → b ≤ data.length →
      SwapsIn a b data (breakLoop a (b - a) (a + (b - a) / 4 * 2 - 1) fuel i random data) := by
  intro fuel
  induction fuel with
  | zero => intro i random data _ _; exact SwapsIn.refl _
  | succ f ih =>
    intro i random data hi hb
    rw [breakLoop]
    have hpow := bitsLenAux_pow (b - a) (b - a) (le_refl _) (by omega)
    have hmod : xorshiftNext random % 2 ^ bitsLen (b - a) < 2 ^ bitsLen (b - a) :=
      Nat.mod_lt _ (by positivity)
    unfold bitsLen at hmod
    have hother : (if b - a ≤ xorshiftNext random % 2 ^ bitsLen (b - a) then
        xorshiftNext random % 2 ^ bitsLen (b - a) - (b - a)
        else xorshiftNext random % 2 ^ bitsLen (b - a)) < b - a := by
      unfold bitsLen
      split_ifs <;> omega
    obtain ⟨o, ho⟩ : ∃ o, o = (if b - a ≤ xorshiftNext random % 2 ^ bitsLen (b - a) then
        xorshiftNext random % 2 ^ bitsLen (b - a) - (b - a)
        else xorshiftNext random % 2 ^ bitsLen (b - a)) := ⟨_, rfl⟩
    rw [← ho] at hother ⊢
    exact SwapsIn.trans
      (swapsIn_swapAt data (a + (b - a) / 4 * 2 - 1 + i) (a + o) (by omega) (by omega)
        (by omega) (by omega) hb)
      (ih (i + 1) _ _ (by omega) (by rw [swapAt_length]; exact hb))

theorem breakPatterns_swaps (data : List α) (a b : Nat) (hb : b ≤ data.length) :
    SwapsIn a b data (breakPatterns_func data a b) := by
  unfold breakPatterns_func
  split_ifs with h
  · exact breakLoop_swaps a b h 3 0 (b - a) data (by omega) hb
  · exact SwapsIn.refl _

theorem order2_mem (less : α → α → Bool) (data : List α) (a b s : Nat) :
    ((order2_func less data a b s).1 = a ∧ (order2_func less data a b s).2.1 = b) ∨
    ((order2_func less data a b s).1 = b ∧ (order2_func less data a b s).2.1 = a) := by
  unfold order2_func
  split_ifs <;> simp

theorem median_mem (less : α → α → Bool) (data : List α) (a b c s : Nat) :
    (median_func less data a b c s).1 = a ∨ (median_func less data a b c s).1 = b ∨
      (median_func less data a b c s).1 = c := by
  unfold median_func
  simp only
  rcases order2_mem less data a b s with ⟨h1, h2⟩ | ⟨h1, h2⟩ <;>
    rcases order2_mem less data (order2_func less data a b s).2.1 c
      (order2_func less data a b s).2.2 with ⟨h3, h4⟩ | ⟨h3, h4⟩ <;>
    rcases order2_mem less data (order2_func less data a b s).1
      (order2_func less data (order2_func less data a b s).2.1 c
        (order2_func less data a b s).2.2).1
      (order2_func less data (order2_func less data a b s).2.1 c
        (order2_func less data a b s).2.2).2.2 with ⟨h5, h6⟩ | ⟨h5, h6⟩ <;>
    simp_all

theorem choosePivot_range (less : α → α → Bool) (data : List α) (a b : Nat) (hl : 12 < b - a) :
    a ≤ (choosePivot_func less data a b).1 ∧ (choosePivot_func less data a b).1 < b := by
  unfold choosePivot_func
  simp only
  have h8 : 8 ≤ b - a := by omega
  rw [if_pos h8]
  have hq : 3 ≤ (b - a) / 4 := by omega
  have hq2 : (b - a) / 4 * 4 ≤ b - a := Nat.div_mul_le_self _ _
  split_ifs with h50
  · simp only
    have m1 := median_mem less data (a + (b - a) / 4 * 1 - 1) (a + (b - a) / 4 * 1)
      (a + (b - a) / 4 * 1 + 1) 0
    have m2 := median_mem less data (a + (b - a) / 4 * 2 - 1) (a + (b - a) / 4 * 2)
      (a + (b - a) / 4 * 2 + 1)
      (medianAdjacent_func less data (a + (b - a) / 4 * 1) 0).2
    have m3 := median_mem less data (a + (b - a) / 4 * 3 - 1) (a + (b - a) / 4 * 3)
      (a + (b - a) / 4 * 3 + 1)
      (medianAdjacent_func less data (a + (b - a) / 4 * 2)
        (medianAdjacent_func less data (a + (b - a) / 4 * 1) 0).2).2
    have m4 := median_mem less data
      (medianAdjacent_func less data (a + (b - a) / 4 * 1) 0).1
      (medianAdjacent_func less data (a + (b - a) / 4 * 2)
        (medianAdjacent_func less data (a + (b - a) / 4 * 1) 0).2).1
      (medianAdjacent_func less data (a + (b - a) / 4 * 3)
        (medianAdjacent_func less data (a + (b - a) / 4 * 2)
          (medianAdjacent_func less data (a + (b - a) / 4 * 1) 0).2).2).1
      (medianAdjacent_func less data (a + (b - a) / 4 * 3)
        (medianAdjacent_func less data (a + (b - a) / 4 * 2)
          (medianAdjacent_func less data (a + (b - a) / 4 * 1) 0).2).2).2
    unfold medianAdjacent_func at *
    omega
  · simp only
    have m := median_mem less data (a + (b - a) / 4 * 1) (a + (b - a) / 4 * 2)
      (a + (b - a) / 4 * 3) 0
    omega

theorem scanUp_spec (less : α → α → Bool) (data : List α) (a j : Nat) :
    ∀ (fuel i : Nat), i ≤ j + 1 → j + 1 - i ≤ fuel →
      i ≤ scanUp less data a j fuel i ∧ scanUp less data a j fuel i ≤ j + 1 ∧
      (∀ k, i ≤ k → k < scanUp less data a j fuel i → lessAt less data k a = true) ∧
      (scanUp less data a j fuel i ≤ j → lessAt less data (scanUp less data a j fuel i) a = false) := by
  intro fuel
  induction fuel with
  | zero =>
    intro i h1 h2
    rw [scanUp]
    exact ⟨le_refl _, h1, by intro k h3 h4; omega, by intro h; omega⟩
  | succ f ih =>
    intro i h1 h2
    rw [scanUp]
    split_ifs with hc
    · obtain ⟨q1, q2, q3, q4⟩ := ih (i + 1) (by omega) (by omega)
      refine ⟨by omega, q2, ?_, q4⟩
      intro k h3 h4
      by_cases hk : k = i
      · subst hk; exact hc.2
      · exact q3 k (by omega) h4
    · refine ⟨le_refl _, h1, by intro k h3 h4; omega, ?_⟩
      intro h
      simpa [h] using hc

theorem scanDown_spec (less : α → α → Bool) (data : List α) (a i : Nat) (hi : 1 ≤ i) :
    ∀ (fuel j : Nat), i ≤ j + 1 → j + 1 - i ≤ fuel →
      scanDown less data a i fuel j ≤ j ∧ i ≤ scanDown less data a i fuel j + 1 ∧
      (∀ k, scanDown less data a i fuel j < k → k ≤ j → lessAt less data k a = false) ∧
      (i ≤ scanDown less data a i fuel j →
        lessAt less data (scanDown less data a i fuel j) a = true) := by
  intro fuel
  induction fuel with
  | zero =>
    intro j h1 h2
    rw [scanDown]
    exact ⟨le_refl _, h1, by intro k h3 h4; omega, by intro h; omega⟩
  | succ f ih =>
    intro j h1 h2
    rw [scanDown]
    split_ifs with hc
    · obtain ⟨q1, q2, q3, q4⟩ := ih (j - 1) (by omega) (by omega)
      refine ⟨by omega, q2, ?_, q4⟩
      intro k h3 h4
      by_cases hk : k = j
      · subst hk; exact hc.2
      · exact q3 k h3 (by omega)
    · refine ⟨le_refl _, h1, by intro k h3 h4; omega, ?_⟩
      intro h
      simpa [h] using hc

theorem partitionLoop_spec {less : α → α → Bool} (a b : Nat) :
    ∀ (fuel i j : Nat) (d : List α), a + 1 ≤ i → i ≤ j + 1 → j + 1 ≤ b → b ≤ d.length →
      j + 1 - i ≤ fuel →
      (∀ k, a + 1 ≤ k → k < i → lessAt less d k a = true) →
      (∀ k, j < k → k < b → lessAt less d k a = false) →
      a ≤ (partitionLoop less a fuel i j d).2 ∧ (partitionLoop less a fuel i j d).2 < b ∧
      (∀ k, a + 1 ≤ k → k ≤ (partitionLoop less a fuel i j d).2 →
        lessAt less (partitionLoop less a fuel i j d).1 k a = true) ∧
      (∀ k, (partitionLoop less a fuel i j d).2 < k → k < b →
        lessAt less (partitionLoop less a fuel i j d).1 k a = false) ∧
      SwapsIn (a + 1) b d (partitionLoop less a fuel i j d).1 := by
  intro fuel
  induction fuel with
  | zero =>
    intro i j d h1 h2 h3 h4 h5 h6 h7
    rw [partitionLoop]
    have : i = j + 1 := by omega
    subst this
    exact ⟨by omega, by omega, fun k hk1 hk2 => h6 k hk1 (by omega), h7, SwapsIn.refl _⟩
  | succ f ih =>
    intro i j d h1 h2 h3 h4 h5 h6 h7
    rw [partitionLoop]
    obtain ⟨u1, u2, u3, u4⟩ := scanUp_spec less d a j (j + 1 - i) i h2 (le_refl _)
    obtain ⟨i1, hi1⟩ : ∃ i1, i1 = scanUp less d a j (j + 1 - i) i := ⟨_, rfl⟩
    rw [← hi1] at u1 u2 u3 u4 ⊢
    obtain ⟨v1, v2, v3, v4⟩ := scanDown_spec less d a i1 (by omega) (j + 1 - i1) j u2 (le_refl _)
    obtain ⟨j1, hj1⟩ : ∃ j1, j1 = scanDown less d a i1 (j + 1 - i1) j := ⟨_, rfl⟩
    rw [← hj1] at v1 v2 v3 v4 ⊢
    split_ifs with hc
    · refine ⟨by omega, by omega, ?_, ?_, SwapsIn.refl _⟩
      · intro k hk1 hk2
        by_cases hk : k < i
        · exact h6 k hk1 hk
        · exact u3 k (by omega) (by omega)
      · intro k hk1 hk2
        by_cases hk : j < k
        · exact h7 k hk hk2
        · exact v3 k hk1 (by omega)
    · have hij : i1 ≤ j1 := by omega
      have hA := u4 (by omega)
      have hB := v4 hij
      have hne : i1 ≠ j1 := by
        intro h; rw [h, hB] at hA; exact absurd hA (by decide)
      have hlen : (swapAt d i1 j1).length = d.length := swapAt_length _ _ _
      have key := ih (i1 + 1) (j1 - 1) (swapAt d i1 j1) (by omega) (by omega) (by omega)
        (by omega) (by omega) ?_ ?_
      · obtain ⟨k1, k2, k3, k4, k5⟩ := key
        refine ⟨k1, k2, k3, k4, SwapsIn.trans ?_ k5⟩
        exact swapsIn_swapAt d i1 j1 (by omega) (by omega) (by omega) (by omega) h4
      · intro k hk1 hk2
        rw [lessAt_swapAt less d i1 j1 k a (by omega) (by omega)]
        have ea : swapIdx i1 j1 a = a := by unfold swapIdx; split_ifs <;> omega
        rw [ea]
        by_cases hk : k = i1
        · subst hk
          have e : swapIdx k j1 k = j1 := by unfold swapIdx; split_ifs <;> omega
          rw [e]; exact hB
        · have e : swapIdx i1 j1 k = k := by unfold swapIdx; split_ifs <;> omega
          rw [e]
          by_cases hk3 : k < i
          · exact h6 k hk1 hk3
          · exact u3 k (by omega) (by omega)
      · intro k hk1 hk2
        rw [lessAt_swapAt less d i1 j1 k a (by omega) (by omega)]
        have ea : swapIdx i1 j1 a = a := by unfold swapIdx; split_ifs <;> omega
        rw [ea]
        by_cases hk : k = j1
        · subst hk
          have e : swapIdx i1 k k = i1 := by unfold swapIdx; split_ifs <;> omega
          rw [e]; exact hA
        · have e : swapIdx i1 j1 k = k := by unfold swapIdx; split_ifs <;> omega
          rw [e]
          by_cases hk3 : j < k
          · exact h7 k hk3 hk2
          · exact v3 k (by omega) (by omega)

theorem partition_finish {less : α → α → Bool} (d : List α) (a b j : Nat) (h1 : a ≤ j)
    (h2 : j < b) (h3 : b ≤ d.length)
    (hL : ∀ k, a + 1 ≤ k → k ≤ j → lessAt less d k a = true)
    (hR : ∀ k, j < k → k < b → lessAt less d k a = false) :
    (∀ k, a ≤ k → k < j → lessAt less (swapAt d j a) k j = true) ∧
    (∀ k, j < k → k < b → lessAt less (swapAt d j a) k j = false) := by
  have ej : swapIdx j a j = a := by unfold swapIdx; split_ifs <;> omega
  constructor
  · intro k hk1 hk2
    rw [lessAt_swapAt less d j a k j (by omega) (by omega), ej]
    by_cases hk : k = a
    · subst hk
      have e : swapIdx j k k = j := by unfold swapIdx; simp
      rw [e]; exact hL j (by omega) (le_refl _)
    · have e : swapIdx j a k = k := by unfold swapIdx; split_ifs <;> omega
      rw [e]; exact hL k (by omega) (by omega)
  · intro k hk1 hk2
    rw [lessAt_swapAt less d j a k j (by omega) (by omega), ej]
    have e : swapIdx j a k = k := by unfold swapIdx; split_ifs <;> omega
    rw [e]; exact hR k hk1 hk2

theorem partition_spec {less : α → α → Bool} (data : List α) (a b pivot : Nat)
    (hab : a < b) (hb : b ≤ data.length) (hp1 : a ≤ pivot) (hp2 : pivot < b) :
    a ≤ (partition_func less data a b pivot).2.1 ∧ (partition_func less data a b pivot).2.1 < b ∧
    SwapsIn a b data (partition_func less data a b pivot).1 ∧
    (∀ k, a ≤ k → k < (partition_func less data a b pivot).2.1 →
      lessAt less (partition_func less data a b pivot).1 k
        (partition_func less data a b pivot).2.1 = true) ∧
    (∀ k, (partition_func less data a b pivot).2.1 < k → k < b →
      lessAt less (partition_func less data a b pivot).1 k
        (partition_func less data a b pivot).2.1 = false) := by
  unfold partition_func
  simp only
  obtain ⟨d0, hd0⟩ : ∃ d0, d0 = swapAt data a pivot := ⟨_, rfl⟩
  rw [← hd0]
  have hs0 : SwapsIn a b data d0 := by
    rw [hd0]; exact swapsIn_swapAt data a pivot (le_refl _) hab hp1 hp2 hb
  have hlen0 : d0.length = data.length := hs0.length_eq
  obtain ⟨u1, u2, u3, u4⟩ := scanUp_spec less d0 a (b - 1) (b - 1 - a) (a + 1) (by omega)
    (by omega)
  obtain ⟨i1, hi1⟩ : ∃ i1, i1 = scanUp less d0 a (b - 1) (b - 1 - a) (a + 1) := ⟨_, rfl⟩
  rw [← hi1] at u1 u2 u3 u4 ⊢
  obtain ⟨v1, v2, v3, v4⟩ := scanDown_spec less d0 a i1 (by omega) (b - i1) (b - 1) (by omega)
    (by omega)
  obtain ⟨j1, hj1⟩ : ∃ j1, j1 = scanDown less d0 a i1 (b - i1) (b - 1) := ⟨_, rfl⟩
  rw [← hj1] at v1 v2 v3 v4 ⊢
  split_ifs with hc
  · simp only
    have hfin := @partition_finish α less d0 a b j1 (by omega) (by omega) (by omega)
      (fun k hk1 hk2 => u3 k hk1 (by omega)) (fun k hk1 hk2 => v3 k hk1 (by omega))
    refine ⟨by omega, by omega, SwapsIn.trans hs0 ?_, hfin.1, hfin.2⟩
    exact swapsIn_swapAt d0 j1 a (by omega) (by omega) (le_refl _) hab (by omega)
  · simp only
    have hij : i1 ≤ j1 := by omega
    have hA := u4 (by omega)
    have hB := v4 hij
    have hne : i1 ≠ j1 := by
      intro h; rw [h, hB] at hA; exact absurd hA (by decide)
    have hlen : (swapAt d0 i1 j1).length = d0.length := swapAt_length _ _ _
    have key := @partitionLoop_spec α less a b (b - a) (i1 + 1) (j1 - 1) (swapAt d0 i1 j1)
      (by omega) (by omega) (by omega) (by omega) (by omega) ?_ ?_
    · obtain ⟨k1, k2, k3, k4, k5⟩ := key
      obtain ⟨r, hr⟩ : ∃ r, r = partitionLoop less a (b - a) (i1 + 1) (j1 - 1) (swapAt d0 i1 j1) :=
        ⟨_, rfl⟩
      rw [← hr] at k1 k2 k3 k4 k5 ⊢
      have hlenr : r.1.length = (swapAt d0 i1 j1).length := k5.length_eq
      have hfin := @partition_finish α less r.1 a b r.2 k1 k2 (by omega) k3 k4
      refine ⟨k1, k2, ?_, hfin.1, hfin.2⟩
      have s1 : SwapsIn a b d0 (swapAt d0 i1 j1) :=
        swapsIn_swapAt d0 i1 j1 (by omega) (by omega) (by omega) (by omega) (by omega)
      have s2 : SwapsIn a b (swapAt d0 i1 j1) r.1 := k5.mono (by omega) (le_refl _) (by omega)
      have s3 : SwapsIn a b r.1 (swapAt r.1 r.2 a) :=
        swapsIn_swapAt r.1 r.2 a (by omega) (by omega) (le_refl _) hab (by omega)
      exact SwapsIn.trans hs0 (SwapsIn.trans s1 (SwapsIn.trans s2 s3))
    · intro k hk1 hk2
      rw [lessAt_swapAt less d0 i1 j1 k a (by omega) (by omega)]
      have ea : swapIdx i1 j1 a = a := by unfold swapIdx; split_ifs <;> omega
      rw [ea]
      by_cases hk : k = i1
      · subst hk
        have e : swapIdx k j1 k = j1 := by unfold swapIdx; split_ifs <;> omega
        rw [e]; exact hB
      · have e : swapIdx i1 j1 k = k := by unfold swapIdx; split_ifs <;> omega
        rw [e]
        exact u3 k (by omega) (by omega)
    · intro k hk1 hk2
      rw [lessAt_swapAt less d0 i1 j1 k a (by omega) (by omega)]
      have ea : swapIdx i1 j1 a = a := by unfold swapIdx; split_ifs <;> omega
      rw [ea]
      by_cases hk : k = j1
      · subst hk
        have e : swapIdx i1 k k = i1 := by unfold swapIdx; split_ifs <;> omega
        rw [e]; exact hA
      · have e : swapIdx i1 j1 k = k := by unfold swapIdx; split_ifs <;> omega
        rw [e]
        exact v3 k (by omega) (by omega)

theorem scanUpEq_spec (less : α → α → Bool) (data : List α) (a j : Nat) :
    ∀ (fuel i : Nat), i ≤ j + 1 → j + 1 - i ≤ fuel →
      i ≤ scanUpEq less data a j fuel i ∧ scanUpEq less data a j fuel i ≤ j + 1 ∧
      (∀ k, i ≤ k → k < scanUpEq less data a j fuel i → lessAt less data a k = false) ∧
      (scanUpEq less data a j fuel i ≤ j →
        lessAt less data a (scanUpEq less data a j fuel i) = true) := by
  intro fuel
  induction fuel with
  | zero =>
    intro i h1 h2
    rw [scanUpEq]
    exact ⟨le_refl _, h1, by intro k h3 h4; omega, by intro h; omega⟩
  | succ f ih =>
    intro i h1 h2
    rw [scanUpEq]
    split_ifs with hc
    · obtain ⟨q1, q2, q3, q4⟩ := ih (i + 1) (by omega) (by omega)
      refine ⟨by omega, q2, ?_, q4⟩
      intro k h3 h4
      by_cases hk : k = i
      · subst hk; exact hc.2
      · exact q3 k (by omega) h4
    · refine ⟨le_refl _, h1, by intro k h3 h4; omega, ?_⟩
      intro h
      simpa [h] using hc

theorem scanDownEq_spec (less : α → α → Bool) (data : List α) (a i : Nat) (hi : 1 ≤ i) :
    ∀ (fuel j : Nat), i ≤ j + 1 → j + 1 - i ≤ fuel →
      scanDownEq less data a i fuel j ≤ j ∧ i ≤ scanDownEq less data a i fuel j + 1 ∧
      (∀ k, scanDownEq less data a i fuel j < k → k ≤ j → lessAt less data a k = true) ∧
      (i ≤ scanDownEq less data a i fuel j →
        lessAt less data a (scanDownEq less data a i fuel j) = false) := by
  intro fuel
  induction fuel with
  | zero =>
    intro j h1 h2
    rw [scanDownEq]
    exact ⟨le_refl _, h1, by intro k h3 h4; omega, by intro h; omega⟩
  | succ f ih =>
    intro j h1 h2
    rw [scanDownEq]
    split_ifs with hc
    · obtain ⟨q1, q2, q3, q4⟩ := ih (j - 1) (by omega) (by omega)
      refine ⟨by omega, q2, ?_, q4⟩
      intro k h3 h4
      by_cases hk : k = j
      · subst hk; exact hc.2
      · exact q3 k h3 (by omega)
    · refine ⟨le_refl _, h1, by intro k h3 h4; omega, ?_⟩
      intro h
      simpa [h] using hc

theorem partitionEqualLoop_spec {less : α → α → Bool} (a b : Nat) :
    ∀ (fuel i j : Nat) (d : List α), a + 1 ≤ i → i ≤ j + 1 → j + 1 ≤ b → b ≤ d.length →
      j + 1 - i ≤ fuel →
      (∀ k, a + 1 ≤ k → k < i → lessAt less d a k = false) →
      (∀ k, j < k → k < b → lessAt less d a k = true) →
      a + 1 ≤ (partitionEqualLoop less a fuel i j d).2 ∧
      (partitionEqualLoop less a fuel i j d).2 ≤ b ∧
      (∀ k, a + 1 ≤ k → k < (partitionEqualLoop less a fuel i j d).2 →
        lessAt less (partitionEqualLoop less a fuel i j d).1 a k = false) ∧
      (∀ k, (partitionEqualLoop less a fuel i j d).2 ≤ k → k < b →
        lessAt less (partitionEqualLoop less a fuel i j d).1 a k = true) ∧
      SwapsIn (a + 1) b d (partitionEqualLoop less a fuel i j d).1 := by
  intro fuel
  induction fuel with
  | zero =>
    intro i j d h1 h2 h3 h4 h5 h6 h7
    rw [partitionEqualLoop]
    have : i = j + 1 := by omega
    subst this
    exact ⟨by omega, by omega, h6, fun k hk1 hk2 => h7 k (by omega) hk2, SwapsIn.refl _⟩
  | succ f ih =>
    intro i j d h1 h2 h3 h4 h5 h6 h7
    rw [partitionEqualLoop]
    obtain ⟨u1, u2, u3, u4⟩ := scanUpEq_spec less d a j (j + 1 - i) i h2 (le_refl _)
    obtain ⟨i1, hi1⟩ : ∃ i1, i1 = scanUpEq less d a j (j + 1 - i) i := ⟨_, rfl⟩
    rw [← hi1] at u1 u2 u3 u4 ⊢
    obtain ⟨v1, v2, v3, v4⟩ :=
      scanDownEq_spec less d a i1 (by omega) (j + 1 - i1) j u2 (le_refl _)
    obtain ⟨j1, hj1⟩ : ∃ j1, j1 = scanDownEq less d a i1 (j + 1 - i1) j := ⟨_, rfl⟩
    rw [← hj1] at v1 v2 v3 v4 ⊢
    split_ifs with hc
    · refine ⟨by omega, by omega, ?_, ?_, SwapsIn.refl _⟩
      · intro k hk1 hk2
        by_cases hk : k < i
        · exact h6 k hk1 hk
        · exact u3 k (by omega) (by omega)
      · intro k hk1 hk2
        by_cases hk : j < k
        · exact h7 k hk hk2
        · exact v3 k (by omega) (by omega)
    · have hij : i1 ≤ j1 := by omega
      have hA := u4 (by omega)
      have hB := v4 hij
      have hne : i1 ≠ j1 := by
        intro h; rw [h, hB] at hA; exact absurd hA (by decide)
      have hlen : (swapAt d i1 j1).length = d.length := swapAt_length _ _ _
      have key := ih (i1 + 1) (j1 - 1) (swapAt d i1 j1) (by omega) (by omega) (by omega)
        (by omega) (by omega) ?_ ?_
      · obtain ⟨k1, k2, k3, k4, k5⟩ := key
        refine ⟨k1, k2, k3, k4, SwapsIn.trans ?_ k5⟩
        exact swapsIn_swapAt d i1 j1 (by omega) (by omega) (by omega) (by omega) h4
      · intro k hk1 hk2
        rw [lessAt_swapAt less d i1 j1 a k (by omega) (by omega)]
        have ea : swapIdx i1 j1 a = a := by unfold swapIdx; split_ifs <;> omega
        rw [ea]
        by_cases hk : k = i1
        · subst hk
          have e : swapIdx k j1 k = j1 := by unfold swapIdx; split_ifs <;> omega
          rw [e]; exact hB
        · have e : swapIdx i1 j1 k = k := by unfold swapIdx; split_ifs <;> omega
          rw [e]
          by_cases hk3 : k < i
          · exact h6 k hk1 hk3
          · exact u3 k (by omega) (by omega)
      · intro k hk1 hk2
        rw [lessAt_swapAt less d i1 j1 a k (by omega) (by omega)]
        have ea : swapIdx i1 j1 a = a := by unfold swapIdx; split_ifs <;> omega
        rw [ea]
        by_cases hk : k = j1
        · subst hk
          have e : swapIdx i1 k k = i1 := by unfold swapIdx; split_ifs <;> omega
          rw [e]; exact hA
        · have e : swapIdx i1 j1 k = k := by unfold swapIdx; split_ifs <;> omega
          rw [e]
          by_cases hk3 : j < k
          · exact h7 k hk3 hk2
          · exact v3 k (by omega) (by omega)

theorem partitionEqual_spec {less : α → α → Bool} (data : List α) (a b pivot : Nat)
    (hab : a < b) (hb : b ≤ data.length) (hp1 : a ≤ pivot) (hp2 : pivot < b) :
    a + 1 ≤ (partitionEqual_func less data a b pivot).2 ∧
    (partitionEqual_func less data a b pivot).2 ≤ b ∧
    SwapsIn a b data (partitionEqual_func less data a b pivot).1 ∧
    (partitionEqual_func less data a b pivot).1[a]? = data[pivot]? ∧
    (∀ k, a + 1 ≤ k → k < (partitionEqual_func less data a b pivot).2 →
      lessAt less (partitionEqual_func less data a b pivot).1 a k = false) ∧
    (∀ k, (partitionEqual_func less data a b pivot).2 ≤ k → k < b →
      lessAt less (partitionEqual_func less data a b pivot).1 a k = true) := by
  unfold partitionEqual_func
  have hs0 : SwapsIn a b data (swapAt data a pivot) :=
    swapsIn_swapAt data a pivot (le_refl _) hab hp1 hp2 hb
  have hlen0 := hs0.length_eq
  obtain ⟨k1, k2, k3, k4, k5⟩ := @partitionEqualLoop_spec α less a b (b - a + 1) (a + 1)
    (b - 1) (swapAt data a pivot) (le_refl _) (by omega) (by omega) (by omega) (by omega)
    (by intro k h1 h2; omega) (by intro k h1 h2; omega)
  refine ⟨k1, k2, SwapsIn.trans hs0 (k5.mono (by omega) (le_refl _) (by omega)), ?_, k3, k4⟩
  rw [k5.outside a (by omega), swapAt_getElem? data a pivot a (by omega) (by omega)]
  by_cases h : a = pivot
  · subst h; simp
  · rw [if_neg h, if_pos rfl]

theorem lessAt_congr (less : α → α → Bool) (d0 d1 : List α) (i j i0 j0 : Nat)
    (hi : d1[i]? = d0[i0]?) (hj : d1[j]? = d0[j0]?) :
    lessAt less d1 i j = lessAt less d0 i0 j0 := by
  simp only [lessAt, List.get?_eq_getElem?, hi, hj]

theorem LeftBound.swapsIn {less : α → α → Bool} {d0 d1 : List α} {a b : Nat}
    (h : LeftBound less d0 a b) (hs : SwapsIn a b d0 d1) : LeftBound less d1 a b := by
  intro i j hi hj1 hj2
  obtain ⟨j0, h1, h2, h3⟩ := hs.inside j hj1 hj2
  rw [lessAt_congr less d0 d1 j i j0 i h3 (hs.outside i (Or.inl hi))]
  exact h i j0 hi h1 h2

theorem LeftBound.shrink {less : α → α → Bool} {d : List α} {a b b1 : Nat}
    (h : LeftBound less d a b) (hb : b1 ≤ b) : LeftBound less d a b1 :=
  fun i j hi hj1 hj2 => h i j hi hj1 (by omega)

theorem SortedOn.congr {less : α → α → Bool} {d0 d1 : List α} {a b : Nat}
    (h : SortedOn less d0 a b) (he : ∀ k, a ≤ k → k < b → d1[k]? = d0[k]?) :
    SortedOn less d1 a b := by
  intro i j hi hij hj
  rw [lessAt_congr less d0 d1 j i j i (he j (by omega) hj) (he i hi (by omega))]
  exact h i j hi hij hj

theorem shiftLeft_eq {less : α → α → Bool} (a i : Nat) :
    ∀ (J : Nat) (d : List α), a ≤ J → J ≤ i → i < d.length → LeftBound less d a (i + 1) →
      shiftLeft less J d = insertionInner less a J d := by
  intro J
  induction J with
  | zero => intro d _ _ _ _; rfl
  | succ j ih =>
    intro d h1 h2 h3 h4
    rw [shiftLeft, insertionInner]
    by_cases hl : lessAt less d (j + 1) j = true
    · have haj : a < j + 1 := by
        by_contra hc
        have e : a = j + 1 := by omega
        have := h4 j (j + 1) (by omega) (by omega) (by omega)
        rw [hl] at this
        exact absurd this (by decide)
      rw [if_neg (by simp [hl]), if_pos ⟨haj, hl⟩]
      refine ih _ (by omega) (by omega) (by rw [swapAt_length]; exact h3) ?_
      exact h4.swapsIn
        (swapsIn_swapAt d (j + 1) j (by omega) (by omega) (by omega) (by omega) (by omega))
    · have hf : lessAt less d (j + 1) j = false := by simpa using hl
      rw [if_pos hf, if_neg (by simp [hf])]

theorem shiftRight_swaps {less : α → α → Bool} (i1 b : Nat) :
    ∀ (fuel j : Nat) (d : List α), i1 < j → b ≤ d.length →
      SwapsIn i1 b d (shiftRight less b fuel j d) := by
  intro fuel
  induction fuel with
  | zero => intro j d _ _; exact SwapsIn.refl _
  | succ f ih =>
    intro j d h1 h2
    rw [shiftRight]
    split_ifs with hc hl
    · exact SwapsIn.refl _
    · exact SwapsIn.trans
        (swapsIn_swapAt d j (j - 1) (by omega) hc (by omega) (by omega) h2)
        (ih (j + 1) _ (by omega) (by rw [swapAt_length]; exact h2))
    · exact SwapsIn.refl _

theorem scanSorted_spec (less : α → α → Bool) (data : List α) (b : Nat) :
    ∀ (fuel i : Nat), i ≤ b → b - i ≤ fuel →
      i ≤ scanSorted less data b fuel i ∧ scanSorted less data b fuel i ≤ b ∧
      (∀ k, i ≤ k → k < scanSorted less data b fuel i → lessAt less data k (k - 1) = false) := by
  intro fuel
  induction fuel with
  | zero =>
    intro i h1 h2
    rw [scanSorted]
    exact ⟨le_refl _, h1, by intro k h3 h4; omega⟩
  | succ f ih =>
    intro i h1 h2
    rw [scanSorted]
    split_ifs with hc
    · obtain ⟨q1, q2, q3⟩ := ih (i + 1) (by omega) (by omega)
      refine ⟨by omega, q2, ?_⟩
      intro k h3 h4
      by_cases hk : k = i
      · subst hk; exact hc.2
      · exact q3 k (by omega) h4
    · exact ⟨le_refl _, h1, by intro k h3 h4; omega⟩

theorem sorted_extend {less : α → α → Bool} (hw : StrictWeak less) (d : List α) (a i : Nat)
    (hs : SortedOn less d a i) :
    ∀ (n : Nat), i + n ≤ d.length →
      (∀ k, i ≤ k → k < i + n → lessAt less d k (k - 1) = false) → SortedOn less d a (i + n) := by
  intro n
  induction n with
  | zero => intro _ _; exact hs
  | succ m ih =>
    intro hlen hadj
    have hprev := ih (by omega) (fun k h1 h2 => hadj k h1 (by omega))
    intro p q hp hpq hq
    by_cases hq1 : q < i + m
    · exact hprev p q hp hpq hq1
    · have hq2 : q = i + m := by omega
      subst hq2
      have h1 := hadj (i + m) (by omega) (by omega)
      by_cases hp1 : p = i + m - 1
      · subst hp1; exact h1
      · exact lessAt_incomp hw d (i + m) (i + m - 1) p (by omega) h1
          (hprev p (i + m - 1) hp (by omega) (by omega))

theorem partialInsertionLoop_succ (less : α → α → Bool) (a b steps i : Nat) (d : List α) :
    partialInsertionLoop less a b (steps + 1) i d =
      if scanSorted less d b (b - i) i = b then (d, true)
      else if b - a < 50 then (d, false)
      else
        partialInsertionLoop less a b steps (scanSorted less d b (b - i) i)
          (if 2 ≤ b - scanSorted less d b (b - i) i then
            shiftRight less b (b - scanSorted less d b (b - i) i)
              (scanSorted less d b (b - i) i + 1)
              (if 2 ≤ scanSorted less d b (b - i) i - a then
                shiftLeft less (scanSorted less d b (b - i) i - 1)
                  (swapAt d (scanSorted less d b (b - i) i) (scanSorted less d b (b - i) i - 1))
              else swapAt d (scanSorted less d b (b - i) i) (scanSorted less d b (b - i) i - 1))
          else
            (if 2 ≤ scanSorted less d b (b - i) i - a then
              shiftLeft less (scanSorted less d b (b - i) i - 1)
                (swapAt d (scanSorted less d b (b - i) i) (scanSorted less d b (b - i) i - 1))
            else swapAt d (scanSorted less d b (b - i) i) (scanSorted less d b (b - i) i - 1))) := by
  rw [partialInsertionLoop]

theorem partialInsertionLoop_spec {less : α → α → Bool} (hw : StrictWeak less) (a b : Nat) :
    ∀ (steps i : Nat) (d : List α), a + 1 ≤ i → i ≤ b → b ≤ d.length →
      SortedOn less d a i → LeftBound less d a b →
      SwapsIn a b d (partialInsertionLoop less a b steps i d).1 ∧
      ((partialInsertionLoop less a b steps i d).2 = true →
        SortedOn less (partialInsertionLoop less a b steps i d).1 a b) := by
  intro steps
  induction steps with
  | zero =>
    intro i d _ _ _ _ _
    rw [partialInsertionLoop]
    exact ⟨SwapsIn.refl _, by intro h; simp at h⟩
  | succ s ih =>
    intro i d h1 h2 h3 h4 h5
    rw [partialInsertionLoop_succ]
    obtain ⟨u1, u2, u3⟩ := scanSorted_spec less d b (b - i) i h2 (le_refl _)
    obtain ⟨i1, hi1⟩ : ∃ i1, i1 = scanSorted less d b (b - i) i := ⟨_, rfl⟩
    rw [← hi1] at u1 u2 u3 ⊢
    have hsorted : SortedOn less d a i1 := by
      have := sorted_extend hw d a i h4 (i1 - i) (by omega)
        (fun k hk1 hk2 => u3 k hk1 (by omega))
      rwa [show i + (i1 - i) = i1 by omega] at this
    by_cases hc : i1 = b
    · rw [if_pos hc]
      subst hc
      exact ⟨SwapsIn.refl _, fun _ => hsorted⟩
    · rw [if_neg hc]
      by_cases hc2 : b - a < 50
      · rw [if_pos hc2]
        exact ⟨SwapsIn.refl _, by intro h; simp at h⟩
      · rw [if_neg hc2]
        have s1 : SwapsIn a b d (swapAt d i1 (i1 - 1)) :=
          swapsIn_swapAt d i1 (i1 - 1) (by omega) (by omega) (by omega) (by omega) h3
        obtain ⟨d1, hd1⟩ : ∃ d1, d1 = swapAt d i1 (i1 - 1) := ⟨_, rfl⟩
        rw [← hd1] at s1 ⊢
        have hlen1 : d1.length = d.length := s1.length_eq
        have hb1 : LeftBound less d1 a b := h5.swapsIn s1
        have hs0 : SortedOn less d a (i1 - 1) :=
          fun p q hp hpq hq => hsorted p q hp hpq (by omega)
        have hs1 : SortedOn less d1 a (i1 - 1) := by
          refine hs0.congr ?_
          intro k hk1 hk2
          rw [hd1, swapAt_getElem? d i1 (i1 - 1) k (by omega) (by omega), if_neg (by omega),
            if_neg (by omega)]
        obtain ⟨d2, hd2⟩ : ∃ d2, d2 = (if 2 ≤ i1 - a then shiftLeft less (i1 - 1) d1 else d1) :=
          ⟨_, rfl⟩
        rw [← hd2]
        have hd2spec : SortedOn less d2 a i1 ∧ SwapsIn a b d1 d2 := by
          rw [hd2]
          by_cases h2a : 2 ≤ i1 - a
          · rw [if_pos h2a]
            rw [shiftLeft_eq a (i1 - 1) (i1 - 1) d1 (by omega) (le_refl _) (by omega)
              (by rw [show i1 - 1 + 1 = i1 by omega]; exact hb1.shrink u2)]
            have key := insertionInner_spec hw a (i1 - 1) (i1 - 1) d1 (by omega) (le_refl _)
              (by omega) hs1 (by intro p q hp hpq hq; omega) (by intro p q _ _ hq1 hq2; omega)
            rw [show i1 - 1 + 1 = i1 by omega] at key
            exact ⟨key.1, key.2.mono (le_refl _) u2 (by omega)⟩
          · rw [if_neg h2a]
            exact ⟨by intro p q hp hpq hq; omega, SwapsIn.refl _⟩
        have hlen2 : d2.length = d1.length := hd2spec.2.length_eq
        obtain ⟨d3, hd3⟩ : ∃ d3, d3 = (if 2 ≤ b - i1 then
            shiftRight less b (b - i1) (i1 + 1) d2 else d2) := ⟨_, rfl⟩
        rw [← hd3]
        have hd3spec : SwapsIn i1 b d2 d3 := by
          rw [hd3]
          by_cases h2b : 2 ≤ b - i1
          · rw [if_pos h2b]
            exact shiftRight_swaps i1 b _ _ _ (by omega) (by omega)
          · rw [if_neg h2b]
            exact SwapsIn.refl _
        have hlen3 : d3.length = d2.length := hd3spec.length_eq
        have s3 : SwapsIn a b d d3 :=
          SwapsIn.trans s1
            (SwapsIn.trans hd2spec.2 (hd3spec.mono (by omega) (le_refl _) (by omega)))
        have key := ih i1 d3 (by omega) u2 (by omega)
          (hd2spec.1.congr (fun k hk1 hk2 => hd3spec.outside k (Or.inl hk2))) (h5.swapsIn s3)
        exact ⟨SwapsIn.trans s3 key.1, key.2⟩

theorem partialInsertionSort_spec {less : α → α → Bool} (hw : StrictWeak less) (data : List α)
    (a b : Nat) (hab : a < b) (hb : b ≤ data.length) (hlb : LeftBound less data a b) :
    SwapsIn a b data (partialInsertionSort_func less data a b).1 ∧
    ((partialInsertionSort_func less data a b).2 = true →
      SortedOn less (partialInsertionSort_func less data a b).1 a b) := by
  unfold partialInsertionSort_func
  exact partialInsertionLoop_spec hw a b 5 (a + 1) data (le_refl _) (by omega) hb
    (by intro p q hp hpq hq; omega) hlb

theorem heapChild_spec {less : α → α → Bool} (hw : StrictWeak less) (d : List α)
    (first hi r : Nat) (h : 2 * r + 1 < hi) :
    (heapChild less d first hi r = 2 * r + 1 ∨ heapChild less d first hi r = 2 * r + 2) ∧
    heapChild less d first hi r < hi ∧
    (∀ c, (c = 2 * r + 1 ∨ c = 2 * r + 2) → c < hi →
      lessAt less d (first + heapChild less d first hi r) (first + c) = false) := by
  unfold heapChild
  split_ifs with hc
  · refine ⟨Or.inr rfl, hc.1, ?_⟩
    intro c hcc _
    rcases hcc with rfl | rfl
    · exact lessAt_asymm hw d _ _ hc.2
    · exact lessAt_irrefl hw d _
  · refine ⟨Or.inl rfl, h, ?_⟩
    intro c hcc hlt
    rcases hcc with rfl | rfl
    · exact lessAt_irrefl hw d _
    · by_contra hne
      exact hc ⟨hlt, by simpa using hne⟩

theorem siftDown_spec {less : α → α → Bool} (hw : StrictWeak less) (first hi lo : Nat) :
    ∀ (fuel root : Nat) (d : List α), lo ≤ root → hi - root ≤ fuel → first + hi ≤ d.length →
      (∀ r, lo ≤ r → r < hi → r ≠ root → HeapAt less d first hi r) →
      (∀ r c, lo ≤ r → (root = 2 * r + 1 ∨ root = 2 * r + 2) →
        (c = 2 * root + 1 ∨ c = 2 * root + 2) → c < hi →
        lessAt less d (first + r) (first + c) = false) →
      (∀ r, lo ≤ r → r < hi → HeapAt less (siftDown_func less first hi fuel root d) first hi r) ∧
      SwapsIn (first + lo) (first + hi) d (siftDown_func less first hi fuel root d) := by
  intro fuel
  induction fuel with
  | zero =>
    intro root d h1 h2 h3 h4 h5
    rw [siftDown_func]
    exact ⟨fun r hr1 hr2 => h4 r hr1 hr2 (by omega), SwapsIn.refl _⟩
  | succ f ih =>
    intro root d h1 h2 h3 h4 h5
    rw [siftDown_func]
    by_cases hc : hi ≤ 2 * root + 1
    · rw [if_pos hc]
      refine ⟨?_, SwapsIn.refl _⟩
      intro r hr1 hr2
      by_cases hr : r = root
      · subst hr
        intro c hcc hlt
        omega
      · exact h4 r hr1 hr2 hr
    · rw [if_neg hc]
      obtain ⟨c1, c2, c3⟩ := heapChild_spec hw d first hi root (by omega)
      obtain ⟨ch, hch⟩ : ∃ ch, ch = heapChild less d first hi root := ⟨_, rfl⟩
      rw [← hch] at c1 c2 c3 ⊢
      by_cases hl : lessAt less d (first + root) (first + ch) = false
      · rw [if_pos hl]
        refine ⟨?_, SwapsIn.refl _⟩
        intro r hr1 hr2
        by_cases hr : r = root
        · subst hr
          intro c hcc hlt
          exact lessAt_incomp hw d _ (first + ch) _ (by omega) hl (c3 c hcc hlt)
        · exact h4 r hr1 hr2 hr
      · rw [if_neg hl]
        have hlt : lessAt less d (first + root) (first + ch) = true := by simpa using hl
        have hlen : (swapAt d (first + root) (first + ch)).length = d.length :=
          swapAt_length _ _ _
        have hsw : ∀ x y, lessAt less (swapAt d (first + root) (first + ch)) x y =
            lessAt less d (swapIdx (first + root) (first + ch) x)
              (swapIdx (first + root) (first + ch) y) :=
          fun x y => lessAt_swapAt less d _ _ x y (by omega) (by omega)
        have eroot : swapIdx (first + root) (first + ch) (first + root) = first + ch := by
          unfold swapIdx; split_ifs <;> omega
        have ech : swapIdx (first + root) (first + ch) (first + ch) = first + root := by
          unfold swapIdx; split_ifs <;> omega
        have eoth : ∀ k, k ≠ root → k ≠ ch →
            swapIdx (first + root) (first + ch) (first + k) = first + k := by
          intro k hk1 hk2; unfold swapIdx; split_ifs <;> omega
        have key := ih ch (swapAt d (first + root) (first + ch)) (by omega) (by omega)
          (by omega) ?_ ?_
        · refine ⟨key.1, SwapsIn.trans ?_ key.2⟩
          exact swapsIn_swapAt d _ _ (by omega) (by omega) (by omega) (by omega) h3
        · intro r hr1 hr2 hr3 c hcc hclt
          rw [hsw]
          by_cases hrr : r = root
          · subst hrr
            rw [eroot]
            by_cases hcch : c = ch
            · subst hcch
              rw [ech]
              exact lessAt_asymm hw d _ _ hlt
            · rw [eoth c (by omega) hcch]
              exact c3 c hcc hclt
          · rw [eoth r hrr hr3]
            by_cases hcr : c = root
            · subst hcr
              rw [eroot]
              exact h5 r ch hr1 (by omega) c1 c2
            · have hcch : c ≠ ch := by omega
              rw [eoth c hcr hcch]
              exact h4 r hr1 hr2 hrr c hcc hclt
        · intro r c hr1 hr2 hcc hclt
          have hrr : r = root := by omega
          subst hrr
          rw [hsw, eroot, eoth c (by omega) (by omega)]
          exact h4 ch (by omega) c2 (by omega) c hcc hclt

theorem heapBuild_spec {less : α → α → Bool} (hw : StrictWeak less) (first hi : Nat) :
    ∀ (i : Nat) (d : List α), first + hi ≤ d.length →
      (∀ r, i + 1 ≤ r → r < hi → HeapAt less d first hi r) →
      (∀ r, r < hi → HeapAt less (heapBuild less first hi i d) first hi r) ∧
      SwapsIn first (first + hi) d (heapBuild less first hi i d) := by
  intro i
  induction i with
  | zero =>
    intro d h1 h2
    rw [heapBuild]
    obtain ⟨k1, k2⟩ := siftDown_spec hw first hi 0 hi 0 d (le_refl _) (by omega) h1
      (fun r _ hr2 hr3 => h2 r (by omega) hr2) (by intro r c _ hr _ _; omega)
    exact ⟨fun r hr => k1 r (by omega) hr, k2⟩
  | succ j ih =>
    intro d h1 h2
    rw [heapBuild]
    obtain ⟨k1, k2⟩ := siftDown_spec hw first hi (j + 1) hi (j + 1) d (le_refl _) (by omega) h1
      (fun r hr1 hr2 hr3 => h2 r (by omega) hr2) (by intro r c hr1 hr _ _; omega)
    have hlen := k2.length_eq
    obtain ⟨k3, k4⟩ := ih (siftDown_func less first hi hi (j + 1) d) (by omega)
      (fun r hr1 hr2 => k1 r hr1 hr2)
    exact ⟨k3, SwapsIn.trans (k2.mono (by omega) (le_refl _) h1) k4⟩

theorem heap_root_max {less : α → α → Bool} (hw : StrictWeak less) (d : List α)
    (first hi : Nat) (hlen : first + hi ≤ d.length)
    (hh : ∀ r, r < hi → HeapAt less d first hi r) :
    ∀ r, r < hi → lessAt less d first (first + r) = false := by
  intro r
  induction r using Nat.strong_induction_on with
  | _ r ih =>
    intro hr
    by_cases h0 : r = 0
    · subst h0; exact lessAt_irrefl hw d _
    · have hp := ih ((r - 1) / 2) (by omega) (by omega)
      have hc := hh ((r - 1) / 2) (by omega) r (by omega) hr
      exact lessAt_incomp hw d first (first + (r - 1) / 2) (first + r) (by omega) hp hc

theorem heapPop_spec {less : α → α → Bool} (hw : StrictWeak less) (first n : Nat) :
    ∀ (i : Nat) (d : List α), i < n → first + n ≤ d.length →
      (∀ r, r < i + 1 → HeapAt less d first (i + 1) r) →
      SortedOn less d (first + i + 1) (first + n) →
      (∀ x y, x < i + 1 → i + 1 ≤ y → y < n → lessAt less d (first + y) (first + x) = false) →
      SortedOn less (heapPop less first i d) first (first + n) ∧
      SwapsIn first (first + n) d (heapPop less first i d) := by
  intro i
  induction i with
  | zero =>
    intro d h1 h2 _ h4 h5
    rw [heapPop, siftDown_func]
    have e : ∀ k : Nat, (swapAt d first first)[k]? = d[k]? := by
      intro k
      rw [swapAt_getElem? d first first k (by omega) (by omega)]
      split_ifs with hk
      · rw [hk]
      · rfl
    refine ⟨?_, swapsIn_swapAt d first first (le_refl _) (by omega) (le_refl _) (by omega) h2⟩
    intro p q hp hpq hq
    rw [lessAt_congr less d _ q p q p (e q) (e p)]
    by_cases hp0 : p = first
    · subst hp0
      have := h5 0 (q - p) (by omega) (by omega) (by omega)
      rwa [show p + (q - p) = q by omega, Nat.add_zero] at this
    · exact h4 p q (by omega) hpq hq
  | succ j ih =>
    intro d h1 h2 h3 h4 h5
    rw [heapPop]
    obtain ⟨d1, hd1⟩ : ∃ d1, d1 = swapAt d first (first + (j + 1)) := ⟨_, rfl⟩
    rw [← hd1]
    have hlen1 : d1.length = d.length := by rw [hd1]; exact swapAt_length _ _ _
    have e1 : ∀ k : Nat, d1[k]? = d[swapIdx first (first + (j + 1)) k]? := by
      intro k
      rw [hd1, swapAt_getElem? d first (first + (j + 1)) k (by omega) (by omega)]
      unfold swapIdx
      split_ifs <;> rfl
    have hroot := heap_root_max hw d first (j + 1 + 1) (by omega) h3
    have hpre : ∀ r, 0 ≤ r → r < j + 1 → r ≠ 0 → HeapAt less d1 first (j + 1) r := by
      intro r hr1 hr2 hr3 c hcc hclt
      rw [lessAt_congr less d _ (first + r) (first + c) (first + r) (first + c)
        ((e1 _).trans (by rw [show swapIdx first (first + (j + 1)) (first + r) = first + r by
          unfold swapIdx; split_ifs <;> omega]))
        ((e1 _).trans (by rw [show swapIdx first (first + (j + 1)) (first + c) = first + c by
          unfold swapIdx; split_ifs <;> omega]))]
      exact h3 r (by omega) c hcc (by omega)
    obtain ⟨k1, k2⟩ := siftDown_spec hw first (j + 1) 0 (j + 1) 0 d1 (le_refl _) (by omega)
      (by omega) hpre (by intro r c _ hr _ _; omega)
    · obtain ⟨d2, hd2⟩ : ∃ d2, d2 = siftDown_func less first (j + 1) (j + 1) 0 d1 := ⟨_, rfl⟩
      rw [← hd2] at k1 k2 ⊢
      have hlen2 : d2.length = d1.length := k2.length_eq
      have e2out : ∀ k : Nat, first + (j + 1) ≤ k → d2[k]? = d1[k]? :=
        fun k hk => k2.outside k (Or.inr (by omega))
      have key := ih d2 (by omega) (by omega) (fun r hr => k1 r (by omega) hr) ?_ ?_
      · refine ⟨key.1, SwapsIn.trans ?_ (SwapsIn.trans (k2.mono (by omega) (by omega) (by omega))
          key.2)⟩
        rw [hd1]
        exact swapsIn_swapAt d first (first + (j + 1)) (le_refl _) (by omega) (by omega)
          (by omega) h2
      · intro p q hp hpq hq
        rw [lessAt_congr less d _ q p (swapIdx first (first + (j + 1)) q)
          (swapIdx first (first + (j + 1)) p) ((e2out q (by omega)).trans (e1 q))
          ((e2out p (by omega)).trans (e1 p))]
        have eq1 : swapIdx first (first + (j + 1)) q = q := by
          unfold swapIdx; split_ifs <;> omega
        rw [eq1]
        by_cases hp1 : p = first + (j + 1)
        · have ep1 : swapIdx first (first + (j + 1)) p = first := by
            unfold swapIdx; split_ifs; omega
          rw [ep1]
          have := h5 0 (q - first) (by omega) (by omega) (by omega)
          rwa [show first + (q - first) = q by omega, Nat.add_zero] at this
        · have ep1 : swapIdx first (first + (j + 1)) p = p := by
            unfold swapIdx; split_ifs <;> omega
          rw [ep1]
          exact h4 p q (by omega) hpq hq
      · intro x y hx hy1 hy2
        obtain ⟨x0, hx1, hx2, hx3⟩ := k2.inside (first + x) (by omega) (by omega)
        rw [lessAt_congr less d _ (first + y) (first + x)
          (swapIdx first (first + (j + 1)) (first + y))
          (swapIdx first (first + (j + 1)) x0) ((e2out _ (by omega)).trans (e1 _))
          (hx3.trans (e1 x0))]
        have hx0 : swapIdx first (first + (j + 1)) x0 =
            first + (swapIdx first (first + (j + 1)) x0 - first) ∧
            swapIdx first (first + (j + 1)) x0 - first < j + 1 + 1 := by
          unfold swapIdx; split_ifs <;> omega
        by_cases hy : y = j + 1
        · subst hy
          have ey : swapIdx first (first + (j + 1)) (first + (j + 1)) = first := by
            unfold swapIdx; split_ifs <;> omega
          rw [ey, hx0.1]
          exact hroot _ hx0.2
        · have ey : swapIdx first (first + (j + 1)) (first + y) = first + y := by
            unfold swapIdx; split_ifs <;> omega
          rw [ey, hx0.1]
          exact h5 _ y hx0.2 (by omega) hy2

theorem heapSort_spec {less : α → α → Bool} (hw : StrictWeak less) (data : List α) (a b : Nat)
    (hab : a ≤ b) (hb : b ≤ data.length) :
    SortedOn less (heapSort_func less data a b) a b ∧
      SwapsIn a b data (heapSort_func less data a b) := by
  unfold heapSort_func
  split_ifs with h0
  · exact ⟨by intro p q hp hpq hq; omega, SwapsIn.refl _⟩
  · obtain ⟨k1, k2⟩ := heapBuild_spec hw a (b - a) ((b - a - 1) / 2) data (by omega)
      (by intro r hr1 hr2 c hcc hclt; omega)
    have hlen := k2.length_eq
    obtain ⟨k3, k4⟩ := heapPop_spec hw a (b - a) (b - a - 1)
      (heapBuild less a (b - a) ((b - a - 1) / 2) data) (by omega) (by omega)
      (by rw [show b - a - 1 + 1 = b - a by omega]; exact k1)
      (by intro p q hp hpq hq; omega) (by intro x y hx hy1 hy2; omega)
    rw [show a + (b - a) = b by omega] at k2 k3 k4
    exact ⟨k3, SwapsIn.trans k2 k4⟩

theorem cross_of_partition {less : α → α → Bool} (hw : StrictWeak less) (d : List α)
    (a b mid : Nat)
    (t4 : ∀ k, a ≤ k → k < mid → lessAt less d k mid = true)
    (t5 : ∀ k, mid < k → k < b → lessAt less d k mid = false) :
    ∀ i j, a ≤ i → i ≤ mid → mid < j → j < b → lessAt less d j i = false := by
  intro i j hi1 hi2 hj1 hj2
  by_cases him : i = mid
  · subst him; exact t5 j hj1 hj2
  · by_contra hc
    have h1 : lessAt less d j i = true := by simpa using hc
    have h2 := lessAt_trans hw d j i mid h1 (t4 i hi1 (by omega))
    rw [t5 j hj1 hj2] at h2
    exact absurd h2 (by decide)

theorem sorted_of_parts {less : α → α → Bool} (hw : StrictWeak less) (d r : List α)
    (a b mid : Nat)
    (t4 : ∀ k, a ≤ k → k < mid → lessAt less d k mid = true)
    (t5 : ∀ k, mid < k → k < b → lessAt less d k mid = false)
    (hL : ∀ k : Nat, a ≤ k → k < mid → ∃ k0, a ≤ k0 ∧ k0 < mid ∧ r[k]? = d[k0]?)
    (hM : r[mid]? = d[mid]?)
    (hR : ∀ k : Nat, mid < k → k < b → ∃ k0, mid < k0 ∧ k0 < b ∧ r[k]? = d[k0]?)
    (hsL : SortedOn less r a mid) (hsR : SortedOn less r (mid + 1) b) :
    SortedOn less r a b := by
  have hcross := cross_of_partition hw d a b mid t4 t5
  intro p q hp hpq hq
  by_cases hq1 : q < mid
  · exact hsL p q hp hpq hq1
  · by_cases hp1 : mid < p
    · exact hsR p q (by omega) hpq hq
    · by_cases hq2 : q = mid
      · subst hq2
        obtain ⟨p0, hp01, hp02, hp03⟩ := hL p hp (by omega)
        rw [lessAt_congr less d r q p q p0 hM hp03]
        exact lessAt_asymm hw d _ _ (t4 p0 hp01 hp02)
      · obtain ⟨q0, hq01, hq02, hq03⟩ := hR q (by omega) hq
        by_cases hp2 : p = mid
        · subst hp2
          rw [lessAt_congr less d r q p q0 p hq03 hM]
          exact t5 q0 hq01 hq02
        · obtain ⟨p0, hp01, hp02, hp03⟩ := hL p hp (by omega)
          rw [lessAt_congr less d r q p q0 p0 hq03 hp03]
          exact hcross p0 q0 hp01 (by omega) hq01 hq02

theorem pdqsort_spec {less : α → α → Bool} (hw : StrictWeak less) :
    ∀ (fuel : Nat) (data : List α) (a b limit : Nat) (wb wp : Bool), a ≤ b → b ≤ data.length →
      b - a < fuel → LeftBound less data a b →
      SortedOn less (pdqsort_func less fuel data a b limit wb wp) a b ∧
      SwapsIn a b data (pdqsort_func less fuel data a b limit wb wp) := by
  intro fuel
  induction fuel with
  | zero => intro data a b limit wb wp _ _ h _; omega
  | succ f ih =>
    intro data a b limit wb wp hab hb hfuel hlb
    rw [pdqsort_func]
    by_cases h12 : b - a ≤ 12
    · rw [if_pos h12]; exact insertionSort_spec hw data a b hab hb
    rw [if_neg h12]
    by_cases hlim : limit = 0
    · rw [if_pos hlim]; exact heapSort_spec hw data a b hab hb
    rw [if_neg hlim]
    lift_lets
    intro data1 limit1 ph data2 pivot hint pis pe pt mid
    have hd1 : data1 = (if wb = true then data else breakPatterns_func data a b) := rfl
    have hph : ph = choosePivot_func less data1 a b := rfl
    have hd2 : data2 =
        (if ph.2 = SortedHint.decreasingHint then reverseRange_func data1 a b else data1) := rfl
    have hpivot : pivot =
        (if ph.2 = SortedHint.decreasingHint then b - 1 - (ph.1 - a) else ph.1) := rfl
    have hpisdef : pis =
        (if (wb && wp && decide (hint = SortedHint.increasingHint)) = true then
          partialInsertionSort_func less data2 a b else (data2, false)) := rfl
    have hpedef : pe = partitionEqual_func less pis.1 a b pivot := rfl
    have hptdef : pt = partition_func less pis.1 a b pivot := rfl
    have hmiddef : mid = pt.2.1 := rfl
    clear_value mid pt pe pis hint pivot data2 ph limit1 data1
    have s1 : SwapsIn a b data data1 := by
      rw [hd1]
      split_ifs
      · exact SwapsIn.refl _
      · exact breakPatterns_swaps data a b hb
    have hlen1 : data1.length = data.length := s1.length_eq
    have hphr : a ≤ ph.1 ∧ ph.1 < b := by
      rw [hph]; exact choosePivot_range less data1 a b (by omega)
    have s2 : SwapsIn a b data1 data2 := by
      rw [hd2]
      split_ifs
      · exact reverseRange_swaps data1 a b (by omega) (by omega)
      · exact SwapsIn.refl _
    have hlen2 : data2.length = data1.length := s2.length_eq
    have hpv : a ≤ pivot ∧ pivot < b := by
      rw [hpivot]
      split_ifs <;> omega
    have lb2 : LeftBound less data2 a b := (hlb.swapsIn s1).swapsIn s2
    have hpis : SwapsIn a b data2 pis.1 ∧ (pis.2 = true → SortedOn less pis.1 a b) := by
      rw [hpisdef]
      split_ifs
      · exact partialInsertionSort_spec hw data2 a b (by omega) (by omega) lb2
      · exact ⟨SwapsIn.refl _, by intro h; simp at h⟩
    have s3 : SwapsIn a b data pis.1 := SwapsIn.trans s1 (SwapsIn.trans s2 hpis.1)
    have hlen3 : pis.1.length = data.length := s3.length_eq
    have lb3 : LeftBound less pis.1 a b := hlb.swapsIn s3
    by_cases hsorted : pis.2 = true
    · rw [if_pos hsorted]; exact ⟨hpis.2 hsorted, s3⟩
    rw [if_neg hsorted]
    by_cases hpe : 0 < a ∧ lessAt less pis.1 (a - 1) pivot = false
    · rw [if_pos hpe]
      have hspec :=
        @partitionEqual_spec α less pis.1 a b pivot (by omega) (by omega) hpv.1 hpv.2
      rw [← hpedef] at hspec
      obtain ⟨e1, e2, e3, e4, e5, e6⟩ := hspec
      have hlene : pe.1.length = pis.1.length := e3.length_eq
      have hnosmall : ∀ k, a ≤ k → k < b → lessAt less pe.1 k a = false := by
        intro k hk1 hk2
        obtain ⟨k0, hk01, hk02, hk03⟩ := e3.inside k hk1 hk2
        rw [lessAt_congr less pis.1 pe.1 k a k0 pivot hk03 e4]
        exact lessAt_incomp hw pis.1 k0 (a - 1) pivot (by omega)
          (lb3 (a - 1) k0 (by omega) hk01 hk02) hpe.2
      have hnogreat : ∀ k, a ≤ k → k < pe.2 → lessAt less pe.1 a k = false := by
        intro k hk1 hk2
        by_cases hka : k = a
        · subst hka; exact lessAt_irrefl hw _ _
        · exact e5 k (by omega) hk2
      have lbe : LeftBound less pe.1 pe.2 b := by
        intro i j hi hj1 hj2
        by_cases hia : i < a
        · exact (lb3.swapsIn e3) i j hia (by omega) hj2
        · by_contra hc
          have h1 : lessAt less pe.1 j i = true := by simpa using hc
          have h2 := lessAt_trans hw pe.1 a j i (e6 j hj1 hj2) h1
          rw [hnogreat i (by omega) hi] at h2
          exact absurd h2 (by decide)
      obtain ⟨r1, r2⟩ := ih pe.1 pe.2 b limit1 wb wp e2 (by omega) (by omega) lbe
      refine ⟨?_, SwapsIn.trans s3 (SwapsIn.trans e3 (r2.mono (by omega) (le_refl _) (by omega)))⟩
      intro p q hp hpq hq
      by_cases hq1 : q < pe.2
      · rw [lessAt_congr less pe.1 _ q p q p (r2.outside q (Or.inl hq1))
          (r2.outside p (Or.inl (by omega)))]
        exact lessAt_incomp hw pe.1 q a p (by omega) (hnosmall q (by omega) hq)
          (hnogreat p hp (by omega))
      · by_cases hp1 : pe.2 ≤ p
        · exact r1 p q hp1 hpq hq
        · obtain ⟨q0, hq01, hq02, hq03⟩ := r2.inside q (by omega) hq
          rw [lessAt_congr less pe.1 _ q p q0 p hq03 (r2.outside p (Or.inl (by omega)))]
          exact lbe p q0 (by omega) hq01 hq02
    rw [if_neg hpe]
    have hspec :=
      @partition_spec α less pis.1 a b pivot (by omega) (by omega) hpv.1 hpv.2
    rw [← hptdef, ← hmiddef] at hspec
    obtain ⟨t1, t2, t3, t4, t5⟩ := hspec
    have hlent : pt.1.length = pis.1.length := t3.length_eq
    have lbt : LeftBound less pt.1 a b := lb3.swapsIn t3
    have hcross := cross_of_partition hw pt.1 a b mid t4 t5
    by_cases hside : mid - a < b - mid
    · rw [if_pos hside]
      obtain ⟨l1, l2⟩ := ih pt.1 a mid limit1 true true t1 (by omega) (by omega)
        (lbt.shrink (by omega))
      obtain ⟨dL, hdL⟩ : ∃ dL, dL = pdqsort_func less f pt.1 a mid limit1 true true := ⟨_, rfl⟩
      rw [← hdL] at l1 l2 ⊢
      have hlenL : dL.length = pt.1.length := l2.length_eq
      have lbR : LeftBound less dL (mid + 1) b := by
        intro i j hi hj1 hj2
        have ej : dL[j]? = pt.1[j]? := l2.outside j (Or.inr (by omega))
        by_cases hia : i < a
        · rw [lessAt_congr less pt.1 dL j i j i ej (l2.outside i (Or.inl hia))]
          exact lbt i j hia (by omega) hj2
        · by_cases him : i = mid
          · rw [lessAt_congr less pt.1 dL j i j i ej (l2.outside i (Or.inr (by omega)))]
            exact hcross i j (by omega) (by omega) (by omega) hj2
          · obtain ⟨i0, hi01, hi02, hi03⟩ := l2.inside i (by omega) (by omega)
            rw [lessAt_congr less pt.1 dL j i j i0 ej hi03]
            exact hcross i0 j hi01 (by omega) (by omega) hj2
      obtain ⟨r1, r2⟩ := ih dL (mid + 1) b limit1 (decide ((b - a) / 8 ≤ mid - a)) pt.2.2
        (by omega) (by omega) (by omega) lbR
      obtain ⟨dR, hdR⟩ : ∃ dR, dR = pdqsort_func less f dL (mid + 1) b limit1
        (decide ((b - a) / 8 ≤ mid - a)) pt.2.2 := ⟨_, rfl⟩
      rw [← hdR] at r1 r2 ⊢
      refine ⟨sorted_of_parts hw pt.1 dR a b mid t4 t5 ?_ ?_ ?_ ?_ r1, ?_⟩
      · intro k hk1 hk2
        obtain ⟨k0, hk01, hk02, hk03⟩ := l2.inside k hk1 hk2
        exact ⟨k0, hk01, hk02, (r2.outside k (Or.inl (by omega))).trans hk03⟩
      · exact (r2.outside mid (Or.inl (by omega))).trans (l2.outside mid (Or.inr (le_refl _)))
      · intro k hk1 hk2
        obtain ⟨k0, hk01, hk02, hk03⟩ := r2.inside k (by omega) hk2
        exact ⟨k0, by omega, hk02, hk03.trans (l2.outside k0 (Or.inr (by omega)))⟩
      · exact l1.congr (fun k hk1 hk2 => r2.outside k (Or.inl (by omega)))
      · exact SwapsIn.trans s3 (SwapsIn.trans t3 (SwapsIn.trans
          (l2.mono (le_refl _) (by omega) (by omega)) (r2.mono (by omega) (le_refl _) (by omega))))
    · rw [if_neg hside]
      have lbR0 : LeftBound less pt.1 (mid + 1) b := by
        intro i j hi hj1 hj2
        by_cases hia : i < a
        · exact lbt i j hia (by omega) hj2
        · exact hcross i j (by omega) (by omega) (by omega) hj2
      obtain ⟨r1, r2⟩ := ih pt.1 (mid + 1) b limit1 true true (by omega) (by omega) (by omega)
        lbR0
      obtain ⟨dR, hdR⟩ : ∃ dR, dR = pdqsort_func less f pt.1 (mid + 1) b limit1 true true :=
        ⟨_, rfl⟩
      rw [← hdR] at r1 r2 ⊢
      have hlenR : dR.length = pt.1.length := r2.length_eq
      have lbL : LeftBound less dR a mid := by
        intro i j hi hj1 hj2
        rw [lessAt_congr less pt.1 dR j i j i (r2.outside j (Or.inl (by omega)))
          (r2.outside i (Or.inl (by omega)))]
        exact lbt i j hi hj1 (by omega)
      obtain ⟨l1, l2⟩ := ih dR a mid limit1 (decide ((b - a) / 8 ≤ b - mid)) pt.2.2 t1
        (by omega) (by omega) lbL
      obtain ⟨dL, hdL⟩ : ∃ dL, dL = pdqsort_func less f dR a mid limit1
        (decide ((b - a) / 8 ≤ b - mid)) pt.2.2 := ⟨_, rfl⟩
      rw [← hdL] at l1 l2 ⊢
      refine ⟨sorted_of_parts hw pt.1 dL a b mid t4 t5 ?_ ?_ ?_ l1 ?_, ?_⟩
      · intro k hk1 hk2
        obtain ⟨k0, hk01, hk02, hk03⟩ := l2.inside k hk1 hk2
        exact ⟨k0, hk01, hk02, hk03.trans (r2.outside k0 (Or.inl (by omega)))⟩
      · exact (l2.outside mid (Or.inr (le_refl _))).trans (r2.outside mid (Or.inl (by omega)))
      · intro k hk1 hk2
        obtain ⟨k0, hk01, hk02, hk03⟩ := r2.inside k (by omega) hk2
        exact ⟨k0, by omega, hk02, (l2.outside k (Or.inr (by omega))).trans hk03⟩
      · exact r1.congr (fun k hk1 hk2 => l2.outside k (Or.inr (by omega)))
      · exact SwapsIn.trans s3 (SwapsIn.trans t3 (SwapsIn.trans
          (r2.mono (by omega) (le_refl _) (by omega)) (l2.mono (le_refl _) (by omega) (by omega))))

theorem sortSlice_sorted {less : α → α → Bool} (hw : StrictWeak less) (x : List α) :
    (sortSlice less x).Pairwise (fun p q => less q p = false) := by
  obtain ⟨h1, h2⟩ := pdqsort_spec hw (x.length + 1) x 0 x.length (bitsLen x.length) true true
    (Nat.zero_le _) (le_refl _) (by omega) (by intro i j hi; omega)
  unfold sortSlice
  have hlen := h2.length_eq
  rw [List.pairwise_iff_getElem]
  intro i j hi hj hij
  have := h1 i j (Nat.zero_le _) hij (by omega)
  rw [lessAt_eq less _ j i _ _ (List.getElem?_eq_getElem hj) (List.getElem?_eq_getElem hi)] at this
  exact this

theorem sortSlice_perm [DecidableEq α] (less : α → α → Bool) (hw : StrictWeak less)
    (x : List α) : (sortSlice less x).Perm x := by
  obtain ⟨_, h2⟩ := pdqsort_spec hw (x.length + 1) x 0 x.length (bitsLen x.length) true true
    (Nat.zero_le _) (le_refl _) (by omega) (by intro i j hi; omega)
  exact h2.perm

end SortProofs

/-! ## The embedded `sort.Slice` on short slices: insertion sort keeps equal elements in order -/

section SortStable

variable {α : Type}

theorem swapAt_cons_succ (x : α) (xs : List α) (i j : Nat) :
    swapAt (x :: xs) (i + 1) (j + 1) = x :: swapAt xs i j := by
  unfold swapAt
  simp only [List.get?_cons_succ]
  cases xs.get? i <;> cases xs.get? j <;> simp

theorem swapAt_adjacent_filter (p : α → Bool) :
    ∀ (data : List α) (j : Nat) (v : α), data[j + 1]? = some v → p v = false →
      (swapAt data (j + 1) j).filter p = data.filter p := by
  intro data
  induction data with
  | nil => intro j v h _; simp at h
  | cons x xs ih =>
    intro j v h hp
    cases j with
    | zero =>
      cases xs with
      | nil => simp at h
      | cons y ys =>
        simp only [zero_add, List.getElem?_cons_succ, List.getElem?_cons_zero,
          Option.some.injEq] at h
        subst h
        simp [swapAt, List.filter_cons, hp]
    | succ k =>
      rw [swapAt_cons_succ]
      simp only [List.getElem?_cons_succ] at h
      simp only [List.filter_cons, ih k v h hp]

theorem insertionInner_filter (less : α → α → Bool) (p : α → Bool)
    (hp : ∀ x y, less x y = true → p x = false) (a : Nat) :
    ∀ (J : Nat) (data : List α), (insertionInner less a J data).filter p = data.filter p := by
  intro J
  induction J with
  | zero => intro data; rfl
  | succ j ih =>
    intro data
    rw [insertionInner]
    split_ifs with hc
    · obtain ⟨x, y, hx, _, hxy⟩ := (lessAt_true_iff less data (j + 1) j).1 hc.2
      rw [ih, swapAt_adjacent_filter p data j x hx (hp x y hxy)]
    · rfl

theorem insertionOuter_filter (less : α → α → Bool) (p : α → Bool)
    (hp : ∀ x y, less x y = true → p x = false) (a b : Nat) :
    ∀ (fuel i : Nat) (data : List α),
      (insertionOuter less a b fuel i data).filter p = data.filter p := by
  intro fuel
  induction fuel with
  | zero => intro i data; rfl
  | succ f ih =>
    intro i data
    rw [insertionOuter]
    split_ifs
    · rw [ih, insertionInner_filter less p hp]
    · rfl

theorem sortSlice_short_filter (less : α → α → Bool) (p : α → Bool)
    (hp : ∀ x y, less x y = true → p x = false) (x : List α) (hlen : x.length ≤ 12) :
    (sortSlice less x).filter p = x.filter p := by
  unfold sortSlice
  rw [pdqsort_func, if_pos (by omega)]
  exact insertionOuter_filter less p hp _ _ _ _ _

end SortStable

theorem sortSlice_contract : SortContract sortSlice where
  perm := fun less x hw => sortSlice_perm less hw x
  sorted := fun _ x hw => sortSlice_sorted hw x

/-! ## Lemmas on the end of `Update` -/

theorem widgetCmd_isWidget (o : Option Nat) : ∀ c ∈ widgetCmd o, c.isWidget = true := by
  cases o <;> simp [widgetCmd, Cmd.isWidget]

theorem forwardToView_cmds (L : Lib) (m : Model) (msg : Msg) (cmds : List Cmd) :
    ∃ ws, (∀ c ∈ ws, c.isWidget = true) ∧ (forwardToView L m msg cmds).2 = cmds ++ ws := by
  unfold forwardToView
  cases m.State
  · exact ⟨_, widgetCmd_isWidget _, rfl⟩
  · exact ⟨_, widgetCmd_isWidget _, rfl⟩
  · exact ⟨_, widgetCmd_isWidget _, rfl⟩
  · exact ⟨_, widgetCmd_isWidget _, rfl⟩
  · exact ⟨_, widgetCmd_isWidget _, rfl⟩
  · exact ⟨[], by simp, by simp⟩

theorem updateTail_cmds (L : Lib) (m : Model) (msg : Msg) (cmds : List Cmd) :
    ∃ ws, (∀ c ∈ ws, c.isWidget = true) ∧ (updateTail L m msg cmds).2 = cmds ++ ws := by
  obtain ⟨ws, hws, h⟩ := forwardToView_cmds L m msg cmds
  refine ⟨ws ++ widgetCmd (L.spinnerUpdate (forwardToView L m msg cmds).1.Spinner msg).2, ?_, ?_⟩
  · intro c hc
    rcases List.mem_append.1 hc with hc | hc
    · exact hws c hc
    · exact widgetCmd_isWidget _ c hc
  · simp [updateTail, h, List.append_assoc]

theorem forwardToView_State (L : Lib) (m : Model) (msg : Msg) (cmds : List Cmd) :
    (forwardToView L m msg cmds).1.State = m.State := by
  unfold forwardToView; cases h : m.State <;> simp [h]

theorem forwardToView_Polling (L : Lib) (m : Model) (msg : Msg) (cmds : List Cmd) :
    (forwardToView L m msg cmds).1.Polling = m.Polling := by
  unfold forwardToView; cases m.State <;> rfl

theorem forwardToView_Items (L : Lib) (m : Model) (msg : Msg) (cmds : List Cmd) :
    (forwardToView L m msg cmds).1.Items = m.Items := by
  unfold forwardToView; cases m.State <;> rfl

theorem forwardToView_SelectedPodcast (L : Lib) (m : Model) (msg : Msg) (cmds : List Cmd) :
    (forwardToView L m msg cmds).1.SelectedPodcast = m.SelectedPodcast := by
  unfold forwardToView; cases m.State <;> rfl

theorem forwardToView_Error (L : Lib) (m : Model) (msg : Msg) (cmds : List Cmd) :
    (forwardToView L m msg cmds).1.Error = m.Error := by
  unfold forwardToView; cases m.State <;> rfl

theorem forwardToView_HasAPIKey (L : Lib) (m : Model) (msg : Msg) (cmds : List Cmd) :
    (forwardToView L m msg cmds).1.HasAPIKey = m.HasAPIKey := by
  unfold forwardToView; cases m.State <;> rfl

@[simp] theorem updateTail_State (L : Lib) (m : Model) (msg : Msg) (cmds : List Cmd) :
    (updateTail L m msg cmds).1.State = m.State := by
  simp only [updateTail]
  split <;> simp [buildItemsTable, forwardToView_State]

@[simp] theorem updateTail_Polling (L : Lib) (m : Model) (msg : Msg) (cmds : List Cmd) :
    (updateTail L m msg cmds).1.Polling = m.Polling := by
  simp only [updateTail]
  split <;> simp [buildItemsTable, forwardToView_Polling]

@[simp] theorem updateTail_Items (L : Lib) (m : Model) (msg : Msg) (cmds : List Cmd) :
    (updateTail L m msg cmds).1.Items = m.Items := by
  simp only [updateTail]
  split <;> simp [buildItemsTable, forwardToView_Items]

@[simp] theorem updateTail_SelectedPodcast (L : Lib) (m : Model) (msg : Msg) (cmds : List Cmd) :
    (updateTail L m msg cmds).1.SelectedPodcast = m.SelectedPodcast := by
  simp only [updateTail]
  split <;> simp [buildItemsTable, forwardToView_SelectedPodcast]

@[simp] theorem updateTail_Error (L : Lib) (m : Model) (msg : Msg) (cmds : List Cmd) :
    (updateTail L m msg cmds).1.Error = m.Error := by
  simp only [updateTail]
  split <;> simp [buildItemsTable, forwardToView_Error]

@[simp] theorem updateTail_HasAPIKey (L : Lib) (m : Model) (msg : Msg) (cmds : List Cmd) :
    (updateTail L m msg cmds).1.HasAPIKey = m.HasAPIKey := by
  simp only [updateTail]
  split <;> simp [buildItemsTable, forwardToView_HasAPIKey]

theorem filter_widgets_nil (p : Cmd → Bool) (hp : ∀ c, c.isWidget = true → p c = false)
    (ws : List Cmd) (hws : ∀ c ∈ ws, c.isWidget = true) : ws.filter p = [] := by
  rw [List.filter_eq_nil_iff]
  intro c hc
  simp [hp c (hws c hc)]

@[simp] theorem updateTail_countTicks (L : Lib) (m : Model) (msg : Msg) (cmds : List Cmd) :
    countTicks (updateTail L m msg cmds).2 = countTicks cmds := by
  obtain ⟨ws, hws, h⟩ := updateTail_cmds L m msg cmds
  rw [h, countTicks, List.filter_append, filter_widgets_nil _ _ ws hws]
  · simp [countTicks]
  · intro c hc; cases c <;> simp_all [Cmd.isWidget]

@[simp] theorem updateTail_countUsage (L : Lib) (m : Model) (msg : Msg) (cmds : List Cmd) :
    countUsage (updateTail L m msg cmds).2 = countUsage cmds := by
  obtain ⟨ws, hws, h⟩ := updateTail_cmds L m msg cmds
  rw [h, countUsage, List.filter_append, filter_widgets_nil _ _ ws hws]
  · simp [countUsage]
  · intro c hc; cases c <;> simp_all [Cmd.isWidget]

@[simp] theorem updateTail_countFetches (L : Lib) (m : Model) (msg : Msg) (cmds : List Cmd) :
    countFetches (updateTail L m msg cmds).2 = countFetches cmds := by
  obtain ⟨ws, hws, h⟩ := updateTail_cmds L m msg cmds
  rw [h, countFetches, List.filter_append, filter_widgets_nil _ _ ws hws]
  · simp [countFetches]
  · intro c hc; cases c <;> simp_all [Cmd.isWidget]

@[simp] theorem updateTail_countAdds (L : Lib) (m : Model) (msg : Msg) (cmds : List Cmd) :
    countAdds (updateTail L m msg cmds).2 = countAdds cmds := by
  obtain ⟨ws, hws, h⟩ := updateTail_cmds L m msg cmds
  rw [h, countAdds, List.filter_append, filter_widgets_nil _ _ ws hws]
  · simp [countAdds]
  · intro c hc; cases c <;> simp_all [Cmd.isWidget]

theorem updateTail_mem (L : Lib) (m : Model) (msg : Msg) (cmds : List Cmd) (c : Cmd)
    (hc : c ∈ cmds) : c ∈ (updateTail L m msg cmds).2 := by
  obtain ⟨ws, _, h⟩ := updateTail_cmds L m msg cmds
  rw [h]; exact List.mem_append_left _ hc

theorem updateTail_mem_iff (L : Lib) (m : Model) (msg : Msg) (cmds : List Cmd) (c : Cmd)
    (hc : c.isWidget = false) : c ∈ (updateTail L m msg cmds).2 ↔ c ∈ cmds := by
  obtain ⟨ws, hws, h⟩ := updateTail_cmds L m msg cmds
  rw [h, List.mem_append]
  constructor
  · rintro (h1 | h1)
    · exact h1
    · rw [hws c h1] at hc; exact absurd hc (by decide)
  · exact Or.inl

/-! ## The items-loaded transition (claims C1, C2) -/

theorem scanStatuses_fst (items : List Item) (acc : Bool × Bool) :
    (scanStatuses items acc).1 = (acc.1 || hasCreated items) := by
  induction items generalizing acc with
  | nil => simp [scanStatuses, hasCreated]
  | cons i rest ih =>
    rw [scanStatuses]
    split_ifs with h1 h2
    · simp [h1, hasCreated]
    · have hb : (i.Status == "CREATED") = false := by rw [beq_eq_false_iff_ne]; exact h1
      rw [ih]; simp [hasCreated, hb]
    · have hb : (i.Status == "CREATED") = false := by rw [beq_eq_false_iff_ne]; exact h1
      rw [ih]; simp [hasCreated, hb]

theorem scanStatuses_snd (items : List Item) (acc : Bool × Bool)
    (hno : ∀ i ∈ items, i.Status ≠ "CREATED") :
    (scanStatuses items acc).2 = (acc.2 && allSuccess items) := by
  induction items generalizing acc with
  | nil => simp [scanStatuses, allSuccess]
  | cons i rest ih =>
    have h1 : i.Status ≠ "CREATED" := hno i (List.mem_cons_self _ _)
    have hrest : ∀ j ∈ rest, j.Status ≠ "CREATED" := fun j hj => hno j (List.mem_cons_of_mem _ hj)
    rw [scanStatuses]
    split_ifs with h0 h2
    · exact absurd h0 h1
    · rw [ih _ hrest]; simp [allSuccess, h2]
    · have h3 : i.Status = "SUCCESS" := by simpa using h2
      rw [ih _ hrest]; simp [allSuccess, h3]

theorem hasCreated_iff (items : List Item) :
    hasCreated items = true ↔ ∃ i ∈ items, i.Status = "CREATED" := by
  simp [hasCreated]

theorem allSuccess_iff (items : List Item) :
    allSuccess items = true ↔ ∀ i ∈ items, i.Status = "SUCCESS" := by
  simp [allSuccess]

/-- C1: while polling, an `ItemsLoadedMsg` without error that carries at least one `CREATED`
item leaves `Polling` true and schedules exactly one timer, the three-second `tick`; no usage
refresh and no items fetch is dispatched. -/
theorem items_loaded_with_created_reschedules (L : Lib) (m : Model) (items : List Item)
    (hpoll : m.Polling = true) (hcreated : ∃ i ∈ items, i.Status = "CREATED") :
    ∃ m1 cmds, Update L m (.ItemsLoadedMsg items none) = some (m1, cmds) ∧
      m1.Polling = true ∧ m1.Items = items ∧
      countTicks cmds = 1 ∧ tick ∈ cmds ∧ tick = .Tick 3 ∧
      countUsage cmds = 0 ∧ countFetches cmds = 0 := by
  have hc : hasCreated items = true := (hasCreated_iff items).2 hcreated
  have hs : (scanStatuses items (false, true)).1 = true := by
    rw [scanStatuses_fst]; simp [hc]
  refine ⟨(updateItemsLoaded L m items).1, (updateItemsLoaded L m items).2, rfl, ?_⟩
  have hU : updateItemsLoaded L m items =
      updateTail L (buildItemsTable L { m with Items := items })
        (.ItemsLoadedMsg items none) [tick] := by
    simp [updateItemsLoaded, hs, hpoll]
  rw [hU]
  refine ⟨?_, ?_, ?_, ?_, rfl, ?_, ?_⟩
  · simp [buildItemsTable, hpoll]
  · simp [buildItemsTable]
  · rw [updateTail_countTicks]; simp [countTicks, tick]
  · exact updateTail_mem _ _ _ _ _ (List.mem_singleton_self _)
  · rw [updateTail_countUsage]; simp [countUsage, tick]
  · rw [updateTail_countFetches]; simp [countFetches, tick]

/-- Witness of C1: a polling model receives one `CREATED` item. -/
theorem items_loaded_with_created_reschedules_witness :
    ∃ m1 cmds,
      Update ⟨fun t _ => (t, none), fun l _ => (l, none), fun t _ => (t, none),
          fun s _ => (s, none), fun _ => "*", fun _ => none, none, fun _ => "", fun _ xs => xs⟩
        { InitialModel with Polling := true }
        (.ItemsLoadedMsg [⟨"CREATED", "", "", ""⟩] none) = some (m1, cmds) ∧
      m1.Polling = true ∧ m1.Items = [⟨"CREATED", "", "", ""⟩] ∧
      countTicks cmds = 1 ∧ tick ∈ cmds ∧ tick = .Tick 3 ∧
      countUsage cmds = 0 ∧ countFetches cmds = 0 :=
  items_loaded_with_created_reschedules _ { InitialModel with Polling := true }
    [⟨"CREATED", "", "", ""⟩] rfl ⟨_, List.mem_singleton_self _, rfl⟩

/-- C2: an `ItemsLoadedMsg` without error that carries no `CREATED` item ends polling and
schedules no timer; a usage refresh is dispatched exactly when the item list is non-empty and
every item has status `SUCCESS` (and then once). -/
theorem items_loaded_without_created_stops (L : Lib) (m : Model) (items : List Item)
    (hnone : ∀ i ∈ items, i.Status ≠ "CREATED") :
    ∃ m1 cmds, Update L m (.ItemsLoadedMsg items none) = some (m1, cmds) ∧
      m1.Polling = false ∧ m1.Items = items ∧ countTicks cmds = 0 ∧
      (.LoadUsage ∈ cmds ↔ items ≠ [] ∧ ∀ i ∈ items, i.Status = "SUCCESS") ∧
      countUsage cmds ≤ 1 := by
  have hc : hasCreated items = false := by
    rw [Bool.eq_false_iff]; intro h
    obtain ⟨i, hi, hs⟩ := (hasCreated_iff items).1 h
    exact hnone i hi hs
  have hs1 : (scanStatuses items (false, true)).1 = false := by
    rw [scanStatuses_fst]; simp [hc]
  have hs2 : (scanStatuses items (false, true)).2 = allSuccess items := by
    rw [scanStatuses_snd _ _ hnone]; simp
  refine ⟨(updateItemsLoaded L m items).1, (updateItemsLoaded L m items).2, rfl, ?_⟩
  have hU : updateItemsLoaded L m items =
      updateTail L { buildItemsTable L { m with Items := items } with Polling := false }
        (.ItemsLoadedMsg items none)
        (if allSuccess items && decide (0 < items.length) then [.LoadUsage] else []) := by
    simp [updateItemsLoaded, hs1, hs2]
  rw [hU]
  refine ⟨by simp, by simp [buildItemsTable], ?_, ?_, ?_⟩
  · rw [updateTail_countTicks]; split <;> simp [countTicks]
  · rw [updateTail_mem_iff _ _ _ _ Cmd.LoadUsage rfl]
    by_cases ha : allSuccess items = true
    · by_cases hl : 0 < items.length
      · have hne : items ≠ [] := List.ne_nil_of_length_pos hl
        simpa [ha, hl, hne] using (allSuccess_iff items).1 ha
      · have hnil : items = [] := by
          cases items with
          | nil => rfl
          | cons a l => simp at hl
        simp [hnil]
    · have : ¬ ∀ i ∈ items, i.Status = "SUCCESS" := fun h => ha ((allSuccess_iff items).2 h)
      simp [ha, this]
  · rw [updateTail_countUsage]; split <;> simp [countUsage]

/-- Witness of C2: two `SUCCESS` items end polling and trigger the usage refresh. -/
theorem items_loaded_without_created_stops_witness :
    ∃ m1 cmds,
      Update ⟨fun t _ => (t, none), fun l _ => (l, none), fun t _ => (t, none),
          fun s _ => (s, none), fun _ => "*", fun _ => none, none, fun _ => "", fun _ xs => xs⟩
        { InitialModel with Polling := true }
        (.ItemsLoadedMsg [⟨"SUCCESS", "a", "", ""⟩, ⟨"SUCCESS", "b", "", ""⟩] none)
          = some (m1, cmds) ∧
      m1.Polling = false ∧
      m1.Items = [⟨"SUCCESS", "a", "", ""⟩, ⟨"SUCCESS", "b", "", ""⟩] ∧ countTicks cmds = 0 ∧
      (.LoadUsage ∈ cmds ↔
        [(⟨"SUCCESS", "a", "", ""⟩ : Item), ⟨"SUCCESS", "b", "", ""⟩] ≠ [] ∧
          ∀ i ∈ [(⟨"SUCCESS", "a", "", ""⟩ : Item), ⟨"SUCCESS", "b", "", ""⟩],
            i.Status = "SUCCESS") ∧
      countUsage cmds ≤ 1 :=
  items_loaded_without_created_stops _ { InitialModel with Polling := true }
    [⟨"SUCCESS", "a", "", ""⟩, ⟨"SUCCESS", "b", "", ""⟩] (by decide)

/-! ## The items table (claims C3, C9) -/

theorem itemLess_iff (a b : Item) :
    itemLess a b = true ↔
      parseCreatedTime a.Created ≠ 0 ∧
        (parseCreatedTime b.Created = 0 ∨ parseCreatedTime b.Created < parseCreatedTime a.Created) := by
  unfold itemLess Time.IsZero Time.After
  by_cases ha : parseCreatedTime a.Created = 0 <;> by_cases hb : parseCreatedTime b.Created = 0 <;>
    simp [ha, hb]

theorem itemLess_eq_false_iff (a b : Item) :
    itemLess a b = false ↔
      (parseCreatedTime a.Created = 0 ∨
        (parseCreatedTime b.Created ≠ 0 ∧ parseCreatedTime a.Created ≤ parseCreatedTime b.Created)) := by
  rw [← Bool.not_eq_true, itemLess_iff]
  constructor
  · intro h
    by_cases ha : parseCreatedTime a.Created = 0
    · exact Or.inl ha
    · right
      constructor
      · intro hb; exact h ⟨ha, Or.inl hb⟩
      · by_contra hlt; exact h ⟨ha, Or.inr (lt_of_not_le hlt)⟩
  · rintro (ha | ⟨hb, hle⟩) ⟨hna, h2⟩
    · exact hna ha
    · rcases h2 with h2 | h2
      · exact hb h2
      · exact absurd hle (not_le_of_lt h2)

theorem itemLess_strictWeak : StrictWeak itemLess where
  irrefl := by
    intro a
    rw [itemLess_eq_false_iff]
    by_cases ha : parseCreatedTime a.Created = 0
    · exact Or.inl ha
    · exact Or.inr ⟨ha, le_refl _⟩
  trans := by
    intro a b c hab hbc
    rw [itemLess_iff] at *
    obtain ⟨ha, hab⟩ := hab
    obtain ⟨hb, hbc⟩ := hbc
    refine ⟨ha, ?_⟩
    rcases hab with hab | hab
    · exact absurd hab hb
    · rcases hbc with hbc | hbc
      · exact Or.inl hbc
      · exact Or.inr (lt_trans hbc hab)
  incomp := by
    intro a b c hab hbc
    rw [itemLess_eq_false_iff] at *
    rcases hab with ha | ⟨hb, hab⟩
    · exact Or.inl ha
    · rcases hbc with hb0 | ⟨hc, hbc⟩
      · exact absurd hb0 hb
      · exact Or.inr ⟨hc, le_trans hab hbc⟩

theorem timestamped_iff (item : Item) : Timestamped item ↔ parseCreatedTime item.Created ≠ 0 := by
  unfold Timestamped Time.IsZero
  simp

/-- The three items of the display example, as received. -/
theorem example_sorted (s : List Item)
    (hperm : s.Perm [⟨"SUCCESS", "a", "", "2024-01-01T00:00:00Z"⟩, ⟨"SUCCESS", "b", "", ""⟩,
      ⟨"SUCCESS", "c", "", "2024-02-01T00:00:00Z"⟩])
    (hsorted : s.Pairwise (fun a b => itemLess b a = false)) :
    s = [⟨"SUCCESS", "c", "", "2024-02-01T00:00:00Z"⟩,
      ⟨"SUCCESS", "a", "", "2024-01-01T00:00:00Z"⟩, ⟨"SUCCESS", "b", "", ""⟩] := by
  have hlen := hperm.length_eq
  have hnd : s.Nodup := hperm.nodup_iff.2 (by decide)
  match s, hperm, hsorted, hlen, hnd with
  | [x, y, z], hperm, hsorted, _, hnd =>
    have hx := hperm.subset (List.mem_cons_self x _)
    have hy := hperm.subset (List.mem_cons_of_mem x (List.mem_cons_self y _))
    have hz := hperm.subset
      (List.mem_cons_of_mem x (List.mem_cons_of_mem y (List.mem_cons_self z _)))
    simp only [List.mem_cons, List.mem_singleton, List.not_mem_nil, or_false] at hx hy hz
    rcases hx with rfl | rfl | rfl <;> rcases hy with rfl | rfl | rfl <;>
      rcases hz with rfl | rfl | rfl <;>
      first
        | rfl
        | exact absurd hnd (by decide)
        | exact absurd hsorted (by decide)

/-- C3 (as stated, refuted): with the `sort.Slice` of Go 1.19 and later, thirteen items whose
second and third have no timestamp (titles `first`, `second`) are displayed with `second`
before `first`: the items without a timestamp do not keep the order in which they were
received. -/
theorem untimestamped_order_not_preserved :
    titleColumn (buildItemsTable demoLib { InitialModel with Items := thirteenItems }).ItemsTable
        = ["t20", "t19", "t18", "t17", "t12", "t11", "t10", "t09", "t08", "t07", "t06",
            "second", "first"] ∧
      (untimestamped thirteenItems).map (fun i => i.Title) = ["first", "second"] ∧
      untimestamped (sortedItems demoLib thirteenItems) ≠ untimestamped thirteenItems := by
  decide

/-- C3 (amended): for every `sort.Slice` that keeps its contract and every model, the rows of
`buildItemsTable` are the rows of a permutation of the items in which every item with a
timestamp precedes every item without one and the timestamps never increase.  The items
without a timestamp keep the order in which they were received when `sort.Slice` is the one of
Go 1.19 and later and there are at most 12 items; beyond that their order is left to
`sort.Slice`.  The items `[2024-01-01T00:00:00Z, "", 2024-02-01T00:00:00Z]` are displayed as
`[2024-02-01, 2024-01-01, ""]`. -/
theorem buildItemsTable_rows_order (L : Lib) (hsort : SortContract L.sortSlice) (m : Model) :
    (buildItemsTable L m).ItemsTable.rows = (sortedItems L m.Items).map (itemRow L m.Spinner) ∧
    (sortedItems L m.Items).Perm m.Items ∧
    (sortedItems L m.Items).Pairwise (fun a b => Timestamped b → Timestamped a) ∧
    (sortedItems L m.Items).Pairwise (fun a b => Timestamped a → Timestamped b →
      parseCreatedTime b.Created ≤ parseCreatedTime a.Created) ∧
    (L.sortSlice = sortSlice → m.Items.length ≤ 12 →
      untimestamped (sortedItems L m.Items) = untimestamped m.Items) ∧
    sortedItems L [⟨"SUCCESS", "a", "", "2024-01-01T00:00:00Z"⟩, ⟨"SUCCESS", "b", "", ""⟩,
        ⟨"SUCCESS", "c", "", "2024-02-01T00:00:00Z"⟩] =
      [⟨"SUCCESS", "c", "", "2024-02-01T00:00:00Z"⟩,
        ⟨"SUCCESS", "a", "", "2024-01-01T00:00:00Z"⟩, ⟨"SUCCESS", "b", "", ""⟩] := by
  have hs := hsort.sorted itemLess m.Items itemLess_strictWeak
  refine ⟨rfl, hsort.perm itemLess m.Items itemLess_strictWeak, ?_, ?_, ?_, ?_⟩
  · refine hs.imp ?_
    intro a b hab hb
    rw [timestamped_iff] at *
    rw [itemLess_eq_false_iff] at hab
    rcases hab with h | ⟨h, _⟩
    · exact absurd h hb
    · exact h
  · refine hs.imp ?_
    intro a b hab _ hb
    rw [timestamped_iff] at hb
    rw [itemLess_eq_false_iff] at hab
    rcases hab with h | ⟨_, h⟩
    · exact absurd h hb
    · exact h
  · intro hgo hlen
    unfold untimestamped sortedItems
    rw [hgo]
    refine sortSlice_short_filter itemLess _ ?_ m.Items hlen
    intro x y hxy
    have h := ((itemLess_iff x y).1 hxy).1
    simpa [Time.IsZero] using h
  · exact example_sorted _ (hsort.perm itemLess _ itemLess_strictWeak)
      (hsort.sorted itemLess _ itemLess_strictWeak)

/-- Witness of C3: the `sort.Slice` of Go 1.19 and later keeps the contract; the thirteen items
come out as a permutation, ordered by timestamp, and of three items the two without a
timestamp keep their order. -/
theorem buildItemsTable_rows_order_witness :
    SortContract demoLib.sortSlice ∧
    (sortedItems demoLib thirteenItems).Perm thirteenItems ∧
    (sortedItems demoLib thirteenItems).Pairwise (fun a b => Timestamped b → Timestamped a) ∧
    (sortedItems demoLib thirteenItems).Pairwise (fun a b => Timestamped a → Timestamped b →
      parseCreatedTime b.Created ≤ parseCreatedTime a.Created) ∧
    untimestamped (sortedItems demoLib [⟨"ERROR", "first", "", "garbage"⟩,
        ⟨"SUCCESS", "t", "", "2024-01-01T00:00:00Z"⟩, ⟨"SUCCESS", "second", "", ""⟩])
      = untimestamped [⟨"ERROR", "first", "", "garbage"⟩,
        ⟨"SUCCESS", "t", "", "2024-01-01T00:00:00Z"⟩, ⟨"SUCCESS", "second", "", ""⟩] :=
  have h := buildItemsTable_rows_order demoLib sortSlice_contract
    { InitialModel with Items := thirteenItems }
  have h3 := buildItemsTable_rows_order demoLib sortSlice_contract
    { InitialModel with Items := [⟨"ERROR", "first", "", "garbage"⟩,
        ⟨"SUCCESS", "t", "", "2024-01-01T00:00:00Z"⟩, ⟨"SUCCESS", "second", "", ""⟩] }
  ⟨sortSlice_contract, h.2.1, h.2.2.1, h.2.2.2.1, h3.2.2.2.2.1 rfl (by decide)⟩

/-- C9 (as stated, refuted): the created text `garbage` matches none of the layouts, so
`parseCreatedTime` returns the zero time, and its Created cell is `garbage`, not `-`. -/
theorem unparseable_created_cell_is_raw :
    Time.IsZero (parseCreatedTime "garbage") = true ∧
      createdColumn (buildItemsTable demoLib
        { InitialModel with Items := [⟨"ERROR", "x", "", "garbage"⟩] }).ItemsTable
        = ["garbage"] := by
  decide

/-- C9 (amended): for every item for which `parseCreatedTime` returns the zero time, the Created
cell of its row is `-` when the created text is empty, and the created text itself, unchanged,
when it is not. -/
theorem created_cell_of_unparseable (L : Lib) (sp : Spinner) (item : Item)
    (hzero : Time.IsZero (parseCreatedTime item.Created) = true) :
    (itemRow L sp item).get? 2 = some (if item.Created = "" then "-" else item.Created) := by
  by_cases h : item.Created = "" <;> simp [itemRow, createdCell, hzero, h]

/-- Witness of C9: the created text `not a date`. -/
theorem created_cell_of_unparseable_witness :
    (itemRow demoLib ⟨0⟩ ⟨"SUCCESS", "t", "", "not a date"⟩).get? 2
      = some (if "not a date" = "" then "-" else "not a date") :=
  created_cell_of_unparseable demoLib ⟨0⟩ ⟨"SUCCESS", "t", "", "not a date"⟩ (by decide)

/-! ## Invariants of the event loop (claims C4, C5, C6) -/

theorem reachable_of_runEvents (evs : List Event) (m m1 : Model) (hm : Reachable m)
    (h : runEvents m evs = some m1) : Reachable m1 := by
  induction evs generalizing m with
  | nil => simp [runEvents] at h; subst h; exact hm
  | cons ev rest ih =>
    obtain ⟨L, msg⟩ := ev
    simp only [runEvents] at h
    cases hU : Update L m msg with
    | none => simp [hU] at h
    | some r =>
      obtain ⟨m2, cmds⟩ := r
      simp only [hU] at h
      exact ih m2 (Reachable.step L msg hm hU) h

theorem polling_state_step (L : Lib) (m : Model) (msg : Msg) (r : Model × List Cmd)
    (h : Update L m msg = some r) (hok : notStrayWhilePolling m msg = true)
    (hinv : m.Polling = true → m.State = .ViewItemsTable) :
    r.1.Polling = true → r.1.State = .ViewItemsTable := by
  cases msg <;> simp only [Update, updateKey, updateItemsLoaded] at h
  all_goals repeat' (split at h)
  all_goals
    first
      | (simp at h; done)
      | (simp only [Option.some.injEq] at h; subst h
         simp_all [notStrayWhilePolling, movesView, buildItemsTable, buildPodcastTable])

theorem polling_state_invariant (m : Model) (h : ReachableVia notStrayWhilePolling m) :
    m.Polling = true → m.State = .ViewItemsTable := by
  induction h with
  | init => simp [InitialModel]
  | step L msg _ hok hU ih => exact polling_state_step L _ msg _ hU hok ih

theorem fetched_created_step (L : Lib) (m : Model) (msg : Msg) (r : Model × List Cmd)
    (h : Update L m msg = some r) (hmsg : isUrlAdded msg = false)
    (hinv : m.Polling = true → hasCreated m.Items = true) :
    r.1.Polling = true → hasCreated r.1.Items = true := by
  cases msg <;> simp only [Update, updateKey, updateItemsLoaded] at h
  all_goals repeat' (split at h)
  all_goals
    first
      | (simp at h; done)
      | (simp only [Option.some.injEq] at h; subst h
         simp_all [isUrlAdded, buildItemsTable, buildPodcastTable, scanStatuses_fst])

theorem items_loaded_created (L : Lib) (m : Model) (items : List Item) (err : Option String)
    (r : Model × List Cmd) (h : Update L m (.ItemsLoadedMsg items err) = some r) :
    r.1.Polling = true → hasCreated r.1.Items = true := by
  simp only [Update, updateItemsLoaded] at h
  repeat' (split at h)
  all_goals
    first
      | (simp at h; done)
      | (simp only [Option.some.injEq] at h; subst h
         simp_all [buildItemsTable, scanStatuses_fst])

theorem fetched_created_invariant (m : Model) (h : ReachableFetched m) :
    m.Polling = true → hasCreated m.Items = true := by
  induction h with
  | load L items err _ hU => exact items_loaded_created L _ items err _ hU
  | step L msg _ hmsg hU ih => exact fetched_created_step L _ msg _ hU hmsg ih

/-- C4 (as stated, refuted): after the URL `u` has been added, the model is reachable with
`Polling` true while `Items` is still empty; and when a second request for the podcast list is
answered late, the model is reachable with `Polling` true in state `ViewSelectPodcast`. -/
theorem polling_without_created_item_or_items_view :
    (∃ m, runEvents InitialModel addUrlRun = some m ∧ Reachable m ∧
      m.Polling = true ∧ m.State = .ViewItemsTable ∧ m.Items = []) ∧
    (∃ m, runEvents InitialModel latePodcastsRun = some m ∧ Reachable m ∧
      m.Polling = true ∧ m.State = .ViewSelectPodcast) := by
  constructor
  · cases h : runEvents InitialModel addUrlRun with
    | none => exact absurd h (by decide)
    | some m =>
      have hv : (runEvents InitialModel addUrlRun).map (fun m => (m.Polling, m.State, m.Items))
          = some (true, .ViewItemsTable, []) := by decide
      rw [h] at hv
      simp only [Option.map_some', Option.some.injEq, Prod.mk.injEq] at hv
      exact ⟨m, rfl, reachable_of_runEvents _ _ _ .init h, hv.1, hv.2.1, hv.2.2⟩
  · cases h : runEvents InitialModel latePodcastsRun with
    | none => exact absurd h (by decide)
    | some m =>
      have hv : (runEvents InitialModel latePodcastsRun).map (fun m => (m.Polling, m.State))
          = some (true, .ViewSelectPodcast) := by decide
      rw [h] at hv
      simp only [Option.map_some', Option.some.injEq, Prod.mk.injEq] at hv
      exact ⟨m, rfl, reachable_of_runEvents _ _ _ .init h, hv.1, hv.2⟩

/-- C4 (amended): `Polling = true` implies `State = ViewItemsTable` in every model reached
without handling a `FatalErrorMsg`, `ApiKeyCheckedMsg` or `PodcastsLoadedMsg` while polling;
and `Polling = true` implies that `Items` holds a `CREATED` item in every model reached after
an `ItemsLoadedMsg` has been handled and no successful `UrlAddedMsg` since. -/
theorem polling_implies_items_view_and_created (m : Model) :
    (ReachableVia notStrayWhilePolling m → m.Polling = true → m.State = .ViewItemsTable) ∧
    (ReachableFetched m → m.Polling = true → ∃ i ∈ m.Items, i.Status = "CREATED") :=
  ⟨polling_state_invariant m,
    fun h hp => (hasCreated_iff m.Items).1 (fetched_created_invariant m h hp)⟩

theorem reachableVia_of_runVia (ok : Model → Msg → Bool) (evs : List Event) (m m1 : Model)
    (hm : ReachableVia ok m) (h : runVia ok m evs = some m1) : ReachableVia ok m1 := by
  induction evs generalizing m with
  | nil => simp [runVia] at h; subst h; exact hm
  | cons ev rest ih =>
    obtain ⟨L, msg⟩ := ev
    simp only [runVia] at h
    by_cases hok : ok m msg = true
    · rw [if_pos hok] at h
      cases hU : Update L m msg with
      | none => simp [hU] at h
      | some r =>
        obtain ⟨m2, cmds⟩ := r
        simp only [hU] at h
        exact ih m2 (ReachableVia.step L msg hm hok hU) h
    · rw [if_neg hok] at h
      cases h

theorem reachableFetched_of_run (evs : List Event) (L : Lib) (items : List Item)
    (err : Option String) (m m1 : Model)
    (h : runEvents InitialModel (evs ++ [(L, .ItemsLoadedMsg items err)]) = some m1)
    (h0 : runEvents InitialModel evs = some m) : ReachableFetched m1 := by
  have hr := reachable_of_runEvents _ _ _ .init h0
  have happ : ∀ (es : List Event) (a b : Model), runEvents a es = some b →
      runEvents a (es ++ [(L, .ItemsLoadedMsg items err)])
        = runEvents b [(L, .ItemsLoadedMsg items err)] := by
    intro es
    induction es with
    | nil => intro a b hab; simp [runEvents] at hab; subst hab; rfl
    | cons e rest ih =>
      intro a b hab
      obtain ⟨L1, msg1⟩ := e
      simp only [List.cons_append, runEvents] at hab ⊢
      cases hU : Update L1 a msg1 with
      | none => simp [hU] at hab
      | some r =>
        obtain ⟨a1, c⟩ := r
        simp only [hU] at hab ⊢
        exact ih a1 b hab
  rw [happ evs InitialModel m h0] at h
  simp only [runEvents] at h
  cases hU : Update L m (.ItemsLoadedMsg items err) with
  | none => simp [hU] at h
  | some r =>
    obtain ⟨m2, c⟩ := r
    simp only [hU, Option.some.injEq] at h
    subst h
    exact ReachableFetched.load L items err hr hU

/-- Witness of C4: after the URL has been added and its first items, one of them `CREATED`,
have arrived, the model is polling, shows the items table and holds a `CREATED` item. -/
theorem polling_implies_items_view_and_created_witness :
    ∃ m, runEvents InitialModel (addUrlRun ++ [(demoLib, .ItemsLoadedMsg [createdItem] none)])
        = some m ∧
      ReachableVia notStrayWhilePolling m ∧ ReachableFetched m ∧ m.Polling = true ∧
      m.State = .ViewItemsTable ∧ ∃ i ∈ m.Items, i.Status = "CREATED" := by
  cases h : runEvents InitialModel (addUrlRun ++ [(demoLib, .ItemsLoadedMsg [createdItem] none)]) with
  | none => exact absurd h (by decide)
  | some m =>
    cases h0 : runEvents InitialModel addUrlRun with
    | none => exact absurd h0 (by decide)
    | some m0 =>
      have hv : runVia notStrayWhilePolling InitialModel
            (addUrlRun ++ [(demoLib, .ItemsLoadedMsg [createdItem] none)])
          = runEvents InitialModel (addUrlRun ++ [(demoLib, .ItemsLoadedMsg [createdItem] none)]) := by
        decide
      have hp : (runEvents InitialModel
          (addUrlRun ++ [(demoLib, .ItemsLoadedMsg [createdItem] none)])).map (fun m => m.Polling)
            = some true := by decide
      rw [h] at hv hp
      simp only [Option.map_some', Option.some.injEq] at hp
      have hvia := reachableVia_of_runVia _ _ _ _ .init hv
      have hf := reachableFetched_of_run _ _ _ _ _ _ h h0
      have hthm := polling_implies_items_view_and_created m
      exact ⟨m, rfl, hvia, hf, hp, hthm.1 hvia hp, hthm.2 hf hp⟩

theorem loopRun_of_runLoop (evs : List Event) (s s1 : LoopState) (hs : LoopRun s)
    (h : runLoop s evs = some s1) : LoopRun s1 := by
  induction evs generalizing s with
  | nil => simp [runLoop] at h; subst h; exact hs
  | cons ev rest ih =>
    simp only [runLoop] at h
    cases hS : loopStep s ev with
    | none => simp [hS] at h
    | some s2 =>
      simp only [hS] at h
      exact ih s2 (LoopRun.step ev hs hS) h

theorem update_schedules (L : Lib) (m : Model) (msg : Msg) (r : Model × List Cmd)
    (h : Update L m msg = some r) :
    countTicks r.2 + countFetches r.2 ≤
      (consumes msg).1 + (consumes msg).2.1 + (if isUrlAdded msg then 1 else 0) ∧
    countTicks r.2 ≤ (consumes msg).2.1 ∧
    countFetches r.2 ≤ (consumes msg).1 + (if isUrlAdded msg then 1 else 0) := by
  cases msg <;> simp only [Update, updateKey, updateItemsLoaded] at h
  all_goals repeat' (split at h)
  all_goals
    first
      | (simp at h; done)
      | (simp_all; done)
      | (simp only [Option.some.injEq] at h; subst h
         simp only [updateTail_countTicks, updateTail_countFetches, isUrlAdded, consumes]
         first
           | decide
           | (split <;> simp_all [countTicks, countFetches, tick]))

theorem loopStep_bound (s s1 : LoopState) (ev : Event) (h : loopStep s ev = some s1)
    (hinv : s.timers + s.fetches ≤ s.added) : s1.timers + s1.fetches ≤ s1.added := by
  unfold loopStep at h
  split at h
  · simp at h
  · rename_i hc
    cases hU : Update ev.1 s.model ev.2 with
    | none => simp [hU] at h
    | some r =>
      obtain ⟨m1, cmds⟩ := r
      simp only [hU, Option.some.injEq] at h
      subst h
      have hb := update_schedules ev.1 s.model ev.2 (m1, cmds) hU
      simp only [not_or, not_lt] at hc hb
      simp only
      omega

theorem loop_bound_invariant (s : LoopState) (h : LoopRun s) : s.timers + s.fetches ≤ s.added := by
  induction h with
  | init => simp [loopStart]
  | step ev _ hS ih => exact loopStep_bound _ _ ev hS ih

/-- C5 (as stated, refuted): in the run that adds a second URL while the timer of the first is
pending, every `TickMsg`, `ItemsLoadedMsg` and `UrlAddedMsg` answers outstanding work, and two
timers are pending at its end. -/
theorem two_pending_timers :
    ∃ s, runLoop loopStart secondUrlRun = some s ∧ LoopRun s ∧ s.timers = 2 := by
  cases h : runLoop loopStart secondUrlRun with
  | none => exact absurd h (by decide)
  | some s =>
    have hv : (runLoop loopStart secondUrlRun).map (fun s => s.timers) = some 2 := by decide
    rw [h] at hv
    simp only [Option.map_some', Option.some.injEq] at hv
    exact ⟨s, rfl, loopRun_of_runLoop _ _ _ .init h, hv⟩

/-- C5 (amended): in every run of the event loop from `InitialModel` in which each `TickMsg` is
the firing of a scheduled timer, each `ItemsLoadedMsg` the answer to a dispatched items fetch
and each `UrlAddedMsg` the answer to a dispatched add-url task, the pending timers and the
unanswered items fetches together never exceed the number of successful `UrlAddedMsg` handled
so far; so at most one timer is pending as long as at most one URL has been added. -/
theorem pending_timers_bounded (s : LoopState) (h : LoopRun s) :
    s.timers + s.fetches ≤ s.added ∧ (s.added ≤ 1 → s.timers ≤ 1) := by
  have hb := loop_bound_invariant s h
  exact ⟨hb, fun h1 => by omega⟩

/-- Witness of C5: the loop after the first items of the first URL have arrived has one
pending timer and one added URL. -/
theorem pending_timers_bounded_witness :
    ∃ s, runLoop loopStart (addUrlRun ++ [(demoLib, .ItemsLoadedMsg [createdItem] none)])
        = some s ∧ LoopRun s ∧ s.timers = 1 ∧ s.added = 1 ∧
      s.timers + s.fetches ≤ s.added ∧ (s.added ≤ 1 → s.timers ≤ 1) := by
  cases h : runLoop loopStart (addUrlRun ++ [(demoLib, .ItemsLoadedMsg [createdItem] none)]) with
  | none => exact absurd h (by decide)
  | some s =>
    have hv : (runLoop loopStart (addUrlRun ++ [(demoLib, .ItemsLoadedMsg [createdItem] none)])).map
        (fun s => (s.timers, s.added)) = some (1, 1) := by decide
    rw [h] at hv
    simp only [Option.map_some', Option.some.injEq, Prod.mk.injEq] at hv
    have hr := loopRun_of_runLoop _ _ _ .init h
    exact ⟨s, rfl, hr, hv.1, hv.2, pending_timers_bounded s hr⟩

theorem key_state_step (L : Lib) (m : Model) (msg : Msg) (r : Model × List Cmd)
    (h : Update L m msg = some r) (hok : notStaleWithoutKey m msg = true)
    (hinv : m.HasAPIKey = false → m.State = .ViewSetAPIKey ∨ m.State = .ViewFatalError) :
    r.1.HasAPIKey = false → r.1.State = .ViewSetAPIKey ∨ r.1.State = .ViewFatalError := by
  cases msg <;> simp only [Update, updateKey, updateItemsLoaded] at h
  all_goals repeat' (split at h)
  all_goals
    first
      | (simp at h; done)
      | (simp only [Option.some.injEq] at h; subst h
         simp_all [notStaleWithoutKey, entersView, buildItemsTable, buildPodcastTable])

theorem key_state_invariant (m : Model) (h : ReachableVia notStaleWithoutKey m) :
    m.HasAPIKey = false → m.State = .ViewSetAPIKey ∨ m.State = .ViewFatalError := by
  induction h with
  | init => simp [InitialModel]
  | step L msg _ hok hU ih => exact key_state_step L _ msg _ hU hok ih

/-- C6 (as stated, refuted): when the stored key is cleared while the podcast list is being
loaded and the load then fails, the model is reachable in state `ViewMainMenu` with
`HasAPIKey` false. -/
theorem main_menu_without_key :
    ∃ m, runEvents InitialModel clearedKeyRun = some m ∧ Reachable m ∧
      m.State = .ViewMainMenu ∧ m.HasAPIKey = false := by
  cases h : runEvents InitialModel clearedKeyRun with
  | none => exact absurd h (by decide)
  | some m =>
    have hv : (runEvents InitialModel clearedKeyRun).map (fun m => (m.State, m.HasAPIKey))
        = some (.ViewMainMenu, false) := by decide
    rw [h] at hv
    simp only [Option.map_some', Option.some.injEq, Prod.mk.injEq] at hv
    exact ⟨m, rfl, reachable_of_runEvents _ _ _ .init h, hv.1, hv.2⟩

/-- C6 (amended): in every model reached without handling a `PodcastsLoadedMsg` or a
successful `UrlAddedMsg` while `HasAPIKey` is false, `State = ViewMainMenu` implies
`HasAPIKey = true`. -/
theorem main_menu_has_key (m : Model) (h : ReachableVia notStaleWithoutKey m)
    (hs : m.State = .ViewMainMenu) : m.HasAPIKey = true := by
  by_contra hk
  have hf : m.HasAPIKey = false := by simpa using hk
  rcases key_state_invariant m h hf with h1 | h1 <;> rw [hs] at h1 <;> cases h1

/-- Witness of C6: the model after the key check has found a key. -/
theorem main_menu_has_key_witness :
    ReachableVia notStaleWithoutKey { InitialModel with HasAPIKey := true, State := .ViewMainMenu } ∧
      ({ InitialModel with HasAPIKey := true, State := .ViewMainMenu } : Model).State
        = .ViewMainMenu ∧
      ({ InitialModel with HasAPIKey := true, State := .ViewMainMenu } : Model).HasAPIKey
        = true :=
  have hr : ReachableVia notStaleWithoutKey
      { InitialModel with HasAPIKey := true, State := .ViewMainMenu } :=
    ReachableVia.step demoLib (.ApiKeyCheckedMsg true) .init rfl
      (rfl : Update demoLib InitialModel (.ApiKeyCheckedMsg true)
        = some ({ InitialModel with HasAPIKey := true, State := .ViewMainMenu }, [.LoadUsage]))
  ⟨hr, rfl, main_menu_has_key _ hr rfl⟩

/-! ## The URL screen (claims C7, C8) -/

/-- C7 (as stated, refuted): in state `ViewEnterURL` with `podcastOne` selected and the URL
`u` typed, the enter key dispatches the add-url task but the model stays in `ViewEnterURL`
with `Polling` false. -/
theorem enter_url_stays_on_url_screen :
    (Update demoLib
        { InitialModel with State := .ViewEnterURL, SelectedPodcast := some podcastOne,
                            UrlInput := { value := "u", focus := true, CharLimit := 500 } }
        (.KeyMsg "enter")).map (fun r => (r.1.State, r.1.Polling, r.2))
      = some (.ViewEnterURL, false, [.AddURL "p1" "u"]) := by
  decide

/-- The `UrlAddedMsg` branch without error, in any model in which a podcast is selected: the
items table is shown, polling starts, the selection is kept and exactly one items fetch is
dispatched, for the podcast selected in that model. -/
theorem url_added_shows_items (L : Lib) (m : Model) (p : Podcast) (item : Item)
    (hp : m.SelectedPodcast = some p) :
    ∃ m2 cmds, Update L m (.UrlAddedMsg item none) = some (m2, cmds) ∧
      m2.State = .ViewItemsTable ∧ m2.Polling = true ∧ m2.SelectedPodcast = some p ∧
      .LoadItems p.ID ∈ cmds ∧ countFetches cmds = 1 := by
  have hU : Update L m (.UrlAddedMsg item none)
      = some (updateTail L { m with Error := "", State := .ViewItemsTable, Polling := true }
          (.UrlAddedMsg item none) [.LoadItems p.ID]) := by
    simp only [Update, hp]
  obtain ⟨r, hr⟩ : ∃ r, r = updateTail L
      { m with Error := "", State := .ViewItemsTable, Polling := true }
      (.UrlAddedMsg item none) [.LoadItems p.ID] := ⟨_, rfl⟩
  rw [← hr] at hU
  refine ⟨r.1, r.2, hU, ?_, ?_, ?_, ?_, ?_⟩ <;> rw [hr]
  · rw [updateTail_State]
  · rw [updateTail_Polling]
  · rw [updateTail_SelectedPodcast]
    exact hp
  · exact updateTail_mem _ _ _ _ _ (List.mem_singleton_self _)
  · rw [updateTail_countFetches]; simp [countFetches]

/-- C7 (amended): in state `ViewEnterURL` with a selected podcast and a non-empty URL input,
the enter key dispatches exactly one command, the add-url task for the selected podcast's id
and the entered URL, clears the input and changes nothing else (`State` stays `ViewEnterURL`,
`Polling` keeps its value).  State `ViewItemsTable` with `Polling = true` is produced by the
`UrlAddedMsg` without error: handled in any model in which a podcast is selected, it yields
state `ViewItemsTable` with `Polling = true`, keeps the selection and dispatches exactly one
items fetch, for the podcast selected in that model; when it is the next event after the enter
key, that is the podcast the URL was submitted for. -/
theorem enter_url_dispatches_add (L : Lib) (m : Model) (p : Podcast)
    (hs : m.State = .ViewEnterURL) (hp : m.SelectedPodcast = some p)
    (hu : m.UrlInput.Value ≠ "") :
    Update L m (.KeyMsg "enter")
        = some ({ m with UrlInput := m.UrlInput.SetValue "" }, [.AddURL p.ID m.UrlInput.Value]) ∧
    (∀ (L1 : Lib) (m1 : Model) (p1 : Podcast) (item : Item), m1.SelectedPodcast = some p1 →
      ∃ m2 cmds, Update L1 m1 (.UrlAddedMsg item none) = some (m2, cmds) ∧
        m2.State = .ViewItemsTable ∧ m2.Polling = true ∧ m2.SelectedPodcast = some p1 ∧
        .LoadItems p1.ID ∈ cmds ∧ countFetches cmds = 1) ∧
    (∀ (L1 : Lib) (item : Item), ∃ m2 cmds,
      Update L1 { m with UrlInput := m.UrlInput.SetValue "" } (.UrlAddedMsg item none)
        = some (m2, cmds) ∧
      m2.State = .ViewItemsTable ∧ m2.Polling = true ∧ m2.SelectedPodcast = some p ∧
      .LoadItems p.ID ∈ cmds ∧ countFetches cmds = 1) := by
  refine ⟨?_, ?_, ?_⟩
  · simp [Update, updateKey, hs, hp, hu]
  · intro L1 m1 p1 item hp1
    exact url_added_shows_items L1 m1 p1 item hp1
  · intro L1 item
    exact url_added_shows_items L1 { m with UrlInput := m.UrlInput.SetValue "" } p item hp

/-- Witness of C7: `podcastOne` selected, URL `u`; the enter key dispatches the add-url task
and stays on the URL screen, and the answer that arrives next shows the items table. -/
theorem enter_url_dispatches_add_witness :
    Update demoLib
        { InitialModel with State := .ViewEnterURL, SelectedPodcast := some podcastOne,
                            UrlInput := { value := "u", focus := true, CharLimit := 500 } }
        (.KeyMsg "enter")
      = some ({ InitialModel with State := .ViewEnterURL, SelectedPodcast := some podcastOne,
                                  UrlInput := { value := "", focus := true, CharLimit := 500 } },
          [.AddURL "p1" "u"]) ∧
    ∃ m2 cmds, Update demoLib
        { InitialModel with State := .ViewEnterURL, SelectedPodcast := some podcastOne,
                            UrlInput := { value := "", focus := true, CharLimit := 500 } }
        (.UrlAddedMsg createdItem none) = some (m2, cmds) ∧
      m2.State = .ViewItemsTable ∧ m2.Polling = true ∧ m2.SelectedPodcast = some podcastOne ∧
      .LoadItems "p1" ∈ cmds ∧ countFetches cmds = 1 :=
  have h := enter_url_dispatches_add demoLib
    { InitialModel with State := .ViewEnterURL, SelectedPodcast := some podcastOne,
                        UrlInput := { value := "u", focus := true, CharLimit := 500 } }
    podcastOne rfl rfl (by decide)
  ⟨h.1, h.2.2 demoLib createdItem⟩

/-- C8: in state `ViewEnterURL` with an empty URL input, the enter key leaves `State`,
`SelectedPodcast`, `Polling`, `Items` and `Error` unchanged and dispatches no add-url, items
fetch or usage task (the only commands are those of the widgets). -/
theorem enter_empty_url_changes_nothing (L : Lib) (m : Model)
    (hs : m.State = .ViewEnterURL) (hu : m.UrlInput.Value = "") :
    ∃ m1 cmds, Update L m (.KeyMsg "enter") = some (m1, cmds) ∧
      m1.State = m.State ∧ m1.SelectedPodcast = m.SelectedPodcast ∧ m1.Polling = m.Polling ∧
      m1.Items = m.Items ∧ m1.Error = m.Error ∧
      countAdds cmds = 0 ∧ countFetches cmds = 0 ∧ countUsage cmds = 0 ∧
      ∀ c ∈ cmds, c.isWidget = true := by
  have hU : Update L m (.KeyMsg "enter") = some (updateTail L m (.KeyMsg "enter") []) := by
    simp only [Update, updateKey, hs]
    cases m.SelectedPodcast <;> simp [hu]
  obtain ⟨ws, hws, hcm⟩ := updateTail_cmds L m (.KeyMsg "enter") []
  obtain ⟨r, hr⟩ : ∃ r, r = updateTail L m (.KeyMsg "enter") [] := ⟨_, rfl⟩
  rw [← hr] at hU
  refine ⟨r.1, r.2, hU, ?_, ?_, ?_, ?_, ?_, ?_, ?_, ?_, ?_⟩ <;> rw [hr]
  · rw [updateTail_State]
  · rw [updateTail_SelectedPodcast]
  · rw [updateTail_Polling]
  · rw [updateTail_Items]
  · rw [updateTail_Error]
  · rw [updateTail_countAdds]; rfl
  · rw [updateTail_countFetches]; rfl
  · rw [updateTail_countUsage]; rfl
  · rw [hcm]; simpa using hws

/-- Witness of C8: the URL screen right after a podcast has been chosen. -/
theorem enter_empty_url_changes_nothing_witness :
    ∃ m1 cmds,
      Update demoLib { InitialModel with State := .ViewEnterURL, SelectedPodcast := some podcastOne }
        (.KeyMsg "enter") = some (m1, cmds) ∧
      m1.State = .ViewEnterURL ∧ m1.SelectedPodcast = some podcastOne ∧ m1.Polling = false ∧
      m1.Items = [] ∧ m1.Error = "" ∧
      countAdds cmds = 0 ∧ countFetches cmds = 0 ∧ countUsage cmds = 0 ∧
      ∀ c ∈ cmds, c.isWidget = true :=
  enter_empty_url_changes_nothing demoLib
    { InitialModel with State := .ViewEnterURL, SelectedPodcast := some podcastOne } rfl rfl

/-! ## formatBytes (claim C10) -/

theorem excessBits_small (n : Nat) (h : n < 2 ^ 53) : excessBits n n = 0 := by
  cases n with
  | zero => rfl
  | succ k =>
    have h3 : k < 9007199254740991 := by norm_num at h; omega
    simp [excessBits, h3]

theorem float64OfNat_small (n : Nat) (h : n < 2 ^ 53) : float64OfNat n = n := by
  simp [float64OfNat, excessBits_small n h, roundHalfEven, Nat.mod_one]

theorem roundHalfEven_near (num den : Nat) (hden : 0 < den) :
    2 * (roundHalfEven num den * den) ≤ 2 * num + den ∧
    2 * num ≤ 2 * (roundHalfEven num den * den) + den ∧
    ((2 * (roundHalfEven num den * den) = 2 * num + den ∨
      2 * num = 2 * (roundHalfEven num den * den) + den) → roundHalfEven num den % 2 = 0) := by
  have h1 := Nat.div_add_mod num den
  have h2 := Nat.mod_lt num hden
  obtain ⟨t, ht⟩ : ∃ t, t = den * (num / den) := ⟨_, rfl⟩
  rw [← ht] at h1
  unfold roundHalfEven
  split_ifs with hc
  · have e : (num / den + 1) * den = t + den := by rw [ht]; ring
    rw [e]
    refine ⟨by omega, by omega, ?_⟩
    intro h3
    rcases hc with hc | ⟨hc, hodd⟩
    · omega
    · omega
  · have e : num / den * den = t := by rw [ht]; ring
    rw [e]
    simp only [not_or, not_lt, not_and] at hc
    refine ⟨by omega, by omega, ?_⟩
    intro h3
    have h4 : 2 * (num % den) = den := by omega
    have := hc.2 h4
    omega

theorem rounded_of_near (n U h : Nat) (hU : 0 < U)
    (h1 : 2 * (h * U) ≤ 2 * (n * 100) + U) (h2 : 2 * (n * 100) ≤ 2 * (h * U) + U) :
    IsRoundedToTwoDecimals ((n : ℚ) / U) h := by
  unfold IsRoundedToTwoDecimals
  have hUq : (0 : ℚ) < U := by exact_mod_cast hU
  have e : (h : ℚ) / 100 - (n : ℚ) / U = ((h : ℚ) * U - n * 100) / (100 * U) := by
    field_simp
    ring
  have h1q : (2 : ℚ) * (h * U) ≤ 2 * (n * 100) + U := by exact_mod_cast h1
  have h2q : (2 : ℚ) * (n * 100) ≤ 2 * (h * U) + U := by exact_mod_cast h2
  rw [e, abs_le]
  constructor
  · rw [le_div_iff₀ (by positivity)]; nlinarith
  · rw [div_le_iff₀ (by positivity)]; nlinarith

theorem formatBytes_unit (n U : Nat) (suffix : String) (hn : n < 2 ^ 53) (hU : 0 < U)
    (hfmt : formatBytes n = sprintf2f (float64OfNat n) U ++ suffix) :
    ∃ h : Nat, formatBytes n = fixed2 h ++ suffix ∧ IsRoundedToTwoDecimals ((n : ℚ) / U) h ∧
      (|(h : ℚ) / 100 - (n : ℚ) / U| = 1 / 200 → h % 2 = 0) := by
  obtain ⟨h1, h2, h3⟩ := roundHalfEven_near (n * 100) U hU
  refine ⟨roundHalfEven (n * 100) U, ?_, rounded_of_near n U _ hU h1 h2, ?_⟩
  · rw [hfmt, float64OfNat_small n hn]; rfl
  · intro htie
    apply h3
    have hUq : (0 : ℚ) < U := by exact_mod_cast hU
    have e : ((roundHalfEven (n * 100) U : Nat) : ℚ) / 100 - (n : ℚ) / U
        = (((roundHalfEven (n * 100) U : Nat) : ℚ) * U - n * 100) / (100 * U) := by
      field_simp
      ring
    rw [e] at htie
    rcases abs_eq (by norm_num : (0 : ℚ) ≤ 1 / 200) |>.1 htie with h4 | h4
    · left
      rw [div_eq_iff (by positivity)] at h4
      have h5 : (2 : ℚ) * ((roundHalfEven (n * 100) U : Nat) * U) = 2 * ((n : ℚ) * 100) + U := by
        linarith
      exact_mod_cast h5
    · right
      rw [div_eq_iff (by positivity)] at h4
      have h5 : (2 : ℚ) * ((n : ℚ) * 100) = 2 * ((roundHalfEven (n * 100) U : Nat) * U) + U := by
        linarith
      exact_mod_cast h5

/-- C10 (as stated, refuted): for `n = 9007199270847119` (above 2^53) `formatBytes` prints
`8388608.02 GB`, but 8388608.02 is farther than half a hundredth from `n / 1024^3`, whose
rounding to two decimals is 8388608.01: the conversion to `float64` has moved `n` first. -/
theorem formatBytes_above_float_precision :
    formatBytes 9007199270847119 = "8388608.02 GB" ∧
    fixed2 838860802 ++ (specUnit 9007199270847119).2 = "8388608.02 GB" ∧
    ¬ IsRoundedToTwoDecimals ((9007199270847119 : ℚ) / (specUnit 9007199270847119).1) 838860802 ∧
    IsRoundedToTwoDecimals ((9007199270847119 : ℚ) / (specUnit 9007199270847119).1) 838860801 := by
  refine ⟨by decide, by decide, ?_, ?_⟩
  · have e : (specUnit 9007199270847119).1 = 1024 ^ 3 := by decide
    rw [e]
    unfold IsRoundedToTwoDecimals
    rw [abs_le]
    norm_num
  · have e : (specUnit 9007199270847119).1 = 1024 ^ 3 := by decide
    rw [e]
    unfold IsRoundedToTwoDecimals
    rw [abs_le]
    norm_num

/-- C10 (amended): `formatBytes` uses binary units.  For `0 ≤ n < 1024` it returns the decimal
integer `n` followed by ` B`.  For `1024 ≤ n < 2^53` it returns `n` divided by the largest of
1024, 1024², 1024³ not exceeding `n`, rounded to two decimals with ties to the even hundredth,
followed by ` KB`, ` MB` or ` GB`.  In particular `formatBytes 0 = "0 B"`,
`formatBytes 1536 = "1.50 KB"`, `formatBytes 1048576 = "1.00 MB"` and
`formatBytes 1073741824 = "1.00 GB"`. -/
theorem formatBytes_binary_units (n : Nat) (hn : n < 2 ^ 53) :
    (n < 1024 → formatBytes n = toString n ++ " B") ∧
    (1024 ≤ n → ∃ h : Nat, formatBytes n = fixed2 h ++ (specUnit n).2 ∧
      IsRoundedToTwoDecimals ((n : ℚ) / (specUnit n).1) h ∧
      (|(h : ℚ) / 100 - (n : ℚ) / (specUnit n).1| = 1 / 200 → h % 2 = 0)) ∧
    formatBytes 0 = "0 B" ∧ formatBytes 1536 = "1.50 KB" ∧
    formatBytes 1048576 = "1.00 MB" ∧ formatBytes 1073741824 = "1.00 GB" := by
  refine ⟨?_, ?_, by decide, by decide, by decide, by decide⟩
  · intro h
    have h1 : ¬ ((GB : Int) ≤ n) := by simp only [GB, MB, KB]; omega
    have h2 : ¬ ((MB : Int) ≤ n) := by simp only [MB, KB]; omega
    have h3 : ¬ ((KB : Int) ≤ n) := by simp only [KB]; omega
    simp only [formatBytes, h1, h2, h3, if_false]
    rfl
  · intro h
    by_cases hG : (1024 ^ 3 : Int) ≤ n
    · have e : specUnit n = (1024 ^ 3, " GB") := by unfold specUnit; rw [if_pos hG]
      rw [e]
      apply formatBytes_unit n (1024 ^ 3) " GB" hn (by norm_num)
      have : (GB : Int) ≤ n := by simp only [GB, MB, KB]; omega
      simp only [formatBytes, this, if_true, Int.toNat_ofNat]
      rfl
    · by_cases hM : (1024 ^ 2 : Int) ≤ n
      · have e : specUnit n = (1024 ^ 2, " MB") := by
          unfold specUnit; rw [if_neg hG, if_pos hM]
        rw [e]
        apply formatBytes_unit n (1024 ^ 2) " MB" hn (by norm_num)
        have h1 : ¬ ((GB : Int) ≤ n) := by simp only [GB, MB, KB]; omega
        have h2 : (MB : Int) ≤ n := by simp only [MB, KB]; omega
        simp only [formatBytes, h1, h2, if_true, if_false, Int.toNat_ofNat]
        rfl
      · have e : specUnit n = (1024, " KB") := by
          unfold specUnit; rw [if_neg hG, if_neg hM]
        rw [e]
        apply formatBytes_unit n 1024 " KB" hn (by norm_num)
        have h1 : ¬ ((GB : Int) ≤ n) := by simp only [GB, MB, KB]; omega
        have h2 : ¬ ((MB : Int) ≤ n) := by simp only [MB, KB]; omega
        have h3 : (KB : Int) ≤ n := by simp only [KB]; omega
        simp only [formatBytes, h1, h2, h3, if_true, if_false, Int.toNat_ofNat]
        rfl

/-- Witness of C10: 1152 bytes are 1.125 KB, a tie, printed as `1.12 KB`. -/
theorem formatBytes_binary_units_witness :
    (1152 : Nat) < 2 ^ 53 ∧ formatBytes (1152 : Nat) = "1.12 KB" ∧
    (1024 ≤ 1152 → ∃ h : Nat, formatBytes (1152 : Nat) = fixed2 h ++ (specUnit (1152 : Nat)).2 ∧
      IsRoundedToTwoDecimals (((1152 : Nat) : ℚ) / (specUnit (1152 : Nat)).1) h ∧
      (|(h : ℚ) / 100 - ((1152 : Nat) : ℚ) / (specUnit (1152 : Nat)).1| = 1 / 200 → h % 2 = 0)) :=
  ⟨by norm_num, by decide, (formatBytes_binary_units 1152 (by norm_num)).2.1⟩

/-! ## Storing the key and opening the podcast list (claim C11) -/

/-- C11: from state `ViewSetAPIKey` with `key1` in the key input, the enter key leads, when the
credential store accepts the key, to state `ViewMainMenu` with `HasAPIKey = true` and exactly
the usage refresh dispatched, and from that model with `Add YouTube URL` selected the enter key
leads to state `ViewSelectPodcast` with exactly the podcast-list load dispatched; when the store
rejects the key, the state stays `ViewSetAPIKey`, `Error` is set to the store's error and
nothing is dispatched. -/
theorem submit_key_then_add_url (L : Lib) (m : Model) (hs : m.State = .ViewSetAPIKey)
    (hv : m.ApiKeyInput.Value = "key1") :
    (L.SetApiKey "key1" = none →
      ∃ m1, Update L m (.KeyMsg "enter") = some (m1, [.LoadUsage]) ∧
        m1.State = .ViewMainMenu ∧ m1.HasAPIKey = true ∧
        (m1.MainMenu.SelectedItem = some "Add YouTube URL" →
          ∀ L2 : Lib, ∃ m2, Update L2 m1 (.KeyMsg "enter") = some (m2, [.LoadPodcasts]) ∧
            m2.State = .ViewSelectPodcast ∧ m2.HasAPIKey = true)) ∧
    (∀ e, L.SetApiKey "key1" = some e →
      ∃ m1, Update L m (.KeyMsg "enter") = some (m1, []) ∧
        m1.State = .ViewSetAPIKey ∧ m1.Error = e ∧ m1.HasAPIKey = m.HasAPIKey) := by
  constructor
  · intro hok
    obtain ⟨m1, hm1⟩ : ∃ m1 : Model,
        m1 = { m with HasAPIKey := true, Message := "API key saved successfully!",
                      ApiKeyInput := m.ApiKeyInput.SetValue "",
                      State := .ViewMainMenu } := ⟨_, rfl⟩
    have hst : m1.State = .ViewMainMenu := by rw [hm1]
    have hk : m1.HasAPIKey = true := by rw [hm1]
    refine ⟨m1, ?_, hst, hk, ?_⟩
    · rw [hm1]
      simp [Update, updateKey, hs, hv, hok]
    · intro hsel L2
      refine ⟨{ m1 with State := .ViewSelectPodcast, Error := "", Message := "" }, ?_, rfl, hk⟩
      simp [Update, updateKey, hst, hsel]
  · intro e herr
    refine ⟨{ m with Error := e }, ?_, hs, rfl, rfl⟩
    simp [Update, updateKey, hs, hv, herr]

/-- Witness of C11: the start screen with `key1` typed; the keyring of `demoLib` accepts the
key, the keyring of `lockedLib` rejects it. -/
theorem submit_key_then_add_url_witness :
    (∃ m1, Update demoLib
        { InitialModel with ApiKeyInput := { value := "key1", focus := true, CharLimit := 256 } }
        (.KeyMsg "enter") = some (m1, [.LoadUsage]) ∧
      m1.State = .ViewMainMenu ∧ m1.HasAPIKey = true ∧
      ∃ m2, Update demoLib m1 (.KeyMsg "enter") = some (m2, [.LoadPodcasts]) ∧
        m2.State = .ViewSelectPodcast) ∧
    (∃ m1, Update lockedLib
        { InitialModel with ApiKeyInput := { value := "key1", focus := true, CharLimit := 256 } }
        (.KeyMsg "enter") = some (m1, []) ∧
      m1.State = .ViewSetAPIKey ∧ m1.Error = "keyring locked") := by
  constructor
  · obtain ⟨m1, h1, h2, h3, h4⟩ := (submit_key_then_add_url demoLib
      { InitialModel with ApiKeyInput := { value := "key1", focus := true, CharLimit := 256 } }
      rfl rfl).1 rfl
    have hsel : m1.MainMenu.SelectedItem = some "Add YouTube URL" := by
      have e : (Update demoLib
          { InitialModel with ApiKeyInput := { value := "key1", focus := true, CharLimit := 256 } }
          (.KeyMsg "enter")).map (fun r => r.1.MainMenu.SelectedItem)
            = some (some "Add YouTube URL") := by decide
      rw [h1] at e
      simpa using e
    obtain ⟨m2, k1, k2, _⟩ := h4 hsel demoLib
    exact ⟨m1, h1, h2, h3, m2, k1, k2⟩
  · obtain ⟨m1, h1, h2, h3, _⟩ := (submit_key_then_add_url lockedLib
      { InitialModel with ApiKeyInput := { value := "key1", focus := true, CharLimit := 256 } }
      rfl rfl).2 "keyring locked" rfl
    exact ⟨m1, h1, h2, h3⟩

/-! ## The events that end polling (claim C12) -/

/-- C12: `Polling` is false after an `ItemsLoadedMsg` that carries an error, in any state, and
after each of the keys `a`, `m`, `q` and `ctrl+c` in state `ViewItemsTable`, whatever its value
before; and a `TickMsg` received while `Polling` is false dispatches no items fetch and leaves
`Polling` false. -/
theorem polling_forced_off (L : Lib) (m : Model) :
    (∀ (items : List Item) (e : String), ∃ m1 cmds,
      Update L m (.ItemsLoadedMsg items (some e)) = some (m1, cmds) ∧ m1.Polling = false) ∧
    (m.State = .ViewItemsTable →
      ∀ key : String, key = "a" ∨ key = "m" ∨ key = "q" ∨ key = "ctrl+c" →
        ∃ m1 cmds, Update L m (.KeyMsg key) = some (m1, cmds) ∧ m1.Polling = false) ∧
    (m.Polling = false →
      ∀ t : Nat, ∃ m1 cmds, Update L m (.TickMsg t) = some (m1, cmds) ∧
        countFetches cmds = 0 ∧ m1.Polling = false) := by
  refine ⟨?_, ?_, ?_⟩
  · intro items e
    refine ⟨(updateTail L { m with Error := e, Polling := false }
        (.ItemsLoadedMsg items (some e)) []).1,
      (updateTail L { m with Error := e, Polling := false }
        (.ItemsLoadedMsg items (some e)) []).2, rfl, ?_⟩
    simp only [updateTail_Polling]
  · intro hs key hkey
    rcases hkey with h | h | h | h <;> subst h
    · exact ⟨{ m with State := .ViewEnterURL, UrlInput := (m.UrlInput.Focus).SetValue "",
                       Polling := false }, [], by simp [Update, updateKey, hs], rfl⟩
    · exact ⟨{ m with State := .ViewMainMenu, Polling := false, SelectedPodcast := none },
        [.LoadUsage], by simp [Update, updateKey, hs], rfl⟩
    · exact ⟨{ m with Polling := false }, [.Quit], by simp [Update, updateKey, hs], rfl⟩
    · exact ⟨{ m with Polling := false }, [.Quit], by simp [Update, updateKey, hs], rfl⟩
  · intro hp t
    cases hsel : m.SelectedPodcast with
    | none =>
      refine ⟨(updateTail L m (.TickMsg t) []).1, (updateTail L m (.TickMsg t) []).2, ?_, ?_, ?_⟩
      · simp only [Update, hsel]
      · simp only [updateTail_countFetches]
        rfl
      · simp only [updateTail_Polling]
        exact hp
    | some p =>
      refine ⟨(updateTail L m (.TickMsg t) []).1, (updateTail L m (.TickMsg t) []).2, ?_, ?_, ?_⟩
      · simp only [Update, hsel, hp]
        rfl
      · simp only [updateTail_countFetches]
        rfl
      · simp only [updateTail_Polling]
        exact hp

/-- Witness of C12: a polling items table receives the key `a`; the model that results, no
longer polling, receives a `TickMsg` and dispatches no items fetch. -/
theorem polling_forced_off_witness :
    (∃ m1 cmds, Update demoLib
        { InitialModel with State := .ViewItemsTable, SelectedPodcast := some podcastOne,
                            Polling := true } (.KeyMsg "a") = some (m1, cmds) ∧
      m1.Polling = false) ∧
    (∃ m1 cmds, Update demoLib
        { InitialModel with State := .ViewEnterURL, SelectedPodcast := some podcastOne }
        (.TickMsg 0) = some (m1, cmds) ∧ countFetches cmds = 0 ∧ m1.Polling = false) :=
  ⟨(polling_forced_off demoLib
      { InitialModel with State := .ViewItemsTable, SelectedPodcast := some podcastOne,
                          Polling := true }).2.1 rfl "a" (Or.inl rfl),
    (polling_forced_off demoLib
      { InitialModel with State := .ViewEnterURL, SelectedPodcast := some podcastOne }).2.2
        rfl 0⟩

/-! ## The selected podcast behind `UrlAddedMsg` (claim C13) -/

theorem reachable_of_loopRun (s : LoopState) (h : LoopRun s) : Reachable s.model := by
  induction h with
  | init => exact .init
  | step ev _ hstep ih =>
    obtain ⟨L, msg⟩ := ev
    simp only [loopStep] at hstep
    split at hstep
    · cases hstep
    · split at hstep
      · cases hstep
      · rename_i m1 cmds hU
        simp only [Option.some.injEq] at hstep
        subst hstep
        exact Reachable.step L msg ih hU

theorem selected_step (L : Lib) (m : Model) (msg : Msg) (r : Model × List Cmd)
    (h : Update L m msg = some r)
    (hinv : m.State = .ViewEnterURL ∨ m.State = .ViewItemsTable → m.SelectedPodcast ≠ none) :
    r.1.State = .ViewEnterURL ∨ r.1.State = .ViewItemsTable → r.1.SelectedPodcast ≠ none := by
  cases msg <;> simp only [Update, updateKey, updateItemsLoaded] at h
  all_goals repeat' (split at h)
  all_goals
    first
      | (simp at h; done)
      | (simp only [Option.some.injEq] at h; subst h
         simp_all [buildItemsTable, buildPodcastTable])

theorem selected_invariant (m : Model) (h : Reachable m) :
    m.State = .ViewEnterURL ∨ m.State = .ViewItemsTable → m.SelectedPodcast ≠ none := by
  induction h with
  | init => simp [InitialModel]
  | step L msg _ hU ih => exact selected_step L _ msg _ hU ih

/-- C13 (code defect found): `SelectedPodcast` is non-nil in every reachable model whose state
is `ViewEnterURL` or `ViewItemsTable`, and there a `UrlAddedMsg` without error is handled
without a panic.  But a `UrlAddedMsg` without error can arrive in other states: after two URLs
have been submitted, the first add-url task has answered and `m` has led back to the main
menu, `SelectedPodcast` is nil while the second task is outstanding, and `Update` panics on
its answer. -/
theorem url_added_after_main_menu_panics :
    (∀ m, Reachable m → m.State = .ViewEnterURL ∨ m.State = .ViewItemsTable →
      m.SelectedPodcast ≠ none ∧
        ∀ (L : Lib) (item : Item), Update L m (.UrlAddedMsg item none) ≠ none) ∧
    (∃ s, runLoop loopStart doubleSubmitRun = some s ∧ LoopRun s ∧ Reachable s.model ∧
      s.adds = 1 ∧ s.model.State = .ViewMainMenu ∧ s.model.SelectedPodcast = none ∧
      ∀ (L : Lib) (item : Item), Update L s.model (.UrlAddedMsg item none) = none) := by
  constructor
  · intro m hm hs
    have hsel := selected_invariant m hm hs
    refine ⟨hsel, ?_⟩
    intro L item
    cases hp : m.SelectedPodcast with
    | none => exact absurd hp hsel
    | some p => simp [Update, hp]
  · cases h : runLoop loopStart doubleSubmitRun with
    | none => exact absurd h (by decide)
    | some s =>
      have hv : (runLoop loopStart doubleSubmitRun).map
          (fun s => (s.adds, s.model.State, s.model.SelectedPodcast))
            = some (1, .ViewMainMenu, none) := by decide
      rw [h] at hv
      simp only [Option.map_some', Option.some.injEq, Prod.mk.injEq] at hv
      have hr := loopRun_of_runLoop _ _ _ .init h
      refine ⟨s, rfl, hr, reachable_of_loopRun s hr, hv.1, hv.2.1, hv.2.2, ?_⟩
      intro L item
      simp [Update, hv.2.2]

end YtRss
